import Mathlib

/-!
# goJASM: per-method linking and code generation

A shallow embedding of `ijvmasm/method.go`: the `Method`, `Label` and
`Instruction` records, `NewMethod`, `AppendInst`, `VarIndex`, `findLabel`,
`LinkLabels`, `LinkMethods` and `Generate`, followed by theorems about them.

Modelling conventions.

* Go slices of pointers (`[]*Instruction`, `[]*Label`) are lists of records;
  every element is a distinct object (no pointer occurs twice in a slice).
  An in-place write `inst.params[j] = v` becomes a functional update of the
  instruction at its position in the list.
* A Go run-time panic (nil dereference, index out of range, explicit
  `panic`) is an explicit outcome `Run.panic`, which carries the memory state
  at the moment of the panic.
* `uint32` fields are natural numbers (kept below `2^32` by the type), Go's
  `int` is the 64-bit two's-complement integer, written as an `Int` that is
  wrapped by `wrapInt` after arithmetic.
* Go strings are sequences of Unicode code points (valid UTF-8).
* Logging calls (`logrus.Errorf`, `logrus.Debugf`) have no effect on the
  state; only the evaluation of their arguments is modelled.
-/

namespace ijvmasm

/-! ## Outcomes of a run -/

/-- The three run-time panics that the code of `method.go` can raise. -/
inductive PanicKind where
  | nilDeref
  | indexOutOfRange
  | unimplemented
  deriving DecidableEq, Repr

/-- Outcome of running a piece of Go code over a state `σ`: a normal return
with a result, or a panic. Both carry the state reached. -/
inductive Run (σ ρ : Type) where
  | ret (s : σ) (r : ρ)
  | panic (s : σ) (k : PanicKind)
  deriving DecidableEq, Repr

namespace Run

/-- The state reached, whether the run returned or panicked. -/
def state {σ ρ : Type} : Run σ ρ → σ
  | ret s _ => s
  | panic s _ => s

/-- Transport the state of an outcome. -/
def mapState {σ τ ρ : Type} (f : σ → τ) : Run σ ρ → Run τ ρ
  | ret s r => ret (f s) r
  | panic s k => panic (f s) k

/-- The run returned normally. -/
def returned {σ ρ : Type} : Run σ ρ → Bool
  | ret _ _ => true
  | panic _ _ => false

end Run

/-! ## Data model -/

/-- The operand kinds of `opconf`. The five named kinds are the ones
`Generate` handles; `ArgOther` stands for any other value of the type. -/
inductive ArgType where
  | ArgByte
  | ArgVar
  | ArgLabel
  | ArgConst
  | ArgMethod
  | ArgOther (n : Nat)
  deriving DecidableEq, Repr

/-- The opcode descriptor `inst.op`: the opcode byte and the operand kinds. -/
structure Operation where
  Opcode : Nat
  Args : List ArgType
  deriving DecidableEq, Repr

/-- The fields of `Instruction` that `method.go` reads and writes. -/
structure Instruction where
  op : Operation
  params : List Int
  label : String
  linkLabel : Bool
  linkMethod : Bool
  N : Nat
  B : Nat
  wide : Bool
  deriving DecidableEq, Repr

/-- A label of a method: name, source line and byte offset. -/
structure Label where
  Name : String
  N : Nat
  B : Nat
  deriving DecidableEq, Repr

/-- A single IJVM method context. The field `end_` is the Go field `end`. -/
structure Method where
  name : String
  vars : List String
  instructions : List Instruction
  labels : List Label
  end_ : String
  bytes : Nat
  numparam : Int
  N : Nat
  B : Nat
  wide : Bool
  deriving DecidableEq, Repr

/-- The constant-pool descriptor returned by the lookup; `LinkMethods` reads
only its name. -/
structure Constant where
  Name : String
  deriving DecidableEq, Repr

/-- Modelled from the spec: the `Assembler` type and its `findConstant` are
not part of `method.go`. The spec describes the lookup as: given a method
name, returns whether found, its pool index, and a descriptor. The descriptor
is a pointer, `none` being `nil`. -/
structure Assembler where
  findConstant : String → Bool × Int × Option Constant

/-- The instruction after its operand values have been overwritten in place. -/
def Instruction.withParams (inst : Instruction) (ps : List Int) : Instruction :=
  { inst with params := ps }

/-! ## Machine integers -/

/-- Go's `int` on a 64-bit target: wrap into `[-2^63, 2^63)`. -/
def wrapInt (x : Int) : Int := (x + 2 ^ 63) % 2 ^ 64 - 2 ^ 63

/-- The conversion `int(x)` of a `uint32` value. -/
def intOfUint32 (n : Nat) : Int := wrapInt (Int.ofNat n)

/-- The conversion `uint8(x)` of an `int`. -/
def uint8 (x : Int) : Nat := (x % 256).toNat

/-- The conversion `uint16(x)` of an `int`. -/
def uint16 (x : Int) : Nat := (x % 65536).toNat

/-! ## findLabel and LinkLabels -/

/-- The loop of `findLabel` from index `i` on. -/
def findLabelFrom : List Label → String → Nat → Bool × Int × Option Label
  | [], _, _ => (false, -1, none)
  | l :: ls, name, i =>
    if l.Name = name then (true, Int.ofNat i, some l) else findLabelFrom ls name (i + 1)

/-- Finds label for linking. -/
def Method.findLabel (m : Method) (name : String) : Bool × Int × Option Label :=
  findLabelFrom m.labels name 0

/-- The inner loop of `LinkLabels` over `inst.op.Args` from slot `j` on, on the
current operand values `params` and the current `ok`. -/
def linkLabelArgs (m : Method) (inst : Instruction) :
    List ArgType → Nat → List Int → Bool → Run (List Int) Bool
  | [], _, params, ok => Run.ret params ok
  | argType :: rest, j, params, ok =>
    if argType = ArgType.ArgLabel then
      match m.findLabel inst.label with
      | (found, _, lbl) =>
        let ok1 := if !found then false else ok
        match lbl with
        | none => Run.panic params PanicKind.nilDeref
        | some l =>
          if j < params.length then
            linkLabelArgs m inst rest (j + 1)
              (params.set j (wrapInt (intOfUint32 l.B - intOfUint32 inst.B))) ok1
          else Run.panic params PanicKind.indexOutOfRange
    else linkLabelArgs m inst rest (j + 1) params ok

/-- The outer loop of `LinkLabels` over the instruction stream. -/
def linkLabelsFrom (m : Method) : List Instruction → Bool → Run (List Instruction) Bool
  | [], ok => Run.ret [] ok
  | inst :: rest, ok =>
    if !inst.linkLabel then
      (linkLabelsFrom m rest ok).mapState (fun r => inst :: r)
    else
      match linkLabelArgs m inst inst.op.Args 0 inst.params ok with
      | Run.panic ps k => Run.panic (inst.withParams ps :: rest) k
      | Run.ret ps ok1 =>
        (linkLabelsFrom m rest ok1).mapState (fun r => inst.withParams ps :: r)

/-- LinkLabels iterates over the instruction stream and replaces every
GOTO and friends label with the correct offset. -/
def Method.LinkLabels (m : Method) : Run Method Bool :=
  (linkLabelsFrom m m.instructions true).mapState (fun is => { m with instructions := is })

/-! ## LinkMethods -/

/-- The inner loop of `LinkMethods` over `inst.op.Args` from slot `j` on. -/
def linkMethodArgs (asm : Assembler) (inst : Instruction) :
    List ArgType → Nat → List Int → Bool → Run (List Int) Bool
  | [], _, params, ok => Run.ret params ok
  | argType :: rest, j, params, ok =>
    if argType = ArgType.ArgMethod then
      match asm.findConstant inst.label with
      | (found, idx, mtd) =>
        let ok1 := if !found then false else ok
        if j < params.length then
          match mtd with
          | none => Run.panic (params.set j idx) PanicKind.nilDeref
          | some _ => linkMethodArgs asm inst rest (j + 1) (params.set j idx) ok1
        else Run.panic params PanicKind.indexOutOfRange
    else linkMethodArgs asm inst rest (j + 1) params ok

/-- The outer loop of `LinkMethods` over the instruction stream. -/
def linkMethodsFrom (asm : Assembler) : List Instruction → Bool → Run (List Instruction) Bool
  | [], ok => Run.ret [] ok
  | inst :: rest, ok =>
    if !inst.linkMethod then
      (linkMethodsFrom asm rest ok).mapState (fun r => inst :: r)
    else
      match linkMethodArgs asm inst inst.op.Args 0 inst.params ok with
      | Run.panic ps k => Run.panic (inst.withParams ps :: rest) k
      | Run.ret ps ok1 =>
        (linkMethodsFrom asm rest ok1).mapState (fun r => inst.withParams ps :: r)

/-- LinkMethods iterates over the instruction stream and replaces every
INVOKEVIRTUAL and friends method argument with the correct constant index. -/
def Method.LinkMethods (m : Method) (asm : Assembler) : Run Method Bool :=
  (linkMethodsFrom asm m.instructions true).mapState (fun is => { m with instructions := is })

/-! ## Generate -/

/-- The byte order of the two-byte writes. `mustWrite` is not part of
`method.go`; both orders are covered. -/
inductive ByteOrder where
  | bigEndian
  | littleEndian
  deriving DecidableEq, Repr

/-- The two bytes of a 16-bit value in the given order. -/
def bytes16 (bo : ByteOrder) (v : Nat) : List Nat :=
  match bo with
  | ByteOrder.bigEndian => [v / 256 % 256, v % 256]
  | ByteOrder.littleEndian => [v % 256, v / 256 % 256]

/-- Modelled from the spec: `mustWrite` of a one-byte value (the opcode byte,
a `uint8`); the spec has it written as one unsigned byte. The writer is an
in-memory byte sequence and never fails. -/
def mustWrite8 (out : List Nat) (v : Nat) : List Nat := out ++ [v % 256]

/-- Modelled from the spec: `mustWrite` of a `uint16`; the spec has it
written as a 2-byte value. -/
def mustWrite16 (bo : ByteOrder) (out : List Nat) (v : Nat) : List Nat := out ++ bytes16 bo v

/-- The inner loop of `Generate` over `inst.op.Args` from operand `i` on. -/
def generateArgs (bo : ByteOrder) (inst : Instruction) :
    List ArgType → Nat → List Nat → Run (List Nat) Unit
  | [], _, out => Run.ret out ()
  | arg :: rest, i, out =>
    match arg with
    | ArgType.ArgByte =>
      match inst.params[i]? with
      | none => Run.panic out PanicKind.indexOutOfRange
      | some v => generateArgs bo inst rest (i + 1) (mustWrite8 out (uint8 v))
    | ArgType.ArgVar =>
      if inst.wide then
        match inst.params[i]? with
        | none => Run.panic out PanicKind.indexOutOfRange
        | some v => generateArgs bo inst rest (i + 1) (mustWrite16 bo out (uint16 v))
      else
        match inst.params[i]? with
        | none => Run.panic out PanicKind.indexOutOfRange
        | some v => generateArgs bo inst rest (i + 1) (mustWrite8 out (uint8 v))
    | ArgType.ArgLabel | ArgType.ArgConst | ArgType.ArgMethod =>
      match inst.params[i]? with
      | none => Run.panic out PanicKind.indexOutOfRange
      | some v => generateArgs bo inst rest (i + 1) (mustWrite16 bo out (uint16 v))
    | ArgType.ArgOther _ => Run.panic out PanicKind.unimplemented

/-- The outer loop of `Generate` over the instruction stream. -/
def generateFrom (bo : ByteOrder) : List Instruction → List Nat → Run (List Nat) Unit
  | [], out => Run.ret out ()
  | inst :: rest, out =>
    match generateArgs bo inst inst.op.Args 0 (mustWrite8 out inst.op.Opcode) with
    | Run.panic o k => Run.panic o k
    | Run.ret o _ => generateFrom bo rest o

/-- Generate the Method's corresponding IJVM binary code: the bytes are
appended to the bytes `out` already written. -/
def Method.Generate (m : Method) (bo : ByteOrder) (out : List Nat) : Run (List Nat) Unit :=
  generateFrom bo m.instructions out

/-! ## NewMethod -/

/-- Go's `unicode.IsSpace`: the code points with the Unicode White_Space
property. -/
def isSpace (c : Char) : Bool :=
  let n := c.toNat
  decide ((0x09 ≤ n ∧ n ≤ 0x0D) ∨ n = 0x20 ∨ n = 0x85 ∨ n = 0xA0 ∨ n = 0x1680 ∨
    (0x2000 ≤ n ∧ n ≤ 0x200A) ∨ n = 0x2028 ∨ n = 0x2029 ∨ n = 0x202F ∨ n = 0x205F ∨
    n = 0x3000)

/-- The code points of a string with leading and trailing white space
removed. -/
def trimSpaceChars (cs : List Char) : List Char :=
  ((cs.dropWhile isSpace).reverse.dropWhile isSpace).reverse

/-- Go's `strings.TrimSpace`. -/
def TrimSpace (s : String) : String := ⟨trimSpaceChars s.data⟩

/-- Go's `strings.ContainsRune`. -/
def ContainsRune (s : String) (r : Char) : Bool := decide (r ∈ s.data)

/-- The code points before and after the first occurrence of `sep`. -/
def splitAtFirst (sep : Char) : List Char → List Char × List Char
  | [] => ([], [])
  | c :: cs =>
    if c = sep then ([], cs)
    else ((c :: (splitAtFirst sep cs).1), (splitAtFirst sep cs).2)

/-- Modelled from the spec: `splitLink` is not part of `method.go`. The spec
has the header split into method name and parameter list at the parenthesis;
the split is taken at the first occurrence of the separator, the text before
it and the text after it. `NewMethod` calls it only on strings that contain
the separator. -/
def splitLink (s : String) (sep : Char) : String × String :=
  (⟨(splitAtFirst sep s.data).1⟩, ⟨(splitAtFirst sep s.data).2⟩)

/-- The pieces of a sequence of code points between the occurrences of
`sep`. -/
def splitChars (sep : Char) : List Char → List (List Char)
  | [] => [[]]
  | c :: cs =>
    if c = sep then [] :: splitChars sep cs
    else
      match splitChars sep cs with
      | [] => [[c]]
      | piece :: pieces => (c :: piece) :: pieces

/-- Go's `strings.Split` for a separator of one code point. -/
def Split (s : String) (sep : Char) : List String :=
  (splitChars sep s.data).map String.mk

/-- NewMethod returns a new Method based on the given method declaration and
line number. Parameters are parsed from the string and added to the parameter
list. The constants `JASMethodEnd` and `JASMainEnd` are declared outside
`method.go` and are parameters here. -/
def NewMethod (JASMethodEnd JASMainEnd : String) (nameParam : String) (N : Nat) :
    Except String Method :=
  if nameParam = "main" then
    Except.ok ⟨"main", [], [], [], JASMainEnd, 0, 0, N, 0, false⟩
  else if !ContainsRune nameParam '(' then
    Except.error "invalid method declaration. Missing opening parenthesis"
  else
    let rawName := (splitLink nameParam '(').1
    let paramstr := (splitLink nameParam '(').2
    let name := TrimSpace rawName
    if !ContainsRune paramstr ')' then
      Except.error "invalid method declaration. Missing closing parenthesis"
    else
      let paramstr2 := (splitLink paramstr ')').1
      let junk := (splitLink paramstr ')').2
      if TrimSpace junk ≠ "" then
        Except.error "invalid method declaration. Characters remaining after parameter list"
      else
        let paramlst := if paramstr2 = "" then [] else Split paramstr2 ','
        let params := "LINK PTR" :: paramlst.map TrimSpace
        Except.ok ⟨name, params, [], [], JASMethodEnd, 4, Int.ofNat params.length, N, 4, false⟩

/-! ## AppendInst and VarIndex -/

/-- AppendInst appends a single instruction to the instruction stream. -/
def Method.AppendInst (m : Method) (inst : Instruction) : Method :=
  { m with instructions := m.instructions ++ [inst] }

/-- The loop of `VarIndex` from index `i` on. -/
def varIndexFrom : List String → String → Nat → Int × Bool
  | [], _, _ => (-1, false)
  | p :: ps, str, i =>
    if p = str then (Int.ofNat i, true) else varIndexFrom ps str (i + 1)

/-- VarIndex fetches the variable index of the given variable name. Returns ok
iff variable is found. -/
def Method.VarIndex (m : Method) (str : String) : Int × Bool :=
  varIndexFrom m.vars str 0

/-! ## Reference definitions used in the statements -/

/-- Reference result of a successful inner loop: the operand values with every
slot of kind `kind`, from slot `j` on, set to `v`. -/
def setSlots (kind : ArgType) (v : Int) : List ArgType → Nat → List Int → List Int
  | [], _, ps => ps
  | a :: rest, j, ps =>
    if a = kind then setSlots kind v rest (j + 1) (ps.set j v)
    else setSlots kind v rest (j + 1) ps

/-- The instruction as the loop body of `LinkLabels` leaves it. -/
def linkLabelInst (m : Method) (inst : Instruction) : Instruction :=
  if inst.linkLabel then
    inst.withParams (linkLabelArgs m inst inst.op.Args 0 inst.params true).state
  else inst

/-- The loop body of `LinkLabels` does not panic on `inst`: if the instruction
is flagged and has a slot of kind label, its label is declared and it has an
operand value for every declared operand kind. -/
def labelLinkable (m : Method) (inst : Instruction) : Prop :=
  inst.linkLabel = true → ArgType.ArgLabel ∈ inst.op.Args →
    (m.findLabel inst.label).1 = true ∧ inst.op.Args.length ≤ inst.params.length

instance (m : Method) (inst : Instruction) : Decidable (labelLinkable m inst) := by
  unfold labelLinkable
  infer_instance

/-- The instruction as the loop body of `LinkMethods` leaves it. -/
def linkMethodInst (asm : Assembler) (inst : Instruction) : Instruction :=
  if inst.linkMethod then
    inst.withParams (linkMethodArgs asm inst inst.op.Args 0 inst.params true).state
  else inst

/-- The loop body of `LinkMethods` does not panic on `inst`: if the
instruction is flagged and has a slot of kind method index, the lookup of its
name yields a descriptor and the instruction has an operand value for every
declared operand kind. -/
def methodLinkable (asm : Assembler) (inst : Instruction) : Prop :=
  inst.linkMethod = true → ArgType.ArgMethod ∈ inst.op.Args →
    (asm.findConstant inst.label).2.2 ≠ none ∧ inst.op.Args.length ≤ inst.params.length

instance (asm : Assembler) (inst : Instruction) : Decidable (methodLinkable asm inst) := by
  unfold methodLinkable
  infer_instance

/-- The lookups that the loop body of `LinkMethods` makes for `inst` report
found: a flagged instruction with a slot of kind method index has its name in
the pool. The loop body makes no lookup for any other instruction. -/
def methodResolved (asm : Assembler) (inst : Instruction) : Bool :=
  if inst.linkMethod = true ∧ ArgType.ArgMethod ∈ inst.op.Args then
    (asm.findConstant inst.label).1
  else true

/-! ## Reference encoding and decoding of instructions -/

/-- The operand kind is one of the five kinds that `Generate` handles. -/
def ArgType.known : ArgType → Bool
  | ArgType.ArgOther _ => false
  | _ => true

/-- The encoded width of an operand, in the words of the spec: 1 byte for a
byte immediate, 1 byte for a variable slot or 2 when the instruction is wide,
2 bytes for a label, constant-pool or method-index operand. -/
def operandWidth (wide : Bool) : ArgType → Nat
  | ArgType.ArgByte => 1
  | ArgType.ArgVar => if wide then 2 else 1
  | ArgType.ArgLabel => 2
  | ArgType.ArgConst => 2
  | ArgType.ArgMethod => 2
  | ArgType.ArgOther _ => 0

/-- The encoding of one operand value of the given kind. -/
def encodeOperand (bo : ByteOrder) (wide : Bool) (kind : ArgType) (v : Int) : List Nat :=
  match kind with
  | ArgType.ArgByte => [uint8 v]
  | ArgType.ArgVar => if wide then bytes16 bo (uint16 v) else [uint8 v]
  | ArgType.ArgLabel => bytes16 bo (uint16 v)
  | ArgType.ArgConst => bytes16 bo (uint16 v)
  | ArgType.ArgMethod => bytes16 bo (uint16 v)
  | ArgType.ArgOther _ => []

/-- The encodings of the declared operands, in order. -/
def encodeOperands (bo : ByteOrder) (wide : Bool) : List ArgType → List Int → List Nat
  | [], _ => []
  | _ :: _, [] => []
  | k :: ks, v :: vs => encodeOperand bo wide k v ++ encodeOperands bo wide ks vs

/-- The encoding of an instruction: the opcode byte, then the operands. -/
def encodeInst (bo : ByteOrder) (inst : Instruction) : List Nat :=
  (inst.op.Opcode % 256) :: encodeOperands bo inst.wide inst.op.Args inst.params

/-- The encoded width of an instruction: 1 plus the operand widths. -/
def instWidth (inst : Instruction) : Nat :=
  1 + (inst.op.Args.map (operandWidth inst.wide)).sum

/-- The operand value fits the encoded width of its kind. -/
def fits (wide : Bool) (kind : ArgType) (v : Int) : Prop :=
  match kind with
  | ArgType.ArgByte => 0 ≤ v ∧ v ≤ 255
  | ArgType.ArgVar => if wide then 0 ≤ v ∧ v ≤ 65535 else 0 ≤ v ∧ v ≤ 255
  | ArgType.ArgLabel => -32768 ≤ v ∧ v ≤ 32767
  | ArgType.ArgConst => 0 ≤ v ∧ v ≤ 65535
  | ArgType.ArgMethod => 0 ≤ v ∧ v ≤ 65535
  | ArgType.ArgOther _ => False

instance (wide : Bool) (kind : ArgType) (v : Int) : Decidable (fits wide kind v) := by
  unfold fits
  cases kind <;> simp only <;> infer_instance

/-- Every declared operand of the instruction has a value, that value fits its
encoded width, and the opcode is a byte. -/
def Instruction.encodable (inst : Instruction) : Prop :=
  inst.op.Opcode < 256 ∧ inst.op.Args.length ≤ inst.params.length ∧
    ∀ p ∈ inst.op.Args.zip inst.params, fits inst.wide p.1 p.2

instance (inst : Instruction) : Decidable inst.encodable := by
  unfold Instruction.encodable
  infer_instance

/-- Read a 16-bit value in the given byte order. -/
def read16 (bo : ByteOrder) (b0 b1 : Nat) : Nat :=
  match bo with
  | ByteOrder.bigEndian => b0 * 256 + b1
  | ByteOrder.littleEndian => b1 * 256 + b0

/-- Decode one operand of the given kind from the front of the bytes: a label
is a signed 16-bit displacement, every other kind is unsigned. -/
def decodeOperand (bo : ByteOrder) (wide : Bool) (kind : ArgType) :
    List Nat → Option (Int × List Nat)
  | [] => none
  | b0 :: bs =>
    match kind with
    | ArgType.ArgByte => some (Int.ofNat b0, bs)
    | ArgType.ArgVar =>
      if wide then
        match bs with
        | [] => none
        | b1 :: r => some (Int.ofNat (read16 bo b0 b1), r)
      else some (Int.ofNat b0, bs)
    | ArgType.ArgLabel =>
      match bs with
      | [] => none
      | b1 :: r =>
        some (if read16 bo b0 b1 < 32768 then Int.ofNat (read16 bo b0 b1)
          else Int.ofNat (read16 bo b0 b1) - 65536, r)
    | ArgType.ArgConst | ArgType.ArgMethod =>
      match bs with
      | [] => none
      | b1 :: r => some (Int.ofNat (read16 bo b0 b1), r)
    | ArgType.ArgOther _ => none

/-- Decode the operands of the given kinds, in order. -/
def decodeOperands (bo : ByteOrder) (wide : Bool) :
    List ArgType → List Nat → Option (List Int × List Nat)
  | [], bs => some ([], bs)
  | k :: ks, bs =>
    match decodeOperand bo wide k bs with
    | none => none
    | some (v, r) =>
      match decodeOperands bo wide ks r with
      | none => none
      | some (vs, r2) => some (v :: vs, r2)

/-- Decode a byte stream as the instructions of the given operand shapes and
wide flags; the result is the opcode and the operand values of each
instruction, and all bytes must be used. -/
def decodeInsts (bo : ByteOrder) :
    List (List ArgType × Bool) → List Nat → Option (List (Nat × List Int))
  | [], [] => some []
  | [], _ :: _ => none
  | _ :: _, [] => none
  | (args, wide) :: ds, opc :: bs =>
    match decodeOperands bo wide args bs with
    | none => none
    | some (vs, r) =>
      match decodeInsts bo ds r with
      | none => none
      | some rest => some ((opc, vs) :: rest)

/-- The operand shape and wide flag of an instruction. -/
def Instruction.shape (inst : Instruction) : List ArgType × Bool := (inst.op.Args, inst.wide)

/-- The opcode and the values of the declared operands of an instruction. -/
def Instruction.content (inst : Instruction) : Nat × List Int :=
  (inst.op.Opcode, inst.params.take inst.op.Args.length)

/-- The instructions with byte offsets assigned in order from `start`: the
offset of each instruction is `start` plus the encoded widths of the
instructions before it. -/
def layoutFrom (start : Nat) : List Instruction → List Instruction
  | [] => []
  | inst :: rest => { inst with B := start } :: layoutFrom (start + instWidth inst) rest

/-- The value of a 2-byte field read as a signed 16-bit integer. -/
def signed16 (v : Nat) : Int :=
  if v < 32768 then Int.ofNat v else Int.ofNat v - 65536

/-- The two instructions agree in everything but the operand values, of which
they have equally many. -/
def Instruction.sameButParams (a b : Instruction) : Prop :=
  a.op = b.op ∧ a.label = b.label ∧ a.linkLabel = b.linkLabel ∧ a.linkMethod = b.linkMethod ∧
    a.N = b.N ∧ a.B = b.B ∧ a.wide = b.wide ∧ a.params.length = b.params.length

/-- The two methods agree in everything but the instructions, of which they
have equally many. -/
def Method.sameButInstructions (a b : Method) : Prop :=
  a.name = b.name ∧ a.vars = b.vars ∧ a.labels = b.labels ∧ a.end_ = b.end_ ∧
    a.bytes = b.bytes ∧ a.numparam = b.numparam ∧ a.N = b.N ∧ a.B = b.B ∧ a.wide = b.wide ∧
    a.instructions.length = b.instructions.length

/-- The instruction `inst1` is `inst` after a link pass that rewrites the slots
of kind `kind` of flagged instructions: nothing but operand values differs, an
operand value differs only in a slot of that kind of a flagged instruction,
and an instruction without the flag is untouched. -/
def framed (kind : ArgType) (flag : Instruction → Bool) (inst inst1 : Instruction) : Prop :=
  inst1.sameButParams inst ∧
    (∀ j : Nat, inst1.params[j]? ≠ inst.params[j]? →
      flag inst = true ∧ inst.op.Args[j]? = some kind) ∧
    (flag inst = false → inst1 = inst)

/-- The displacement that `LinkLabels` computes for the instruction: the
difference of the offset of the label it names and its own offset (0 when the
label is not declared). -/
def labelDisp (m : Method) (inst : Instruction) : Int :=
  match (m.findLabel inst.label).2.2 with
  | some l => wrapInt (intOfUint32 l.B - intOfUint32 inst.B)
  | none => 0

/-! ## Method headers -/

/-- The parameter texts joined by commas. -/
def joinComma : List String → List Char
  | [] => []
  | [p] => p.data
  | p :: q :: r => p.data ++ ',' :: joinComma (q :: r)

/-- The header `name(p1,...,pn)` followed by the text `junk`. -/
def mkHeader (name : String) (ps : List String) (junk : String) : String :=
  ⟨name.data ++ '(' :: (joinComma ps ++ ')' :: junk.data)⟩

instance : DecidableEq (Except String Method) := fun a b =>
  match a, b with
  | Except.ok x, Except.ok y =>
    if h : x = y then isTrue (by rw [h]) else isFalse (fun e => h (by cases e; rfl))
  | Except.error x, Except.error y =>
    if h : x = y then isTrue (by rw [h]) else isFalse (fun e => h (by cases e; rfl))
  | Except.ok _, Except.error _ => isFalse (fun e => by cases e)
  | Except.error _, Except.ok _ => isFalse (fun e => by cases e)

/-! ## Concrete programs -/

/-- The descriptor of `BIPUSH`: one byte immediate. -/
def opBIPUSH : Operation := ⟨0x10, [ArgType.ArgByte]⟩

/-- The descriptor of `GOTO`: one label operand. -/
def opGOTO : Operation := ⟨0xA7, [ArgType.ArgLabel]⟩

/-- The descriptor of `INVOKEVIRTUAL`: one method-index operand. -/
def opINVOKEVIRTUAL : Operation := ⟨0xB6, [ArgType.ArgMethod]⟩

/-- A forward jump at byte 0 to `L2`. -/
def exFwd : Instruction :=
  ⟨opGOTO, [0], "L2", true, false, 1, 0, false⟩

/-- A byte push at byte 3. -/
def exPush : Instruction :=
  ⟨opBIPUSH, [7], "", false, false, 3, 3, false⟩

/-- A backward jump at byte 5 to `L1`. -/
def exBack : Instruction :=
  ⟨opGOTO, [0], "L1", true, false, 4, 5, false⟩

/-- A method with a forward and a backward jump; `L1` is at byte 3 and `L2`
at byte 8. -/
def exLoop : Method :=
  ⟨"main", [], [exFwd, exPush, exBack], [⟨"L1", 2, 3⟩, ⟨"L2", 5, 8⟩], "", 8, 0, 0, 0, false⟩

/-- A jump at byte 0 to a label that is not declared. -/
def exUndefJump : Instruction :=
  ⟨opGOTO, [0], "nowhere", true, false, 1, 0, false⟩

/-- A jump at byte 3 to `L1`, which is declared. -/
def exDefJump : Instruction :=
  ⟨opGOTO, [0], "L1", true, false, 2, 3, false⟩

/-- A method whose first jump names an undeclared label and whose second jump
names the declared label `L1` at byte 6. -/
def exUndef : Method :=
  ⟨"main", [], [exUndefJump, exDefJump], [⟨"L1", 3, 6⟩], "", 6, 0, 0, 0, false⟩

/-- A constant pool that holds the methods `f` and `g` at the indices 0 and 1;
for any other name the lookup reports not-found, the index -1 (as `findLabel`
does) and no descriptor. -/
def exPool : Assembler :=
  ⟨fun name =>
    if name = "f" then (true, 0, some ⟨"f"⟩)
    else if name = "g" then (true, 1, some ⟨"g"⟩)
    else (false, -1, none)⟩

/-- A call at byte 0 of a method that is not in the pool. -/
def exCallMissing : Instruction :=
  ⟨opINVOKEVIRTUAL, [0], "h", false, true, 1, 0, false⟩

/-- A call at byte 3 of the method `g`. -/
def exCallG : Instruction :=
  ⟨opINVOKEVIRTUAL, [0], "g", false, true, 2, 3, false⟩

/-- A method that calls the unknown method `h` and then `g`. -/
def exCalls : Method :=
  ⟨"main", [], [exCallMissing, exCallG], [], "", 6, 0, 0, 0, false⟩

/-- A method that calls `g` and then `f`. -/
def exCallsOk : Method :=
  ⟨"main", [], [exCallG, { exCallG with label := "f", B := 6 }], [], "", 9, 0, 0, 0, false⟩

/-- A method whose only instruction calls the unknown method `h`. -/
def exCallOnly : Method :=
  ⟨"main", [], [exCallMissing], [], "", 3, 0, 0, 0, false⟩

/-- The descriptor of `ILOAD`: one variable slot. -/
def opILOAD : Operation := ⟨0x15, [ArgType.ArgVar]⟩

/-- The descriptor of `LDC_W`: one constant-pool index. -/
def opLDC_W : Operation := ⟨0x13, [ArgType.ArgConst]⟩

/-- The descriptor of `IINC`: a variable slot and a byte immediate. -/
def opIINC : Operation := ⟨0x84, [ArgType.ArgVar, ArgType.ArgByte]⟩

/-- A method that uses all five operand kinds, with a wide and a non-wide
variable slot. -/
def exAllKinds : Method :=
  ⟨"main", [], [⟨opBIPUSH, [200], "", false, false, 1, 0, false⟩,
    ⟨opILOAD, [3], "", false, false, 2, 2, false⟩,
    ⟨opILOAD, [300], "", false, false, 3, 4, true⟩,
    ⟨opIINC, [2, 255], "", false, false, 4, 7, false⟩,
    ⟨opGOTO, [-10], "L", true, false, 5, 10, false⟩,
    ⟨opLDC_W, [513], "", false, false, 6, 13, false⟩,
    ⟨opINVOKEVIRTUAL, [1], "g", false, true, 7, 16, false⟩],
    [⟨"L", 1, 0⟩], "", 19, 0, 0, 0, false⟩

/-- The method that `NewMethod` builds from the header `"main()"` at line 1. -/
def exMainParens : Method :=
  ⟨"main", ["LINK PTR"], [], [], ".end-method", 4, 1, 1, 4, false⟩

/-- A method with the variable table `LINK PTR, x, y, x`: the name `x` occurs
twice. -/
def exVars : Method :=
  ⟨"f", ["LINK PTR", "x", "y", "x"], [], [], "", 4, 4, 1, 4, false⟩

/-- A descriptor with an operand kind outside the five kinds. -/
def opUnknown : Operation := ⟨0xFF, [ArgType.ArgOther 7]⟩

/-- A method whose second instruction declares an operand kind that `Generate`
does not handle. -/
def exUnknown : Method :=
  ⟨"main", [], [⟨opBIPUSH, [1], "", false, false, 1, 0, false⟩,
    ⟨opUnknown, [0], "", false, false, 2, 2, false⟩], [], "", 4, 0, 0, 0, false⟩

/-- The descriptor of `RETURN`: no operand. -/
def opRETURN : Operation := ⟨0xAC, []⟩

/-- The instructions `BIPUSH 5, GOTO L, BIPUSH 9, RETURN` before their byte
offsets are assigned. -/
def exScenarioSource : List Instruction :=
  [⟨opBIPUSH, [5], "", false, false, 1, 0, false⟩,
    ⟨opGOTO, [0], "L", true, false, 2, 0, false⟩,
    ⟨opBIPUSH, [9], "", false, false, 3, 0, false⟩,
    ⟨opRETURN, [], "", false, false, 4, 0, false⟩]

/-- The label `L`, declared at `RETURN`: its offset is the one reached after
the second `BIPUSH`. -/
def exScenarioLabel : Label :=
  ⟨"L", 4, ((exScenarioSource.take 3).map instWidth).sum⟩

/-- The method `main` of the scenario, with start byte 0. -/
def exScenario : Method :=
  ⟨"main", [], layoutFrom 0 exScenarioSource, [exScenarioLabel], "", 8, 0, 0, 0, false⟩

/-- The method of the scenario cut after its first `k` instructions. -/
def exScenarioPrefix (k : Nat) : Method :=
  { exScenario with instructions := exScenario.instructions.take k }

/-- A method whose label table declares `L` twice, at byte 3 and at byte 20,
with `M` in between. -/
def exDup : Method :=
  ⟨"main", [], [⟨opGOTO, [0], "L", true, false, 1, 0, false⟩,
    ⟨opGOTO, [0], "M", true, false, 2, 3, false⟩,
    ⟨opGOTO, [0], "L", true, false, 3, 6, false⟩],
    [⟨"L", 1, 3⟩, ⟨"M", 2, 8⟩, ⟨"L", 4, 20⟩], "", 9, 0, 0, 0, false⟩

/-- A method with a jump and two calls, all of which resolve against its label
table and `exPool`. -/
def exBoth : Method :=
  ⟨"main", [], [exCallG, exDefJump, { exCallG with label := "f", B := 6 }],
    [⟨"L1", 3, 9⟩], "", 9, 0, 0, 0, false⟩

/-- The method `exLoop` after `LinkLabels`: the forward jump holds 8, the
backward jump holds -2. -/
def exLoopLinked : Method :=
  { exLoop with instructions := [exFwd.withParams [8], exPush, exBack.withParams [-2]] }

/-! ## Basic facts about outcomes and machine integers -/

theorem Run.state_mapState {σ τ ρ : Type} (f : σ → τ) (r : Run σ ρ) :
    (r.mapState f).state = f r.state := by
  cases r <;> rfl

theorem Run.returned_mapState {σ τ ρ : Type} (f : σ → τ) (r : Run σ ρ) :
    (r.mapState f).returned = r.returned := by
  cases r <;> rfl

theorem wrapInt_of_small (x : Int) (h1 : -(2 ^ 63) ≤ x) (h2 : x < 2 ^ 63) : wrapInt x = x := by
  unfold wrapInt
  omega

theorem intOfUint32_of_lt (n : Nat) (h : n < 2 ^ 32) : intOfUint32 n = (n : Int) := by
  unfold intOfUint32
  apply wrapInt_of_small <;> simp only [Int.ofNat_eq_coe] <;> omega

/-- The displacement computed at line 130 is the exact signed difference of
the two `uint32` offsets. -/
theorem displacement_exact (a b : Nat) (ha : a < 2 ^ 32) (hb : b < 2 ^ 32) :
    wrapInt (intOfUint32 a - intOfUint32 b) = (a : Int) - (b : Int) := by
  rw [intOfUint32_of_lt a ha, intOfUint32_of_lt b hb]
  apply wrapInt_of_small <;> omega

/-! ## Facts about findLabel -/

theorem findLabelFrom_lbl (ls : List Label) (name : String) (i : Nat) :
    (findLabelFrom ls name i).2.2 = ls.find? (fun l => decide (l.Name = name)) := by
  induction ls generalizing i with
  | nil => rfl
  | cons l ls ih =>
    by_cases h : l.Name = name
    · simp [findLabelFrom, h]
    · simp [findLabelFrom, h, ih]

theorem findLabelFrom_found (ls : List Label) (name : String) (i : Nat) :
    (findLabelFrom ls name i).1 = ((findLabelFrom ls name i).2.2).isSome := by
  induction ls generalizing i with
  | nil => rfl
  | cons l ls ih =>
    by_cases h : l.Name = name
    · simp [findLabelFrom, h]
    · simp [findLabelFrom, h, ih]

theorem findLabel_of_present (m : Method) (name : String)
    (h : ∃ l ∈ m.labels, l.Name = name) :
    ∃ lbl, (m.findLabel name).1 = true ∧ (m.findLabel name).2.2 = some lbl ∧
      lbl ∈ m.labels ∧ lbl.Name = name := by
  obtain ⟨l, hl, hn⟩ := h
  have hsome : (m.labels.find? (fun l => decide (l.Name = name))).isSome = true := by
    rw [List.find?_isSome]
    exact ⟨l, hl, by simpa using hn⟩
  obtain ⟨lbl, hlbl⟩ := Option.isSome_iff_exists.mp hsome
  refine ⟨lbl, ?_, ?_, List.mem_of_find?_eq_some hlbl, by simpa using List.find?_some hlbl⟩
  · unfold Method.findLabel
    rw [findLabelFrom_found, findLabelFrom_lbl, hlbl]; rfl
  · unfold Method.findLabel
    rw [findLabelFrom_lbl, hlbl]

theorem findLabel_eq_of_lbl (m : Method) (name : String) (l : Label)
    (h : (m.findLabel name).2.2 = some l) :
    ∃ i, m.findLabel name = (true, i, some l) := by
  have hf : (m.findLabel name).1 = true := by
    unfold Method.findLabel at h ⊢
    rw [findLabelFrom_found, h]; rfl
  refine ⟨(m.findLabel name).2.1, ?_⟩
  rw [← hf, ← h]

/-! ## The inner loop of LinkLabels -/

theorem setSlots_length (kind : ArgType) (v : Int) (args : List ArgType) (j : Nat)
    (ps : List Int) : (setSlots kind v args j ps).length = ps.length := by
  induction args generalizing j ps with
  | nil => rfl
  | cons a rest ih =>
    by_cases h : a = kind <;> simp [setSlots, h, ih]

theorem setSlots_get_lt (kind : ArgType) (v : Int) (args : List ArgType) (j : Nat)
    (ps : List Int) (t : Nat) (ht : t < j) : (setSlots kind v args j ps)[t]? = ps[t]? := by
  induction args generalizing j ps with
  | nil => rfl
  | cons a rest ih =>
    by_cases h : a = kind
    · simp only [setSlots, h, if_true]
      rw [ih (j + 1) _ (by omega), List.getElem?_set_ne (by omega)]
    · simp only [setSlots, h, if_false]
      exact ih (j + 1) _ (by omega)

theorem setSlots_get_kind (kind : ArgType) (v : Int) (args : List ArgType) (j : Nat)
    (ps : List Int) (t : Nat) (hk : args[t]? = some kind) (hlen : j + t < ps.length) :
    (setSlots kind v args j ps)[j + t]? = some v := by
  induction args generalizing j ps t with
  | nil => simp at hk
  | cons a rest ih =>
    cases t with
    | zero =>
      have ha : a = kind := by simpa using hk
      simp only [setSlots, ha, if_true, Nat.add_zero]
      have hj : j < ps.length := by omega
      rw [setSlots_get_lt _ _ _ _ _ _ (by omega)]
      exact List.getElem?_set_self hj
    | succ t =>
      have hk2 : rest[t]? = some kind := by simpa using hk
      have e : j + (t + 1) = (j + 1) + t := by omega
      by_cases h : a = kind
      · simp only [setSlots, h, if_true]
        rw [e]
        exact ih (j + 1) _ t hk2 (by simp; omega)
      · simp only [setSlots, h, if_false]
        rw [e]
        exact ih (j + 1) _ t hk2 (by omega)

theorem setSlots_get_other (kind : ArgType) (v : Int) (args : List ArgType) (j : Nat)
    (ps : List Int) (t : Nat) (hk : args[t]? ≠ some kind) :
    (setSlots kind v args j ps)[j + t]? = ps[j + t]? := by
  induction args generalizing j ps t with
  | nil => rfl
  | cons a rest ih =>
    cases t with
    | zero =>
      have ha : ¬ a = kind := by simpa using hk
      simp only [setSlots, ha, if_false, Nat.add_zero]
      exact setSlots_get_lt _ _ _ _ _ _ (by omega)
    | succ t =>
      have hk2 : rest[t]? ≠ some kind := by simpa using hk
      have e : j + (t + 1) = (j + 1) + t := by omega
      by_cases h : a = kind
      · simp only [setSlots, h, if_true]
        rw [e, ih (j + 1) _ t hk2, List.getElem?_set_ne (by omega)]
      · simp only [setSlots, h, if_false]
        rw [e]
        exact ih (j + 1) _ t hk2

/-- When the label is found and every slot has an operand value, the inner
loop returns, leaves `ok` as it was and sets exactly the label slots. -/
theorem linkLabelArgs_found (m : Method) (inst : Instruction) (i : Int) (l : Label)
    (hfind : m.findLabel inst.label = (true, i, some l))
    (args : List ArgType) (j : Nat) (params : List Int) (ok : Bool)
    (hlen : j + args.length ≤ params.length) :
    linkLabelArgs m inst args j params ok =
      Run.ret (setSlots ArgType.ArgLabel (wrapInt (intOfUint32 l.B - intOfUint32 inst.B))
        args j params) ok := by
  induction args generalizing j params with
  | nil => rfl
  | cons a rest ih =>
    simp only [List.length_cons] at hlen
    by_cases h : a = ArgType.ArgLabel
    · have hj : j < params.length := by omega
      simp only [linkLabelArgs, setSlots, h, if_true, hfind, hj]
      simpa using ih (j + 1) _ (by simp; omega)
    · simp only [linkLabelArgs, setSlots, h, if_false]
      exact ih (j + 1) _ (by omega)

/-- When the label is not in the table, the inner loop leaves the operand
values as they were, whether it returns (no label slot) or panics. -/
theorem linkLabelArgs_missing_state (m : Method) (inst : Instruction)
    (hfind : (m.findLabel inst.label).2.2 = none)
    (args : List ArgType) (j : Nat) (params : List Int) (ok : Bool) :
    (linkLabelArgs m inst args j params ok).state = params := by
  induction args generalizing j with
  | nil => rfl
  | cons a rest ih =>
    by_cases h : a = ArgType.ArgLabel
    · simp only [linkLabelArgs, h, if_true]
      rcases hm : m.findLabel inst.label with ⟨f, i, lbl⟩
      rw [hm] at hfind
      simp only at hfind
      subst hfind
      rfl
    · simp only [linkLabelArgs, h, if_false]
      exact ih (j + 1)

/-- When the label is not in the table and some slot has kind label, the inner
loop panics with a nil dereference. -/
theorem linkLabelArgs_missing_panic (m : Method) (inst : Instruction)
    (hfind : (m.findLabel inst.label).2.2 = none)
    (args : List ArgType) (hmem : ArgType.ArgLabel ∈ args) (j : Nat) (params : List Int)
    (ok : Bool) :
    linkLabelArgs m inst args j params ok = Run.panic params PanicKind.nilDeref := by
  induction args generalizing j with
  | nil => simp at hmem
  | cons a rest ih =>
    by_cases h : a = ArgType.ArgLabel
    · simp only [linkLabelArgs, h, if_true]
      rcases hm : m.findLabel inst.label with ⟨f, i, lbl⟩
      rw [hm] at hfind
      simp only at hfind
      subst hfind
      rfl
    · simp only [linkLabelArgs, h, if_false]
      have : ArgType.ArgLabel ∈ rest := by
        rcases List.mem_cons.mp hmem with h1 | h1
        · exact absurd h1.symm h
        · exact h1
      exact ih this (j + 1)

/-- Without a slot of kind label the inner loop returns and changes nothing. -/
theorem linkLabelArgs_no_slot (m : Method) (inst : Instruction)
    (args : List ArgType) (hmem : ArgType.ArgLabel ∉ args) (j : Nat) (params : List Int)
    (ok : Bool) :
    linkLabelArgs m inst args j params ok = Run.ret params ok := by
  induction args generalizing j with
  | nil => rfl
  | cons a rest ih =>
    have h : ¬ a = ArgType.ArgLabel := fun e => hmem (by simp [e])
    simp only [linkLabelArgs, h, if_false]
    exact ih (fun e => hmem (List.mem_cons_of_mem _ e)) (j + 1)

theorem linkLabelArgs_state_ok (m : Method) (inst : Instruction)
    (args : List ArgType) (j : Nat) (params : List Int) (ok ok2 : Bool) :
    (linkLabelArgs m inst args j params ok).state =
      (linkLabelArgs m inst args j params ok2).state := by
  induction args generalizing j params ok ok2 with
  | nil => rfl
  | cons a rest ih =>
    by_cases h : a = ArgType.ArgLabel
    · simp only [linkLabelArgs, h, if_true]
      rcases m.findLabel inst.label with ⟨f, i, lbl⟩
      cases lbl with
      | none => rfl
      | some l =>
        by_cases hj : j < params.length
        · simp only [hj, if_true]
          exact ih _ _ _ _
        · simp only [hj, if_false, Run.state]
    · simp only [linkLabelArgs, h, if_false]
      exact ih _ _ _ _

/-! ## The outer loop of LinkLabels -/

theorem Run.mapState_mapState {σ τ υ ρ : Type} (f : σ → τ) (g : τ → υ) (r : Run σ ρ) :
    (r.mapState f).mapState g = r.mapState (fun s => g (f s)) := by
  cases r <;> rfl

theorem Run.mapState_id {σ ρ : Type} (r : Run σ ρ) : r.mapState (fun s => s) = r := by
  cases r <;> rfl

theorem linkLabelArgs_linkable (m : Method) (inst : Instruction) (h : labelLinkable m inst)
    (hflag : inst.linkLabel = true) (ok : Bool) :
    linkLabelArgs m inst inst.op.Args 0 inst.params ok =
      Run.ret (linkLabelInst m inst).params ok := by
  have hst : (linkLabelInst m inst).params =
      (linkLabelArgs m inst inst.op.Args 0 inst.params ok).state := by
    simp only [linkLabelInst, hflag, if_true]
    exact linkLabelArgs_state_ok _ _ _ _ _ _ _
  by_cases hmem : ArgType.ArgLabel ∈ inst.op.Args
  · obtain ⟨hf, hlen⟩ := h hflag hmem
    rcases hm : m.findLabel inst.label with ⟨f, i, lbl⟩
    have hf2 : f = true := by rw [hm] at hf; exact hf
    have hl : lbl.isSome = true := by
      have := findLabelFrom_found m.labels inst.label 0
      unfold Method.findLabel at hm
      rw [hm] at this
      simp only at this
      rw [← this, hf2]
    obtain ⟨l, rfl⟩ := Option.isSome_iff_exists.mp hl
    subst hf2
    have e := linkLabelArgs_found m inst i l hm inst.op.Args 0 inst.params ok (by omega)
    rw [hst, e]; rfl
  · have e := linkLabelArgs_no_slot m inst inst.op.Args hmem 0 inst.params ok
    rw [hst, e]; rfl

/-- The loop of `LinkLabels` over a prefix on which the body does not panic:
the prefix is rewritten instruction by instruction, `ok` is unchanged, and the
loop goes on with the rest. -/
theorem linkLabelsFrom_append (m : Method) (pre rest : List Instruction) (ok : Bool)
    (hpre : ∀ p ∈ pre, labelLinkable m p) :
    linkLabelsFrom m (pre ++ rest) ok =
      (linkLabelsFrom m rest ok).mapState (fun r => pre.map (linkLabelInst m) ++ r) := by
  induction pre with
  | nil => simp [Run.mapState_id]
  | cons p pre ih =>
    have ih2 := ih (fun q hq => hpre q (List.mem_cons_of_mem _ hq))
    have hp := hpre p (List.mem_cons_self _ _)
    by_cases hflag : p.linkLabel = true
    · have e := linkLabelArgs_linkable m p hp hflag ok
      have e2 : p.withParams (linkLabelInst m p).params = linkLabelInst m p := by
        simp only [linkLabelInst, hflag, if_true]
        rfl
      rw [List.cons_append, linkLabelsFrom]
      simp only [hflag, Bool.not_true, Bool.false_eq_true, if_false, e, ih2,
        Run.mapState_mapState, List.map_cons, e2, List.cons_append]
    · have hflag2 : p.linkLabel = false := by simpa using hflag
      have e2 : linkLabelInst m p = p := by simp [linkLabelInst, hflag2]
      rw [List.cons_append, linkLabelsFrom]
      simp only [hflag2, Bool.not_false, if_true, ih2, Run.mapState_mapState, List.map_cons,
        e2, List.cons_append]

/-- The state the loop of `LinkLabels` reaches starts with the first
instruction as the loop body leaves it. -/
theorem linkLabelsFrom_head (m : Method) (inst : Instruction) (rest : List Instruction)
    (ok : Bool) :
    (linkLabelsFrom m (inst :: rest) ok).state[0]? = some (linkLabelInst m inst) := by
  by_cases hflag : inst.linkLabel = true
  · have hst := linkLabelArgs_state_ok m inst inst.op.Args 0 inst.params ok true
    have e1 : linkLabelInst m inst =
        inst.withParams (linkLabelArgs m inst inst.op.Args 0 inst.params ok).state := by
      simp only [linkLabelInst, hflag, if_true, hst]
    rw [e1, linkLabelsFrom]
    simp only [hflag, Bool.not_true, Bool.false_eq_true, if_false]
    rcases linkLabelArgs m inst inst.op.Args 0 inst.params ok with ⟨ps, ok1⟩ | ⟨ps, k⟩
    · rw [Run.state_mapState]
      simp only [List.getElem?_cons_zero, Run.state]
    · simp only [Run.state, List.getElem?_cons_zero]
  · have hflag2 : inst.linkLabel = false := by simpa using hflag
    simp [linkLabelsFrom, hflag2, Run.state_mapState, linkLabelInst]

/-- If the loop body does not panic on any instruction, `LinkLabels` returns
`true` and rewrites every instruction as the loop body does. -/
theorem LinkLabels_linkable (m : Method) (h : ∀ p ∈ m.instructions, labelLinkable m p) :
    m.LinkLabels =
      Run.ret { m with instructions := m.instructions.map (linkLabelInst m) } true := by
  have e := linkLabelsFrom_append m m.instructions [] true h
  simp only [List.append_nil] at e
  simp [Method.LinkLabels, e, linkLabelsFrom, Run.mapState]

/-- The state `LinkLabels` reaches holds, at a position before which the loop
body does not panic, the instruction as the loop body leaves it. -/
theorem LinkLabels_state_get (m : Method) (k : Nat) (inst : Instruction)
    (hk : m.instructions[k]? = some inst)
    (hpre : ∀ p ∈ m.instructions.take k, labelLinkable m p) :
    m.LinkLabels.state.instructions[k]? = some (linkLabelInst m inst) := by
  have hlt : k < m.instructions.length := (List.getElem?_eq_some_iff.mp hk).1
  have hsplit : m.instructions = m.instructions.take k ++ inst :: m.instructions.drop (k + 1) := by
    have hget : m.instructions[k] = inst := (List.getElem?_eq_some_iff.mp hk).2
    rw [← hget, List.getElem_cons_drop _ _ hlt, List.take_append_drop]
  have hlen : (m.instructions.take k).length = k := by simp; omega
  unfold Method.LinkLabels
  rw [Run.state_mapState]
  simp only
  rw [hsplit, linkLabelsFrom_append m _ _ true hpre, Run.state_mapState,
    List.getElem?_append_right (by simp)]
  simp only [List.length_map, List.length_take, ← hsplit]
  have : k - min k m.instructions.length = 0 := by omega
  rw [this]
  exact linkLabelsFrom_head m inst _ true

/-! ## LinkLabels depends on the label table through the lookup only -/

theorem linkLabelArgs_congr (m m2 : Method) (inst : Instruction)
    (h : ∀ name, (m2.findLabel name).1 = (m.findLabel name).1 ∧
      (m2.findLabel name).2.2 = (m.findLabel name).2.2)
    (args : List ArgType) (j : Nat) (params : List Int) (ok : Bool) :
    linkLabelArgs m2 inst args j params ok = linkLabelArgs m inst args j params ok := by
  induction args generalizing j params ok with
  | nil => rfl
  | cons a rest ih =>
    by_cases ha : a = ArgType.ArgLabel
    · simp only [linkLabelArgs, ha, if_true]
      obtain ⟨h1, h2⟩ := h inst.label
      rw [h1, h2]
      cases (m.findLabel inst.label).2.2 with
      | none => rfl
      | some l =>
        by_cases hj : j < params.length
        · simp only [hj, if_true]
          exact ih _ _ _
        · simp only [hj, if_false]
    · simp only [linkLabelArgs, ha, if_false]
      exact ih _ _ _

theorem linkLabelsFrom_congr (m m2 : Method)
    (h : ∀ name, (m2.findLabel name).1 = (m.findLabel name).1 ∧
      (m2.findLabel name).2.2 = (m.findLabel name).2.2)
    (insts : List Instruction) (ok : Bool) :
    linkLabelsFrom m2 insts ok = linkLabelsFrom m insts ok := by
  induction insts generalizing ok with
  | nil => rfl
  | cons inst rest ih =>
    rw [linkLabelsFrom, linkLabelsFrom, linkLabelArgs_congr m m2 inst h]
    by_cases hflag : inst.linkLabel = true
    · simp only [hflag, Bool.not_true, Bool.false_eq_true, if_false]
      rcases linkLabelArgs m inst inst.op.Args 0 inst.params ok with ⟨ps, ok1⟩ | ⟨ps, k⟩
      · simp only [ih]
      · rfl
    · have hflag2 : inst.linkLabel = false := by simpa using hflag
      simp only [hflag2, Bool.not_false, if_true, ih]

/-- In a table without duplicate names the first-match search finds a label
exactly when it is in the table under that name. -/
theorem find?_name_eq_some_iff (ls : List Label) (hnd : (ls.map Label.Name).Nodup)
    (name : String) (l : Label) :
    ls.find? (fun x => decide (x.Name = name)) = some l ↔ l ∈ ls ∧ l.Name = name := by
  induction ls with
  | nil => simp
  | cons x xs ih =>
    have hnd2 : (xs.map Label.Name).Nodup := (List.nodup_cons.mp (by simpa using hnd)).2
    have hx : x.Name ∉ xs.map Label.Name := (List.nodup_cons.mp (by simpa using hnd)).1
    by_cases hxn : x.Name = name
    · simp only [List.find?_cons, hxn, decide_True, Option.some.injEq, List.mem_cons]
      constructor
      · intro e; subst e; exact ⟨Or.inl rfl, hxn⟩
      · rintro ⟨h1 | h1, h2⟩
        · exact h1.symm
        · exact absurd (List.mem_map.mpr ⟨l, h1, h2.trans hxn.symm⟩) hx
    · simp only [List.find?_cons, hxn, decide_False, List.mem_cons]
      rw [ih hnd2]
      constructor
      · rintro ⟨h1, h2⟩; exact ⟨Or.inr h1, h2⟩
      · rintro ⟨h1 | h1, h2⟩
        · subst h1; exact absurd h2 hxn
        · exact ⟨h1, h2⟩

/-- Reordering a label table without duplicate names does not change what the
lookup finds. -/
theorem findLabel_perm (m m2 : Method) (hp : m2.labels.Perm m.labels)
    (hnd : (m.labels.map Label.Name).Nodup) (name : String) :
    (m2.findLabel name).1 = (m.findLabel name).1 ∧
      (m2.findLabel name).2.2 = (m.findLabel name).2.2 := by
  have hnd2 : (m2.labels.map Label.Name).Nodup := ((hp.map Label.Name).nodup_iff).mpr hnd
  have e : (m2.findLabel name).2.2 = (m.findLabel name).2.2 := by
    unfold Method.findLabel
    rw [findLabelFrom_lbl, findLabelFrom_lbl]
    apply Option.ext
    intro l
    simp only [Option.mem_def]
    rw [find?_name_eq_some_iff _ hnd2, find?_name_eq_some_iff _ hnd, hp.mem_iff]
  refine ⟨?_, e⟩
  unfold Method.findLabel at e ⊢
  rw [findLabelFrom_found, findLabelFrom_found, e]

/-! ## Claims about LinkLabels -/

/-- What `LinkLabels` does for an instruction that it reaches. For every
flagged instruction whose label name is present in the label table of the
method, and which `LinkLabels` reaches (the loop body does not panic on an
earlier instruction), `LinkLabels` sets each operand slot of
kind label to the signed difference `label.B - instruction.B`, where `label`
is the entry the lookup returns: negative exactly for a label behind the
instruction, positive exactly for one ahead of it. The instruction list that
results is the same for every reordering of a label table without duplicate
names, and when the loop body panics on no instruction of the method the pass
returns `true`. -/
theorem LinkLabels_resolves_displacement (m : Method) (k : Nat) (inst : Instruction)
    (hk : m.instructions[k]? = some inst)
    (hflag : inst.linkLabel = true)
    (hpres : ∃ l ∈ m.labels, l.Name = inst.label)
    (hlen : inst.op.Args.length ≤ inst.params.length)
    (hB : inst.B < 2 ^ 32) (hLB : ∀ l ∈ m.labels, l.B < 2 ^ 32)
    (hpre : ∀ p ∈ m.instructions.take k, labelLinkable m p) :
    ∃ lbl inst1, (m.findLabel inst.label).2.2 = some lbl ∧ lbl ∈ m.labels ∧
      lbl.Name = inst.label ∧
      m.LinkLabels.state.instructions[k]? = some inst1 ∧
      (∀ j : Nat, inst.op.Args[j]? = some ArgType.ArgLabel →
        ∃ d : Int, inst1.params[j]? = some d ∧ d = (lbl.B : Int) - (inst.B : Int) ∧
          (d < 0 ↔ lbl.B < inst.B) ∧ (0 < d ↔ inst.B < lbl.B)) ∧
      (∀ m2 : Method, m2.instructions = m.instructions → m2.labels.Perm m.labels →
        (m.labels.map Label.Name).Nodup →
        m2.LinkLabels.state.instructions = m.LinkLabels.state.instructions) ∧
      ((∀ p ∈ m.instructions, labelLinkable m p) → ∃ m1, m.LinkLabels = Run.ret m1 true) := by
  obtain ⟨lbl, _, hl, hmem, hname⟩ := findLabel_of_present m inst.label hpres
  obtain ⟨i, hfind⟩ := findLabel_eq_of_lbl m inst.label lbl hl
  refine ⟨lbl, linkLabelInst m inst, hl, hmem, hname, LinkLabels_state_get m k inst hk hpre,
    ?_, ?_, ?_⟩
  · intro j hj
    have hjlt : j < inst.op.Args.length := (List.getElem?_eq_some_iff.mp hj).1
    have e := linkLabelArgs_found m inst i lbl hfind inst.op.Args 0 inst.params true (by omega)
    have hd := displacement_exact lbl.B inst.B (hLB lbl hmem) hB
    refine ⟨(lbl.B : Int) - (inst.B : Int), ?_, rfl, by omega, by omega⟩
    simp only [linkLabelInst, hflag, if_true, e, Run.state, Instruction.withParams, hd]
    have := setSlots_get_kind ArgType.ArgLabel ((lbl.B : Int) - (inst.B : Int)) inst.op.Args 0
      inst.params j hj (by omega)
    simpa using this
  · intro m2 hi hp hnd
    unfold Method.LinkLabels
    rw [Run.state_mapState, Run.state_mapState, hi,
      linkLabelsFrom_congr m m2 (findLabel_perm m m2 hp hnd)]
  · intro hall
    exact ⟨_, LinkLabels_linkable m hall⟩

/-- The backward jump of `exLoop` is reached by `LinkLabels` and gets its
displacement. -/
theorem LinkLabels_resolves_displacement_witness :
    ∃ lbl inst1, (exLoop.findLabel exBack.label).2.2 = some lbl ∧ lbl ∈ exLoop.labels ∧
      lbl.Name = exBack.label ∧
      exLoop.LinkLabels.state.instructions[2]? = some inst1 ∧
      (∀ j : Nat, exBack.op.Args[j]? = some ArgType.ArgLabel →
        ∃ d : Int, inst1.params[j]? = some d ∧ d = (lbl.B : Int) - (exBack.B : Int) ∧
          (d < 0 ↔ lbl.B < exBack.B) ∧ (0 < d ↔ exBack.B < lbl.B)) ∧
      (∀ m2 : Method, m2.instructions = exLoop.instructions → m2.labels.Perm exLoop.labels →
        (exLoop.labels.map Label.Name).Nodup →
        m2.LinkLabels.state.instructions = exLoop.LinkLabels.state.instructions) ∧
      ((∀ p ∈ exLoop.instructions, labelLinkable exLoop p) →
        ∃ m1, exLoop.LinkLabels = Run.ret m1 true) :=
  LinkLabels_resolves_displacement exLoop 2 exBack (by decide) (by decide)
    ⟨⟨"L1", 2, 3⟩, by decide, by decide⟩ (by decide) (by decide) (by decide) (by decide)

/-- C1. At the failing input `exUndef` the claim does not hold. The second
instruction is flagged, its label `L1` is in the label table at byte 6 and the
instruction is at byte 3, so its label operand should become 3. `LinkLabels`
panics on the first instruction, whose label is not declared, and the operand
of the second instruction is still 0 in the state the pass leaves. -/
theorem LinkLabels_leaves_declared_jump_unlinked :
    exUndef.instructions[1]? = some exDefJump ∧
      exDefJump.linkLabel = true ∧
      (∃ l ∈ exUndef.labels, l.Name = exDefJump.label) ∧
      exUndef.findLabel exDefJump.label = (true, 0, some ⟨"L1", 3, 6⟩) ∧
      exDefJump.op.Args[0]? = some ArgType.ArgLabel ∧
      ((6 : Nat) : Int) - ((exDefJump.B : Nat) : Int) = 3 ∧
      exUndef.LinkLabels = Run.panic exUndef PanicKind.nilDeref ∧
      (exUndef.LinkLabels.state.instructions[1]?).bind (fun i => i.params[0]?) = some 0 ∧
      (exUndef.LinkLabels.state.instructions[1]?).bind (fun i => i.params[0]?) ≠ some 3 := by
  decide

/-- At every position the state `LinkLabels` reaches holds either the
instruction untouched (the pass panicked earlier) or the instruction as the
loop body leaves it. -/
theorem linkLabelsFrom_state_get (m : Method) (insts : List Instruction) (ok : Bool)
    (k : Nat) (inst : Instruction) (hk : insts[k]? = some inst) :
    (linkLabelsFrom m insts ok).state[k]? = some inst ∨
      (linkLabelsFrom m insts ok).state[k]? = some (linkLabelInst m inst) := by
  induction insts generalizing ok k with
  | nil => simp at hk
  | cons p rest ih =>
    cases k with
    | zero =>
      have e : p = inst := by simpa using hk
      subst e
      exact Or.inr (linkLabelsFrom_head m p rest ok)
    | succ k =>
      have hk2 : rest[k]? = some inst := by simpa using hk
      rw [linkLabelsFrom]
      by_cases hflag : p.linkLabel = true
      · simp only [hflag, Bool.not_true, Bool.false_eq_true, if_false]
        rcases linkLabelArgs m p p.op.Args 0 p.params ok with ⟨ps, ok1⟩ | ⟨ps, kd⟩
        · simp only [Run.state_mapState, List.getElem?_cons_succ]
          exact ih ok1 k hk2
        · left
          simp only [Run.state, List.getElem?_cons_succ, hk2]
      · have hflag2 : p.linkLabel = false := by simpa using hflag
        simp only [hflag2, Bool.not_false, if_true, Run.state_mapState,
          List.getElem?_cons_succ]
        exact ih ok k hk2

theorem Instruction.withParams_self (inst : Instruction) : inst.withParams inst.params = inst :=
  rfl

/-- An instruction whose label is not declared is left as it was by the loop
body of `LinkLabels`. -/
theorem linkLabelInst_missing (m : Method) (inst : Instruction)
    (hfind : (m.findLabel inst.label).1 = false) : linkLabelInst m inst = inst := by
  have hl : (m.findLabel inst.label).2.2 = none := by
    have := findLabelFrom_found m.labels inst.label 0
    unfold Method.findLabel at hfind ⊢
    rw [hfind] at this
    cases h : (findLabelFrom m.labels inst.label 0).2.2 with
    | none => rfl
    | some l => rw [h] at this; simp at this
  unfold linkLabelInst
  split
  · rw [linkLabelArgs_missing_state m inst hl]
    rfl
  · rfl

/-- If some flagged instruction with a slot of kind label names a label that
is not declared, the loop of `LinkLabels` does not return. -/
theorem linkLabelsFrom_undeclared (m : Method) (insts : List Instruction) (ok : Bool)
    (h : ∃ p ∈ insts, p.linkLabel = true ∧ ArgType.ArgLabel ∈ p.op.Args ∧
      (m.findLabel p.label).1 = false) :
    (linkLabelsFrom m insts ok).returned = false := by
  induction insts generalizing ok with
  | nil => simp at h
  | cons q rest ih =>
    obtain ⟨p, hp, hflag, hslot, hfind⟩ := h
    rw [linkLabelsFrom]
    by_cases hq : q.linkLabel = true
    · simp only [hq, Bool.not_true, Bool.false_eq_true, if_false]
      rcases hr : linkLabelArgs m q q.op.Args 0 q.params ok with ⟨ps, ok1⟩ | ⟨ps, kd⟩
      · simp only [Run.returned_mapState]
        rcases List.mem_cons.mp hp with e | e
        · subst e
          have hl : (m.findLabel p.label).2.2 = none := by
            have := findLabelFrom_found m.labels p.label 0
            unfold Method.findLabel at hfind ⊢
            rw [hfind] at this
            cases h : (findLabelFrom m.labels p.label 0).2.2 with
            | none => rfl
            | some l => rw [h] at this; simp at this
          rw [linkLabelArgs_missing_panic m p hl p.op.Args hslot] at hr
          cases hr
        · exact ih ok1 ⟨p, e, hflag, hslot, hfind⟩
      · rfl
    · have hq2 : q.linkLabel = false := by simpa using hq
      simp only [hq2, Bool.not_false, if_true, Run.returned_mapState]
      rcases List.mem_cons.mp hp with e | e
      · subst e
        rw [hflag] at hq2
        cases hq2
      · exact ih ok ⟨p, e, hflag, hslot, hfind⟩

/-- C2. A method that contains a flagged instruction with an operand slot of
kind label whose label name is absent from the label table makes `LinkLabels`
panic: the pass does not return, so it returns neither `false` nor `true`. -/
theorem LinkLabels_undeclared_label_panics (m : Method)
    (h : ∃ p ∈ m.instructions, p.linkLabel = true ∧ ArgType.ArgLabel ∈ p.op.Args ∧
      (m.findLabel p.label).1 = false) :
    m.LinkLabels.returned = false := by
  unfold Method.LinkLabels
  rw [Run.returned_mapState]
  exact linkLabelsFrom_undeclared m m.instructions true h

/-- The failing input of C2: the pass panics on the first jump of `exUndef`
and never links the second jump, whose label is declared. -/
theorem LinkLabels_undeclared_label_panics_witness :
    exUndef.LinkLabels.returned = false ∧
      exUndef.LinkLabels = Run.panic exUndef PanicKind.nilDeref ∧
      (exUndef.findLabel exDefJump.label).1 = true ∧
      exUndef.LinkLabels.state.instructions[1]? = some exDefJump :=
  ⟨LinkLabels_undeclared_label_panics exUndef ⟨exUndefJump, by decide, by decide, by decide,
    by decide⟩, by decide, by decide, by decide⟩

/-! ## The inner loop of LinkMethods -/

/-- When the lookup yields a descriptor and every slot has an operand value,
the inner loop returns and sets exactly the method-index slots to the index of
the lookup; `ok` is cleared when a lookup was made and reported not-found. -/
theorem linkMethodArgs_descriptor (asm : Assembler) (inst : Instruction) (f : Bool)
    (idx : Int) (c : Constant) (hfind : asm.findConstant inst.label = (f, idx, some c))
    (args : List ArgType) (j : Nat) (params : List Int) (ok : Bool)
    (hlen : j + args.length ≤ params.length) :
    linkMethodArgs asm inst args j params ok =
      Run.ret (setSlots ArgType.ArgMethod idx args j params)
        (if ArgType.ArgMethod ∈ args then (f && ok) else ok) := by
  induction args generalizing j params ok with
  | nil => rfl
  | cons a rest ih =>
    simp only [List.length_cons] at hlen
    by_cases h : a = ArgType.ArgMethod
    · have hj : j < params.length := by omega
      simp only [linkMethodArgs, setSlots, h, if_true, hfind, hj, List.mem_cons, true_or]
      rw [ih (j + 1) _ _ (by simp; omega)]
      cases f <;> cases ok <;> simp
    · have h2 : ¬ ArgType.ArgMethod = a := fun e => h e.symm
      simp only [linkMethodArgs, setSlots, h, if_false, List.mem_cons, h2, false_or]
      exact ih (j + 1) _ _ (by omega)

/-- Without a slot of kind method index the inner loop returns and changes
nothing. -/
theorem linkMethodArgs_no_slot (asm : Assembler) (inst : Instruction)
    (args : List ArgType) (hmem : ArgType.ArgMethod ∉ args) (j : Nat) (params : List Int)
    (ok : Bool) :
    linkMethodArgs asm inst args j params ok = Run.ret params ok := by
  induction args generalizing j with
  | nil => rfl
  | cons a rest ih =>
    have h : ¬ a = ArgType.ArgMethod := fun e => hmem (by simp [e])
    simp only [linkMethodArgs, h, if_false]
    exact ih (fun e => hmem (List.mem_cons_of_mem _ e)) (j + 1)

theorem linkMethodArgs_state_ok (asm : Assembler) (inst : Instruction)
    (args : List ArgType) (j : Nat) (params : List Int) (ok ok2 : Bool) :
    (linkMethodArgs asm inst args j params ok).state =
      (linkMethodArgs asm inst args j params ok2).state := by
  induction args generalizing j params ok ok2 with
  | nil => rfl
  | cons a rest ih =>
    by_cases h : a = ArgType.ArgMethod
    · simp only [linkMethodArgs, h, if_true]
      by_cases hj : j < params.length
      · simp only [hj, if_true]
        cases (asm.findConstant inst.label).2.2 with
        | none => rfl
        | some c => exact ih _ _ _ _
      · simp only [hj, if_false, Run.state]
    · simp only [linkMethodArgs, h, if_false]
      exact ih _ _ _ _

/-- If the inner loop returns `true`, then `ok` was `true` before and every
lookup it made reported found. -/
theorem linkMethodArgs_ret_true (asm : Assembler) (inst : Instruction)
    (args : List ArgType) (j : Nat) (params : List Int) (ok : Bool) (ps : List Int)
    (h : linkMethodArgs asm inst args j params ok = Run.ret ps true) :
    ok = true ∧ (ArgType.ArgMethod ∈ args → (asm.findConstant inst.label).1 = true) := by
  induction args generalizing j params ok with
  | nil =>
    simp only [linkMethodArgs, Run.ret.injEq] at h
    exact ⟨h.2, by simp⟩
  | cons a rest ih =>
    by_cases ha : a = ArgType.ArgMethod
    · simp only [linkMethodArgs, ha, if_true] at h
      by_cases hj : j < params.length
      · simp only [hj, if_true] at h
        cases hm : (asm.findConstant inst.label).2.2 with
        | none => rw [hm] at h; cases h
        | some c =>
          rw [hm] at h
          obtain ⟨h1, _⟩ := ih _ _ _ h
          cases hf : (asm.findConstant inst.label).1 <;> rw [hf] at h1 <;> simp at h1
          exact ⟨h1, fun _ => rfl⟩
      · simp only [hj, if_false] at h
        cases h
    · simp only [linkMethodArgs, ha, if_false] at h
      obtain ⟨h1, h2⟩ := ih _ _ _ h
      refine ⟨h1, fun hmem => h2 ?_⟩
      rcases List.mem_cons.mp hmem with e | e
      · exact absurd e.symm ha
      · exact e

/-! ## The outer loop of LinkMethods -/

theorem linkMethodArgs_linkable (asm : Assembler) (inst : Instruction)
    (h : methodLinkable asm inst) (hflag : inst.linkMethod = true) (ok : Bool) :
    linkMethodArgs asm inst inst.op.Args 0 inst.params ok =
      Run.ret (linkMethodInst asm inst).params (methodResolved asm inst && ok) := by
  have hst : (linkMethodInst asm inst).params =
      (linkMethodArgs asm inst inst.op.Args 0 inst.params ok).state := by
    simp only [linkMethodInst, hflag, if_true]
    exact linkMethodArgs_state_ok _ _ _ _ _ _ _
  by_cases hmem : ArgType.ArgMethod ∈ inst.op.Args
  · obtain ⟨hd, hlen⟩ := h hflag hmem
    rcases hm : asm.findConstant inst.label with ⟨f, idx, mtd⟩
    rw [hm] at hd
    obtain ⟨c, rfl⟩ := Option.ne_none_iff_exists'.mp hd
    have e := linkMethodArgs_descriptor asm inst f idx c hm inst.op.Args 0 inst.params ok
      (by omega)
    rw [hst, e]
    simp [methodResolved, hflag, hmem, hm, Run.state]
  · have e := linkMethodArgs_no_slot asm inst inst.op.Args hmem 0 inst.params ok
    rw [hst, e]
    simp [methodResolved, hmem, Run.state]

/-- The loop of `LinkMethods` over a prefix on which the body does not panic:
the prefix is rewritten instruction by instruction, `ok` records whether all
its lookups reported found, and the loop goes on with the rest. -/
theorem linkMethodsFrom_append (asm : Assembler) (pre rest : List Instruction) (ok : Bool)
    (hpre : ∀ p ∈ pre, methodLinkable asm p) :
    linkMethodsFrom asm (pre ++ rest) ok =
      (linkMethodsFrom asm rest (pre.all (methodResolved asm) && ok)).mapState
        (fun r => pre.map (linkMethodInst asm) ++ r) := by
  induction pre generalizing ok with
  | nil => simp [Run.mapState_id]
  | cons p pre ih =>
    have ih2 := fun ok => ih ok (fun q hq => hpre q (List.mem_cons_of_mem _ hq))
    have hp := hpre p (List.mem_cons_self _ _)
    by_cases hflag : p.linkMethod = true
    · have e := linkMethodArgs_linkable asm p hp hflag ok
      have e2 : p.withParams (linkMethodInst asm p).params = linkMethodInst asm p := by
        simp only [linkMethodInst, hflag, if_true]
        rfl
      rw [List.cons_append, linkMethodsFrom]
      simp only [hflag, Bool.not_true, Bool.false_eq_true, if_false, e, ih2,
        Run.mapState_mapState, List.map_cons, e2, List.cons_append, List.all_cons]
      congr 2
      cases methodResolved asm p <;> cases pre.all (methodResolved asm) <;> cases ok <;> rfl
    · have hflag2 : p.linkMethod = false := by simpa using hflag
      have e2 : linkMethodInst asm p = p := by simp [linkMethodInst, hflag2]
      have e3 : methodResolved asm p = true := by simp [methodResolved, hflag2]
      rw [List.cons_append, linkMethodsFrom]
      simp only [hflag2, Bool.not_false, if_true, ih2, Run.mapState_mapState, List.map_cons,
        e2, List.cons_append, List.all_cons, e3, Bool.true_and]

theorem linkMethodsFrom_head (asm : Assembler) (inst : Instruction) (rest : List Instruction)
    (ok : Bool) :
    (linkMethodsFrom asm (inst :: rest) ok).state[0]? = some (linkMethodInst asm inst) := by
  by_cases hflag : inst.linkMethod = true
  · have hst := linkMethodArgs_state_ok asm inst inst.op.Args 0 inst.params ok true
    have e1 : linkMethodInst asm inst =
        inst.withParams (linkMethodArgs asm inst inst.op.Args 0 inst.params ok).state := by
      simp only [linkMethodInst, hflag, if_true, hst]
    rw [e1, linkMethodsFrom]
    simp only [hflag, Bool.not_true, Bool.false_eq_true, if_false]
    rcases linkMethodArgs asm inst inst.op.Args 0 inst.params ok with ⟨ps, ok1⟩ | ⟨ps, k⟩
    · rw [Run.state_mapState]
      simp only [List.getElem?_cons_zero, Run.state]
    · simp only [Run.state, List.getElem?_cons_zero]
  · have hflag2 : inst.linkMethod = false := by simpa using hflag
    simp [linkMethodsFrom, hflag2, Run.state_mapState, linkMethodInst]

/-- If the loop body does not panic on any instruction, `LinkMethods` returns,
rewrites every instruction as the loop body does, and its result tells whether
every lookup reported found. -/
theorem LinkMethods_linkable (m : Method) (asm : Assembler)
    (h : ∀ p ∈ m.instructions, methodLinkable asm p) :
    m.LinkMethods asm =
      Run.ret { m with instructions := m.instructions.map (linkMethodInst asm) }
        (m.instructions.all (methodResolved asm)) := by
  have e := linkMethodsFrom_append asm m.instructions [] true h
  simp only [List.append_nil] at e
  simp [Method.LinkMethods, e, linkMethodsFrom, Run.mapState]

theorem LinkMethods_state_get (m : Method) (asm : Assembler) (k : Nat) (inst : Instruction)
    (hk : m.instructions[k]? = some inst)
    (hpre : ∀ p ∈ m.instructions.take k, methodLinkable asm p) :
    (m.LinkMethods asm).state.instructions[k]? = some (linkMethodInst asm inst) := by
  have hlt : k < m.instructions.length := (List.getElem?_eq_some_iff.mp hk).1
  have hsplit : m.instructions = m.instructions.take k ++ inst :: m.instructions.drop (k + 1) := by
    have hget : m.instructions[k] = inst := (List.getElem?_eq_some_iff.mp hk).2
    rw [← hget, List.getElem_cons_drop _ _ hlt, List.take_append_drop]
  unfold Method.LinkMethods
  rw [Run.state_mapState]
  simp only
  rw [hsplit, linkMethodsFrom_append asm _ _ true hpre, Run.state_mapState,
    List.getElem?_append_right (by simp)]
  simp only [List.length_map, List.length_take, ← hsplit]
  have : k - min k m.instructions.length = 0 := by omega
  rw [this]
  exact linkMethodsFrom_head asm inst _ _

/-- If the loop of `LinkMethods` returns `true`, then `ok` was `true` before
and every lookup the loop made reported found. -/
theorem linkMethodsFrom_ret_true (asm : Assembler) (insts : List Instruction) (ok : Bool)
    (s : List Instruction) (h : linkMethodsFrom asm insts ok = Run.ret s true) :
    ok = true ∧ ∀ p ∈ insts, methodResolved asm p = true := by
  induction insts generalizing ok s with
  | nil =>
    simp only [linkMethodsFrom, Run.ret.injEq] at h
    exact ⟨h.2, by simp⟩
  | cons q rest ih =>
    rw [linkMethodsFrom] at h
    by_cases hq : q.linkMethod = true
    · simp only [hq, Bool.not_true, Bool.false_eq_true, if_false] at h
      rcases hr : linkMethodArgs asm q q.op.Args 0 q.params ok with ⟨ps, ok1⟩ | ⟨ps, kd⟩
      · rw [hr] at h
        dsimp only at h
        rcases hr2 : linkMethodsFrom asm rest ok1 with ⟨s2, r2⟩ | ⟨s2, kd⟩
        · rw [hr2] at h
          simp only [Run.mapState, Run.ret.injEq] at h
          obtain ⟨_, hr3⟩ := h
          subst hr3
          obtain ⟨h1, h2⟩ := ih ok1 s2 hr2
          subst h1
          obtain ⟨h3, h4⟩ := linkMethodArgs_ret_true asm q q.op.Args 0 q.params ok ps hr
          refine ⟨h3, ?_⟩
          intro p hp
          rcases List.mem_cons.mp hp with e | e
          · subst e
            unfold methodResolved
            split
            · next hc => exact h4 hc.2
            · rfl
          · exact h2 p e
        · rw [hr2] at h
          cases h
      · rw [hr] at h
        cases h
    · have hq2 : q.linkMethod = false := by simpa using hq
      simp only [hq2, Bool.not_false, if_true] at h
      rcases hr2 : linkMethodsFrom asm rest ok with ⟨s2, r2⟩ | ⟨s2, kd⟩
      · rw [hr2] at h
        simp only [Run.mapState, Run.ret.injEq] at h
        obtain ⟨_, hr3⟩ := h
        subst hr3
        obtain ⟨h1, h2⟩ := ih ok s2 hr2
        refine ⟨h1, ?_⟩
        intro p hp
        rcases List.mem_cons.mp hp with e | e
        · subst e
          simp [methodResolved, hq2]
        · exact h2 p e
      · rw [hr2] at h
        cases h

/-- The inner loop of `LinkMethods` from slot `j` on leaves the operand values
before slot `j` as they are. -/
theorem linkMethodArgs_state_get_lt (asm : Assembler) (inst : Instruction)
    (args : List ArgType) (j : Nat) (params : List Int) (ok : Bool) (t : Nat) (ht : t < j) :
    (linkMethodArgs asm inst args j params ok).state[t]? = params[t]? := by
  induction args generalizing j params ok with
  | nil => rfl
  | cons a rest ih =>
    by_cases h : a = ArgType.ArgMethod
    · simp only [linkMethodArgs, h, if_true]
      by_cases hj : j < params.length
      · simp only [hj, if_true]
        cases (asm.findConstant inst.label).2.2 with
        | none =>
          simp only [Run.state]
          exact List.getElem?_set_ne (by omega)
        | some c =>
          simp only
          rw [ih (j + 1) _ _ (by omega)]
          exact List.getElem?_set_ne (by omega)
      · simp only [hj, if_false, Run.state]
    · simp only [linkMethodArgs, h, if_false]
      exact ih (j + 1) _ _ (by omega)

/-- The first slot of kind method index holds, after the inner loop of
`LinkMethods`, the index that the lookup returned, whether or not the lookup
reported found and whether or not the loop went on after it. -/
theorem linkMethodArgs_first_slot (asm : Assembler) (inst : Instruction)
    (args : List ArgType) (j : Nat) (params : List Int) (ok : Bool) (t : Nat)
    (hslot : args[t]? = some ArgType.ArgMethod)
    (hfirst : ∀ u : Nat, u < t → args[u]? ≠ some ArgType.ArgMethod)
    (hlen : j + t < params.length) :
    (linkMethodArgs asm inst args j params ok).state[j + t]? =
      some (asm.findConstant inst.label).2.1 := by
  induction args generalizing j params ok t with
  | nil => simp at hslot
  | cons a rest ih =>
    cases t with
    | zero =>
      have ha : a = ArgType.ArgMethod := by simpa using hslot
      have hj : j < params.length := by omega
      simp only [linkMethodArgs, ha, if_true, hj, Nat.add_zero]
      cases (asm.findConstant inst.label).2.2 with
      | none =>
        simp only [Run.state]
        exact List.getElem?_set_self hj
      | some c =>
        simp only
        rw [linkMethodArgs_state_get_lt asm inst rest (j + 1) _ _ j (by omega)]
        exact List.getElem?_set_self hj
    | succ t =>
      have ha : ¬ a = ArgType.ArgMethod := by
        have := hfirst 0 (by omega)
        simpa using this
      have hslot2 : rest[t]? = some ArgType.ArgMethod := by simpa using hslot
      have hfirst2 : ∀ u : Nat, u < t → rest[u]? ≠ some ArgType.ArgMethod := by
        intro u hu
        have := hfirst (u + 1) (by omega)
        simpa using this
      have e : j + (t + 1) = (j + 1) + t := by omega
      simp only [linkMethodArgs, ha, if_false]
      rw [e]
      exact ih (j + 1) params ok t hslot2 hfirst2 (by omega)

/-- If the lookup yields no descriptor and some slot has kind method index,
the inner loop of `LinkMethods` does not return. -/
theorem linkMethodArgs_nil_descriptor (asm : Assembler) (inst : Instruction)
    (hfind : (asm.findConstant inst.label).2.2 = none)
    (args : List ArgType) (hmem : ArgType.ArgMethod ∈ args) (j : Nat) (params : List Int)
    (ok : Bool) :
    (linkMethodArgs asm inst args j params ok).returned = false := by
  induction args generalizing j with
  | nil => simp at hmem
  | cons a rest ih =>
    by_cases h : a = ArgType.ArgMethod
    · simp only [linkMethodArgs, h, if_true, hfind]
      by_cases hj : j < params.length
      · simp only [hj, if_true, Run.returned]
      · simp only [hj, if_false, Run.returned]
    · simp only [linkMethodArgs, h, if_false]
      have : ArgType.ArgMethod ∈ rest := by
        rcases List.mem_cons.mp hmem with h1 | h1
        · exact absurd h1.symm h
        · exact h1
      exact ih this (j + 1)

/-- If some flagged instruction with a slot of kind method index names a
method for which the lookup yields no descriptor, the loop of `LinkMethods`
does not return. -/
theorem linkMethodsFrom_nil_descriptor (asm : Assembler) (insts : List Instruction)
    (ok : Bool)
    (h : ∃ p ∈ insts, p.linkMethod = true ∧ ArgType.ArgMethod ∈ p.op.Args ∧
      (asm.findConstant p.label).2.2 = none) :
    (linkMethodsFrom asm insts ok).returned = false := by
  induction insts generalizing ok with
  | nil => simp at h
  | cons q rest ih =>
    obtain ⟨p, hp, hflag, hslot, hfind⟩ := h
    rw [linkMethodsFrom]
    by_cases hq : q.linkMethod = true
    · simp only [hq, Bool.not_true, Bool.false_eq_true, if_false]
      rcases hr : linkMethodArgs asm q q.op.Args 0 q.params ok with ⟨ps, ok1⟩ | ⟨ps, kd⟩
      · simp only [Run.returned_mapState]
        rcases List.mem_cons.mp hp with e | e
        · subst e
          have := linkMethodArgs_nil_descriptor asm p hfind p.op.Args hslot 0 p.params ok
          rw [hr] at this
          cases this
        · exact ih ok1 ⟨p, e, hflag, hslot, hfind⟩
      · rfl
    · have hq2 : q.linkMethod = false := by simpa using hq
      simp only [hq2, Bool.not_false, if_true, Run.returned_mapState]
      rcases List.mem_cons.mp hp with e | e
      · subst e
        rw [hflag] at hq2
        cases hq2
      · exact ih ok ⟨p, e, hflag, hslot, hfind⟩

theorem exPool_wf (name : String) (h : (exPool.findConstant name).1 = true) :
    (exPool.findConstant name).2.2 ≠ none := by
  unfold exPool at h ⊢
  simp only at h ⊢
  split
  · simp
  · split
    · simp
    · rename_i h1 h2
      simp [h1, h2] at h

/-! ## Claims about LinkMethods -/

/-- What `LinkMethods` does for an instruction that it reaches. For a pool
whose lookup gives a descriptor for every name it reports found and a method
whose instructions have an operand value for every declared operand kind:
every flagged instruction whose name is found in the pool, and
which `LinkMethods` reaches, ends with each operand slot of kind method index
equal to the index the lookup returns for that name; the resulting instruction
list is the same whichever method record holds the instructions; and
`LinkMethods` returns `true` if and only if every lookup it makes reports
found. -/
theorem LinkMethods_resolves_index (m : Method) (asm : Assembler) (k : Nat)
    (inst : Instruction)
    (hwf : ∀ name, (asm.findConstant name).1 = true → (asm.findConstant name).2.2 ≠ none)
    (hlen : ∀ p ∈ m.instructions, p.op.Args.length ≤ p.params.length)
    (hk : m.instructions[k]? = some inst) (hflag : inst.linkMethod = true)
    (hfound : (asm.findConstant inst.label).1 = true)
    (hpre : ∀ p ∈ m.instructions.take k, methodLinkable asm p) :
    (∃ inst1, (m.LinkMethods asm).state.instructions[k]? = some inst1 ∧
      ∀ j : Nat, inst.op.Args[j]? = some ArgType.ArgMethod →
        inst1.params[j]? = some (asm.findConstant inst.label).2.1) ∧
    (∀ m2 : Method, m2.instructions = m.instructions →
      (m2.LinkMethods asm).mapState Method.instructions =
        (m.LinkMethods asm).mapState Method.instructions) ∧
    ((∃ m1, m.LinkMethods asm = Run.ret m1 true) ↔
      ∀ p ∈ m.instructions, p.linkMethod = true → ArgType.ArgMethod ∈ p.op.Args →
        (asm.findConstant p.label).1 = true) := by
  have hinst : inst ∈ m.instructions := List.getElem?_mem hk
  refine ⟨⟨linkMethodInst asm inst, LinkMethods_state_get m asm k inst hk hpre, ?_⟩, ?_, ?_⟩
  · intro j hj
    have hjlt : j < inst.op.Args.length := (List.getElem?_eq_some_iff.mp hj).1
    have hl := hlen inst hinst
    rcases hm : asm.findConstant inst.label with ⟨f, idx, mtd⟩
    have hd := hwf inst.label hfound
    rw [hm] at hd
    obtain ⟨c, rfl⟩ := Option.ne_none_iff_exists'.mp hd
    have e := linkMethodArgs_descriptor asm inst f idx c hm inst.op.Args 0 inst.params true
      (by omega)
    simp only [linkMethodInst, hflag, if_true, e, Run.state, Instruction.withParams]
    have := setSlots_get_kind ArgType.ArgMethod idx inst.op.Args 0 inst.params j hj (by omega)
    simpa using this
  · intro m2 hi
    unfold Method.LinkMethods
    rw [Run.mapState_mapState, Run.mapState_mapState, hi]
  · constructor
    · rintro ⟨m1, h1⟩ p hp hpf hps
      unfold Method.LinkMethods at h1
      rcases hr : linkMethodsFrom asm m.instructions true with ⟨s, r⟩ | ⟨s, kd⟩
      · rw [hr] at h1
        simp only [Run.mapState, Run.ret.injEq] at h1
        obtain ⟨_, h2⟩ := h1
        subst h2
        have := (linkMethodsFrom_ret_true asm m.instructions true s hr).2 p hp
        simpa [methodResolved, hpf, hps] using this
      · rw [hr] at h1
        cases h1
    · intro hall
      have hlk : ∀ p ∈ m.instructions, methodLinkable asm p := by
        intro p hp hpf hps
        exact ⟨hwf p.label (hall p hp hpf hps), hlen p hp⟩
      have hres : m.instructions.all (methodResolved asm) = true := by
        rw [List.all_eq_true]
        intro p hp
        unfold methodResolved
        split
        · next hc => exact hall p hp hc.1 hc.2
        · rfl
      refine ⟨{ m with instructions := m.instructions.map (linkMethodInst asm) }, ?_⟩
      rw [LinkMethods_linkable m asm hlk, hres]

/-- The first call of `exCallsOk` is reached by `LinkMethods` and gets its pool
index. -/
theorem LinkMethods_resolves_index_witness :
    (∃ inst1, (exCallsOk.LinkMethods exPool).state.instructions[0]? = some inst1 ∧
      ∀ j : Nat, exCallG.op.Args[j]? = some ArgType.ArgMethod →
        inst1.params[j]? = some (exPool.findConstant exCallG.label).2.1) ∧
    (∀ m2 : Method, m2.instructions = exCallsOk.instructions →
      (m2.LinkMethods exPool).mapState Method.instructions =
        (exCallsOk.LinkMethods exPool).mapState Method.instructions) ∧
    ((∃ m1, exCallsOk.LinkMethods exPool = Run.ret m1 true) ↔
      ∀ p ∈ exCallsOk.instructions, p.linkMethod = true → ArgType.ArgMethod ∈ p.op.Args →
        (exPool.findConstant p.label).1 = true) :=
  LinkMethods_resolves_index exCallsOk exPool 0 exCallG exPool_wf (by decide) (by decide)
    (by decide) (by decide) (by decide)

/-- C3. At the failing input `exCalls` with the pool `exPool` the claim does
not hold. The second instruction is a flagged call of `g`, which the pool
holds at index 1, so its method-index operand should become 1. `LinkMethods`
panics on the first instruction, whose method is not in the pool, returns
neither `true` nor `false`, and the operand of the second instruction is still
0 in the state the pass leaves. -/
theorem LinkMethods_leaves_found_call_unlinked :
    exCalls.instructions[1]? = some exCallG ∧
      exCallG.linkMethod = true ∧
      exPool.findConstant exCallG.label = (true, 1, some ⟨"g"⟩) ∧
      exCallG.op.Args[0]? = some ArgType.ArgMethod ∧
      (exCalls.LinkMethods exPool).returned = false ∧
      ((exCalls.LinkMethods exPool).state.instructions[1]?).bind (fun i => i.params[0]?) =
        some 0 ∧
      ((exCalls.LinkMethods exPool).state.instructions[1]?).bind (fun i => i.params[0]?) ≠
        some 1 := by
  decide

/-- C4. A method that contains a flagged instruction with an operand slot of
kind method index, for whose name the lookup yields no descriptor, makes
`LinkMethods` panic: the pass does not return, so it returns neither `false`
nor `true`. -/
theorem LinkMethods_undefined_method_panics (m : Method) (asm : Assembler)
    (h : ∃ p ∈ m.instructions, p.linkMethod = true ∧ ArgType.ArgMethod ∈ p.op.Args ∧
      (asm.findConstant p.label).2.2 = none) :
    (m.LinkMethods asm).returned = false := by
  unfold Method.LinkMethods
  rw [Run.returned_mapState]
  exact linkMethodsFrom_nil_descriptor asm m.instructions true h

/-- The failing input of C4: the pass panics on the first call of `exCalls`
and never links the second call, whose method is in the pool. -/
theorem LinkMethods_undefined_method_panics_witness :
    (exCalls.LinkMethods exPool).returned = false ∧
      exPool.findConstant exCallMissing.label = (false, -1, none) ∧
      exCalls.LinkMethods exPool =
        Run.panic { exCalls with instructions := [exCallMissing.withParams [-1], exCallG] }
          PanicKind.nilDeref ∧
      exPool.findConstant exCallG.label = (true, 1, some ⟨"g"⟩) ∧
      (exCalls.LinkMethods exPool).state.instructions[1]? = some exCallG :=
  ⟨LinkMethods_undefined_method_panics exCalls exPool ⟨exCallMissing, by decide, by decide,
    by decide, by decide⟩, by decide, by decide, by decide, by decide⟩

/-! ## Operands of unresolved references -/

/-- C5. At the failing input the operand does not keep its placeholder and
the pass is not completed. The only instruction of `exCallOnly` calls a method
that the pool does not hold: its operand is 0 before `LinkMethods`, the pass
stores -1, the index the failed lookup returned, and then panics on the nil
descriptor. In `exUndef` the first jump names an undeclared label:
`LinkLabels` panics on the nil label before it writes the operand. -/
theorem LinkMethods_failure_overwrites_operand :
    exCallOnly.instructions[0]? = some exCallMissing ∧
      exCallMissing.linkMethod = true ∧
      exPool.findConstant exCallMissing.label = (false, -1, none) ∧
      exCallMissing.params = [0] ∧
      exCallOnly.LinkMethods exPool =
        Run.panic { exCallOnly with instructions := [exCallMissing.withParams [-1]] }
          PanicKind.nilDeref ∧
      ((exCallOnly.LinkMethods exPool).state.instructions[0]?).map Instruction.params ≠
        some exCallMissing.params ∧
      exUndef.LinkLabels = Run.panic exUndef PanicKind.nilDeref := by
  decide

/-- What the two passes leave in an operand they cannot resolve. An
instruction whose label name is not in the label table has, in the state
`LinkLabels` reaches, the operand values it had before the pass. A flagged
instruction that `LinkMethods` reaches and whose method name the lookup does
not find has its first operand slot of kind method index overwritten with the
index that the failed lookup returned. -/
theorem link_failure_operand (m : Method) (asm : Assembler) (k : Nat) (inst : Instruction)
    (hk : m.instructions[k]? = some inst) :
    ((m.findLabel inst.label).1 = false →
      m.LinkLabels.state.instructions[k]? = some inst) ∧
    (inst.linkMethod = true → (asm.findConstant inst.label).1 = false →
      (∀ p ∈ m.instructions.take k, methodLinkable asm p) →
      ∀ j : Nat, inst.op.Args[j]? = some ArgType.ArgMethod →
        (∀ u : Nat, u < j → inst.op.Args[u]? ≠ some ArgType.ArgMethod) →
        j < inst.params.length →
        ∃ inst1, (m.LinkMethods asm).state.instructions[k]? = some inst1 ∧
          inst1.params[j]? = some (asm.findConstant inst.label).2.1) := by
  constructor
  · intro hfind
    have h := linkLabelsFrom_state_get m m.instructions true k inst hk
    rw [linkLabelInst_missing m inst hfind, or_self] at h
    unfold Method.LinkLabels
    rw [Run.state_mapState]
    exact h
  · intro hflag _ hpre j hslot hfirst hj
    refine ⟨linkMethodInst asm inst, LinkMethods_state_get m asm k inst hk hpre, ?_⟩
    have := linkMethodArgs_first_slot asm inst inst.op.Args 0 inst.params true j hslot hfirst
      (by omega)
    simp only [linkMethodInst, hflag, if_true, Instruction.withParams]
    simpa using this

/-! ## Generate writes the encodings -/

theorem bytes16_length (bo : ByteOrder) (v : Nat) : (bytes16 bo v).length = 2 := by
  cases bo <;> rfl

theorem encodeOperand_length (bo : ByteOrder) (wide : Bool) (kind : ArgType) (v : Int) :
    (encodeOperand bo wide kind v).length = operandWidth wide kind := by
  cases kind <;> cases wide <;> simp [encodeOperand, operandWidth, bytes16_length]

theorem encodeOperands_length (bo : ByteOrder) (wide : Bool) (args : List ArgType)
    (vs : List Int) (hlen : args.length ≤ vs.length) :
    (encodeOperands bo wide args vs).length = (args.map (operandWidth wide)).sum := by
  induction args generalizing vs with
  | nil => simp [encodeOperands]
  | cons k ks ih =>
    cases vs with
    | nil => simp at hlen
    | cons v vs =>
      simp only [List.length_cons, Nat.add_le_add_iff_right] at hlen
      simp [encodeOperands, encodeOperand_length, ih vs hlen]

theorem encodeInst_length (bo : ByteOrder) (inst : Instruction)
    (hlen : inst.op.Args.length ≤ inst.params.length) :
    (encodeInst bo inst).length = instWidth inst := by
  simp [encodeInst, instWidth, encodeOperands_length bo inst.wide _ _ hlen, Nat.add_comm]

/-- The inner loop of `Generate` appends the encodings of the operands. -/
theorem generateArgs_eq (bo : ByteOrder) (inst : Instruction) (args : List ArgType) (i : Nat)
    (out : List Nat) (hk : ∀ a ∈ args, a.known = true)
    (hlen : i + args.length ≤ inst.params.length) :
    generateArgs bo inst args i out =
      Run.ret (out ++ encodeOperands bo inst.wide args (inst.params.drop i)) () := by
  induction args generalizing i out with
  | nil => simp [generateArgs, encodeOperands]
  | cons a rest ih =>
    simp only [List.length_cons] at hlen
    have hi : i < inst.params.length := by omega
    have hget : inst.params[i]? = some inst.params[i] := List.getElem?_eq_getElem hi
    have hdrop : inst.params.drop i = inst.params[i] :: inst.params.drop (i + 1) :=
      List.drop_eq_getElem_cons hi
    have ih2 := fun out => ih (i + 1) out (fun b hb => hk b (List.mem_cons_of_mem _ hb))
      (by omega)
    have ha := hk a (List.mem_cons_self _ _)
    rw [hdrop]
    cases a with
    | ArgOther n => simp [ArgType.known] at ha
    | ArgByte =>
      simp only [generateArgs, hget, ih2, encodeOperands, encodeOperand, mustWrite8]
      have : uint8 inst.params[i] % 256 = uint8 inst.params[i] := by
        unfold uint8; omega
      simp [this]
    | ArgVar =>
      cases hw : inst.wide
      · simp only [generateArgs, hw, hget, ih2, encodeOperands, encodeOperand, mustWrite8]
        have : uint8 inst.params[i] % 256 = uint8 inst.params[i] := by
          unfold uint8; omega
        simp [this]
      · simp [generateArgs, hw, hget, ih2, encodeOperands, encodeOperand, mustWrite16]
    | ArgLabel => simp [generateArgs, hget, ih2, encodeOperands, encodeOperand, mustWrite16]
    | ArgConst => simp [generateArgs, hget, ih2, encodeOperands, encodeOperand, mustWrite16]
    | ArgMethod => simp [generateArgs, hget, ih2, encodeOperands, encodeOperand, mustWrite16]

/-- The outer loop of `Generate` appends the encodings of the instructions. -/
theorem generateFrom_eq (bo : ByteOrder) (insts : List Instruction) (out : List Nat)
    (hk : ∀ inst ∈ insts, ∀ a ∈ inst.op.Args, a.known = true)
    (hlen : ∀ inst ∈ insts, inst.op.Args.length ≤ inst.params.length) :
    generateFrom bo insts out = Run.ret (out ++ (insts.map (encodeInst bo)).flatten) () := by
  induction insts generalizing out with
  | nil => simp [generateFrom]
  | cons inst rest ih =>
    have e := generateArgs_eq bo inst inst.op.Args 0 (mustWrite8 out inst.op.Opcode)
      (hk inst (List.mem_cons_self _ _)) (by have := hlen inst (List.mem_cons_self _ _); omega)
    rw [generateFrom, e]
    simp only
    rw [ih _ (fun q hq => hk q (List.mem_cons_of_mem _ hq))
      (fun q hq => hlen q (List.mem_cons_of_mem _ hq))]
    simp [encodeInst, mustWrite8]

/-- C6. For every method whose instructions use only the five operand kinds
and have at least as many operand values as declared kinds, `Generate` returns
and appends to the output exactly the concatenation, in instruction-list
order, of the encodings of the instructions (the opcode byte followed by the
encoding of each declared operand in order); each encoding is 1 plus the
operand widths long, so the number of bytes written is the sum over the
instructions of 1 plus the operand widths. -/
theorem Generate_writes_encoding (m : Method) (bo : ByteOrder) (out : List Nat)
    (hk : ∀ inst ∈ m.instructions, ∀ a ∈ inst.op.Args, a.known = true)
    (hlen : ∀ inst ∈ m.instructions, inst.op.Args.length ≤ inst.params.length) :
    m.Generate bo out = Run.ret (out ++ (m.instructions.map (encodeInst bo)).flatten) () ∧
    (∀ inst ∈ m.instructions, (encodeInst bo inst).length = instWidth inst) ∧
    ((m.instructions.map (encodeInst bo)).flatten).length =
      (m.instructions.map instWidth).sum := by
  refine ⟨generateFrom_eq bo m.instructions out hk hlen,
    fun inst hi => encodeInst_length bo inst (hlen inst hi), ?_⟩
  rw [List.length_flatten, List.map_map]
  congr 1
  apply List.map_congr_left
  intro inst hi
  exact encodeInst_length bo inst (hlen inst hi)

/-- The method `exAllKinds` satisfies the hypotheses of C6. -/
theorem Generate_writes_encoding_witness :
    exAllKinds.Generate ByteOrder.bigEndian [] =
      Run.ret ([] ++ (exAllKinds.instructions.map (encodeInst ByteOrder.bigEndian)).flatten) () ∧
    (∀ inst ∈ exAllKinds.instructions,
      (encodeInst ByteOrder.bigEndian inst).length = instWidth inst) ∧
    ((exAllKinds.instructions.map (encodeInst ByteOrder.bigEndian)).flatten).length =
      (exAllKinds.instructions.map instWidth).sum :=
  Generate_writes_encoding exAllKinds ByteOrder.bigEndian [] (by decide) (by decide)

/-! ## Decoding what Generate writes -/

theorem decodeOperand_encode (bo : ByteOrder) (wide : Bool) (kind : ArgType) (v : Int)
    (rest : List Nat) (hfit : fits wide kind v) :
    decodeOperand bo wide kind (encodeOperand bo wide kind v ++ rest) = some (v, rest) := by
  cases kind with
  | ArgOther n => exact absurd hfit (by simp [fits])
  | ArgByte =>
    simp only [fits] at hfit
    simp only [encodeOperand, decodeOperand, List.singleton_append, Option.some.injEq,
      Prod.mk.injEq, and_true, uint8, Int.ofNat_eq_coe]
    omega
  | ArgVar =>
    cases wide
    · simp only [fits, Bool.false_eq_true, if_false] at hfit
      simp only [encodeOperand, decodeOperand, Bool.false_eq_true, if_false,
        List.singleton_append, Option.some.injEq, Prod.mk.injEq, and_true, uint8,
        Int.ofNat_eq_coe]
      omega
    · simp only [fits, if_true] at hfit
      cases bo <;>
        simp only [encodeOperand, decodeOperand, if_true, bytes16, List.cons_append,
          List.nil_append, Option.some.injEq, Prod.mk.injEq, and_true, uint16, read16,
          Int.ofNat_eq_coe] <;> omega
  | ArgLabel =>
    simp only [fits] at hfit
    cases bo <;>
      simp only [encodeOperand, decodeOperand, bytes16, List.cons_append,
        List.nil_append, Option.some.injEq, Prod.mk.injEq, and_true, uint16, read16,
        Int.ofNat_eq_coe] <;> split <;> omega
  | ArgConst =>
    simp only [fits] at hfit
    cases bo <;>
      simp only [encodeOperand, decodeOperand, bytes16, List.cons_append,
        List.nil_append, Option.some.injEq, Prod.mk.injEq, and_true, uint16, read16,
        Int.ofNat_eq_coe] <;> omega
  | ArgMethod =>
    simp only [fits] at hfit
    cases bo <;>
      simp only [encodeOperand, decodeOperand, bytes16, List.cons_append,
        List.nil_append, Option.some.injEq, Prod.mk.injEq, and_true, uint16, read16,
        Int.ofNat_eq_coe] <;> omega

theorem decodeOperands_encode (bo : ByteOrder) (wide : Bool) (args : List ArgType)
    (vs : List Int) (rest : List Nat) (hlen : args.length ≤ vs.length)
    (hfit : ∀ p ∈ args.zip vs, fits wide p.1 p.2) :
    decodeOperands bo wide args (encodeOperands bo wide args vs ++ rest) =
      some (vs.take args.length, rest) := by
  induction args generalizing vs with
  | nil => simp [decodeOperands, encodeOperands]
  | cons k ks ih =>
    cases vs with
    | nil => simp at hlen
    | cons v vs =>
      simp only [List.length_cons, Nat.add_le_add_iff_right] at hlen
      have h1 : fits wide k v := hfit (k, v) (by simp)
      have h2 : ∀ p ∈ ks.zip vs, fits wide p.1 p.2 := fun p hp => hfit p (by simp [hp])
      simp only [decodeOperands, encodeOperands, List.append_assoc,
        decodeOperand_encode bo wide k v _ h1, ih vs hlen h2, List.length_cons, List.take_succ_cons]

/-- Decoding the concatenated encodings of encodable instructions with their
shapes gives back the opcode and the operand values of each instruction. -/
theorem decodeInsts_encode (bo : ByteOrder) (insts : List Instruction)
    (henc : ∀ inst ∈ insts, inst.encodable) :
    decodeInsts bo (insts.map Instruction.shape) ((insts.map (encodeInst bo)).flatten) =
      some (insts.map Instruction.content) := by
  induction insts with
  | nil => simp [decodeInsts]
  | cons inst rest ih =>
    obtain ⟨hop, hlen, hfit⟩ := henc inst (List.mem_cons_self _ _)
    have ih2 := ih (fun q hq => henc q (List.mem_cons_of_mem _ hq))
    have e := decodeOperands_encode bo inst.wide inst.op.Args inst.params
      ((rest.map (encodeInst bo)).flatten) hlen hfit
    simp only [List.map_cons, List.flatten_cons, encodeInst, Instruction.shape,
      List.cons_append, decodeInsts, List.append_eq]
    simp only [encodeInst, Instruction.shape] at ih2 e
    rw [e]
    simp only
    rw [ih2]
    simp [Instruction.content, Nat.mod_eq_of_lt hop]

theorem encodable_known (inst : Instruction) (h : inst.encodable) :
    ∀ a ∈ inst.op.Args, a.known = true := by
  obtain ⟨_, hlen, hfit⟩ := h
  intro a ha
  obtain ⟨j, hj, rfl⟩ := List.mem_iff_getElem.mp ha
  have hz : (inst.op.Args[j], inst.params[j]) ∈ inst.op.Args.zip inst.params := by
    apply List.mem_iff_getElem.mpr
    refine ⟨j, by simp; omega, by simp⟩
  have := hfit _ hz
  cases hk : inst.op.Args[j] with
  | ArgOther n => rw [hk] at this; simp [fits] at this
  | _ => rfl

/-- C7. For every instruction sequence whose opcodes are bytes and whose
operand values fit their encoded width, `Generate` returns, and decoding the
bytes it writes with the operand shapes and wide flags of the instructions
yields the opcode and the operand values of every instruction; so two such
sequences with the same shapes and wide flags that produce the same bytes have
the same opcodes and operand values. -/
theorem Generate_decode_roundtrip (m : Method) (bo : ByteOrder)
    (henc : ∀ inst ∈ m.instructions, inst.encodable) :
    (∃ bytes, m.Generate bo [] = Run.ret bytes () ∧
      decodeInsts bo (m.instructions.map Instruction.shape) bytes =
        some (m.instructions.map Instruction.content)) ∧
    (∀ m2 : Method, (∀ inst ∈ m2.instructions, inst.encodable) →
      m2.instructions.map Instruction.shape = m.instructions.map Instruction.shape →
      m2.Generate bo [] = m.Generate bo [] →
      m2.instructions.map Instruction.content = m.instructions.map Instruction.content) := by
  have hgen : ∀ m1 : Method, (∀ inst ∈ m1.instructions, inst.encodable) →
      m1.Generate bo [] = Run.ret ((m1.instructions.map (encodeInst bo)).flatten) () := by
    intro m1 h1
    have := generateFrom_eq bo m1.instructions []
      (fun inst hi => encodable_known inst (h1 inst hi)) (fun inst hi => (h1 inst hi).2.1)
    simpa [Method.Generate] using this
  refine ⟨⟨_, hgen m henc, decodeInsts_encode bo m.instructions henc⟩, ?_⟩
  intro m2 henc2 hshape hbytes
  rw [hgen m henc, hgen m2 henc2] at hbytes
  have hb : (m2.instructions.map (encodeInst bo)).flatten =
      (m.instructions.map (encodeInst bo)).flatten := by
    simpa using hbytes
  have d1 := decodeInsts_encode bo m.instructions henc
  have d2 := decodeInsts_encode bo m2.instructions henc2
  rw [hshape, hb, d1] at d2
  exact (Option.some.inj d2).symm

/-- The method `exAllKinds` satisfies the hypotheses of C7. -/
theorem Generate_decode_roundtrip_witness :
    (∃ bytes, exAllKinds.Generate ByteOrder.bigEndian [] = Run.ret bytes () ∧
      decodeInsts ByteOrder.bigEndian (exAllKinds.instructions.map Instruction.shape) bytes =
        some (exAllKinds.instructions.map Instruction.content)) ∧
    (∀ m2 : Method, (∀ inst ∈ m2.instructions, inst.encodable) →
      m2.instructions.map Instruction.shape = exAllKinds.instructions.map Instruction.shape →
      m2.Generate ByteOrder.bigEndian [] = exAllKinds.Generate ByteOrder.bigEndian [] →
      m2.instructions.map Instruction.content =
        exAllKinds.instructions.map Instruction.content) :=
  Generate_decode_roundtrip exAllKinds ByteOrder.bigEndian (by decide)

/-! ## Facts about the string helpers of NewMethod -/

theorem splitAtFirst_append (sep : Char) (a b : List Char) (h : sep ∉ a) :
    splitAtFirst sep (a ++ sep :: b) = (a, b) := by
  induction a with
  | nil => simp [splitAtFirst]
  | cons c cs ih =>
    have hc : ¬ c = sep := fun e => h (by simp [e])
    have hcs : sep ∉ cs := fun e => h (List.mem_cons_of_mem _ e)
    simp [splitAtFirst, hc, ih hcs]

theorem splitAtFirst_of_mem (sep : Char) (l : List Char) (h : sep ∈ l) :
    l = (splitAtFirst sep l).1 ++ sep :: (splitAtFirst sep l).2 ∧
      sep ∉ (splitAtFirst sep l).1 := by
  induction l with
  | nil => simp at h
  | cons c cs ih =>
    by_cases hc : c = sep
    · simp [splitAtFirst, hc]
    · have hcs : sep ∈ cs := by
        rcases List.mem_cons.mp h with e | e
        · exact absurd e.symm hc
        · exact e
      obtain ⟨h1, h2⟩ := ih hcs
      simp only [splitAtFirst, hc, if_false, List.cons_append, List.mem_cons, not_or]
      exact ⟨by rw [← h1], fun e => hc e.symm, h2⟩

/-- A decomposition at the first occurrence of the separator is the one
`splitAtFirst` computes. -/
theorem splitAtFirst_unique (sep : Char) (l a b : List Char) (h : l = a ++ sep :: b)
    (ha : sep ∉ a) : (splitAtFirst sep l).1 = a ∧ (splitAtFirst sep l).2 = b := by
  rw [h, splitAtFirst_append sep a b ha]
  exact ⟨rfl, rfl⟩

theorem trimSpaceChars_eq_nil_iff (cs : List Char) :
    trimSpaceChars cs = [] ↔ ∀ ch ∈ cs, isSpace ch = true := by
  unfold trimSpaceChars
  rw [List.reverse_eq_nil_iff, List.dropWhile_eq_nil_iff]
  constructor
  · intro h ch hch
    by_contra hc
    have hne : cs.dropWhile isSpace ≠ [] := by
      intro e
      rw [List.dropWhile_eq_nil_iff] at e
      exact hc (e ch hch)
    obtain ⟨x, xs, hx⟩ := List.exists_cons_of_ne_nil hne
    have hxs : isSpace x = true := h x (by rw [hx]; simp)
    have hhead := List.head_dropWhile_not isSpace cs hne
    have : (cs.dropWhile isSpace).head hne = x := by simp [hx]
    rw [this] at hhead
    rw [hxs] at hhead
    exact absurd hhead (by simp)
  · intro h ch hch
    have : ch ∈ cs.dropWhile isSpace := List.mem_reverse.mp hch
    exact h ch ((List.dropWhile_sublist isSpace).subset this)

theorem TrimSpace_eq_empty_iff (s : String) :
    TrimSpace s = "" ↔ ∀ ch ∈ s.data, isSpace ch = true := by
  rw [← trimSpaceChars_eq_nil_iff]
  unfold TrimSpace
  constructor
  · intro h
    have := congrArg String.data h
    simpa using this
  · intro h
    rw [h]

theorem splitChars_of_not_mem (sep : Char) (a : List Char) (h : sep ∉ a) :
    splitChars sep a = [a] := by
  induction a with
  | nil => rfl
  | cons c cs ih =>
    have hc : ¬ c = sep := fun e => h (by simp [e])
    have hcs : sep ∉ cs := fun e => h (List.mem_cons_of_mem _ e)
    simp [splitChars, hc, ih hcs]

theorem splitChars_append (sep : Char) (a rest : List Char) (h : sep ∉ a) :
    splitChars sep (a ++ sep :: rest) = a :: splitChars sep rest := by
  induction a with
  | nil => simp [splitChars]
  | cons c cs ih =>
    have hc : ¬ c = sep := fun e => h (by simp [e])
    have hcs : sep ∉ cs := fun e => h (List.mem_cons_of_mem _ e)
    simp [splitChars, hc, ih hcs]

/-- Splitting the comma-joined parameter texts at the commas gives the
parameter texts back. -/
theorem splitChars_joinComma (ps : List String) (hne : ps ≠ [])
    (hp : ∀ p ∈ ps, ',' ∉ p.data) :
    splitChars ',' (joinComma ps) = ps.map String.data := by
  induction ps with
  | nil => exact absurd rfl hne
  | cons p rest ih =>
    cases rest with
    | nil => simp [joinComma, splitChars_of_not_mem ',' p.data (hp p (by simp))]
    | cons q r =>
      have ih2 := ih (by simp) (fun x hx => hp x (List.mem_cons_of_mem _ hx))
      simp only [joinComma] at ih2 ⊢
      rw [splitChars_append ',' p.data _ (hp p (by simp))]
      simp only [joinComma, List.map_cons] at ih2 ⊢
      rw [ih2]

theorem joinComma_not_mem (ch : Char) (hch : ch ≠ ',') (ps : List String)
    (hp : ∀ p ∈ ps, ch ∉ p.data) : ch ∉ joinComma ps := by
  induction ps with
  | nil => simp [joinComma]
  | cons p rest ih =>
    cases rest with
    | nil => simpa [joinComma] using hp p (by simp)
    | cons q r =>
      have ih2 := ih (fun x hx => hp x (List.mem_cons_of_mem _ hx))
      simp only [joinComma, List.mem_append, List.mem_cons, not_or]
      exact ⟨hp p (by simp), hch, ih2⟩

theorem joinComma_eq_nil_iff (ps : List String) :
    joinComma ps = [] ↔ ps = [] ∨ ps = [""] := by
  cases ps with
  | nil => simp [joinComma]
  | cons p rest =>
    cases rest with
    | nil =>
      simp only [joinComma, List.cons.injEq, and_true, false_or, reduceCtorEq]
      constructor
      · intro h
        exact String.ext h
      · intro h
        rw [h]
    | cons q r => simp [joinComma]

/-! ## Claims about NewMethod -/

theorem main_data : ("main" : String).data = ['m', 'a', 'i', 'n'] := by decide

theorem empty_data : ("" : String).data = [] := by decide

theorem NewMethod_of_header (e1 e2 : String) (h : String) (N : Nat) (a b c : List Char)
    (hd : h.data = a ++ '(' :: (b ++ ')' :: c)) (ha : '(' ∉ a) (hb : ')' ∉ b)
    (hc : ∀ ch ∈ c, isSpace ch = true) :
    NewMethod e1 e2 h N =
      Except.ok ⟨TrimSpace ⟨a⟩,
        "LINK PTR" :: (if (⟨b⟩ : String) = "" then [] else Split ⟨b⟩ ',').map TrimSpace, [], [],
        e1, 4,
        Int.ofNat ("LINK PTR" ::
          (if (⟨b⟩ : String) = "" then [] else Split ⟨b⟩ ',').map TrimSpace).length,
        N, 4, false⟩ := by
  have h1 : h ≠ "main" := by
    intro e
    have : '(' ∈ ("main" : String).data := by rw [← e, hd]; simp
    rw [main_data] at this
    exact absurd this (by decide)
  have h2 : ContainsRune h '(' = true := by simp [ContainsRune, hd]
  have h3 : splitLink h '(' = (⟨a⟩, ⟨b ++ ')' :: c⟩) := by
    unfold splitLink
    rw [hd, splitAtFirst_append '(' a _ ha]
  have h4 : ContainsRune ⟨b ++ ')' :: c⟩ ')' = true := by simp [ContainsRune]
  have h5 : splitLink ⟨b ++ ')' :: c⟩ ')' = (⟨b⟩, ⟨c⟩) := by
    unfold splitLink
    simp only
    rw [splitAtFirst_append ')' b c hb]
  have h6 : TrimSpace ⟨c⟩ = "" := (TrimSpace_eq_empty_iff ⟨c⟩).mpr hc
  unfold NewMethod
  simp only [h1, if_false, h2, Bool.not_true, Bool.false_eq_true, h3, h4, h5, h6, ne_eq,
    not_true_eq_false]

/-- C8. For every header `name(p1,...,pn)`, possibly followed by white space,
in which `name` has no opening parenthesis and no parameter text has a comma
or a closing parenthesis (the parameter list being either empty or not the
empty text), `NewMethod` returns a method and no error; its variable table is
`"LINK PTR"` followed by the trimmed parameter texts in declaration order, its
name is the trimmed text before the first opening parenthesis, and its
recorded parameter count is the table length `n + 1`. -/
theorem NewMethod_parameter_table (e1 e2 : String) (name : String) (ps : List String)
    (junk : String) (N : Nat)
    (hname : '(' ∉ name.data)
    (hps : ∀ p ∈ ps, ',' ∉ p.data ∧ ')' ∉ p.data)
    (hne : ps ≠ [""])
    (hjunk : ∀ ch ∈ junk.data, isSpace ch = true) :
    NewMethod e1 e2 (mkHeader name ps junk) N =
      Except.ok ⟨TrimSpace name, "LINK PTR" :: ps.map TrimSpace, [], [], e1, 4,
        Int.ofNat (ps.length + 1), N, 4, false⟩ := by
  have hb : ')' ∉ joinComma ps :=
    joinComma_not_mem ')' (by decide) ps (fun p hp => (hps p hp).2)
  have e := NewMethod_of_header e1 e2 (mkHeader name ps junk) N name.data (joinComma ps)
    junk.data rfl hname hb hjunk
  have h7 : (if (⟨joinComma ps⟩ : String) = "" then [] else Split ⟨joinComma ps⟩ ',') = ps := by
    by_cases hnil : ps = []
    · subst hnil
      simp [joinComma]
    · have hj : joinComma ps ≠ [] := by
        intro hj
        rcases (joinComma_eq_nil_iff ps).mp hj with h | h
        · exact hnil h
        · exact hne h
      have hs : ¬ (⟨joinComma ps⟩ : String) = "" := by
        intro e2
        have := congrArg String.data e2
        rw [empty_data] at this
        exact hj this
      simp only [hs, if_false, Split]
      rw [splitChars_joinComma ps hnil (fun p hp => (hps p hp).1), List.map_map]
      conv => rhs; rw [← List.map_id ps]
      apply List.map_congr_left
      intro p _
      rfl
  rw [e, h7]
  simp

/-- The headers `f(a, b)` and `f()` of the claim. -/
theorem NewMethod_parameter_table_witness :
    mkHeader "f" ["a", " b"] "" = "f(a, b)" ∧
      NewMethod ".end-method" ".end-main" (mkHeader "f" ["a", " b"] "") 7 =
        Except.ok ⟨TrimSpace "f", "LINK PTR" :: ["a", " b"].map TrimSpace, [], [],
          ".end-method", 4, Int.ofNat (["a", " b"].length + 1), 7, 4, false⟩ ∧
      "LINK PTR" :: ["a", " b"].map TrimSpace = ["LINK PTR", "a", "b"] ∧
      mkHeader "f" [] "" = "f()" ∧
      NewMethod ".end-method" ".end-main" "f()" 7 =
        Except.ok ⟨"f", ["LINK PTR"], [], [], ".end-method", 4, 1, 7, 4, false⟩ :=
  ⟨by decide,
    NewMethod_parameter_table ".end-method" ".end-main" "f" ["a", " b"] "" 7 (by decide)
      (by decide) (by decide) (by decide),
    by decide, by decide, by decide⟩

/-- C9. `NewMethod` returns an error if and only if the header is not exactly
`"main"` and either contains no opening parenthesis, or has no closing
parenthesis after its first opening parenthesis, or has a character that is
not white space after the first closing parenthesis that follows its first
opening parenthesis; for every other header it returns a method. The header
`"f(a, b"` is rejected. -/
theorem NewMethod_error_iff (e1 e2 h : String) (N : Nat) :
    ((∃ e, NewMethod e1 e2 h N = Except.error e) ↔
      h ≠ "main" ∧ ('(' ∉ h.data ∨
        (∃ a b, h.data = a ++ '(' :: b ∧ '(' ∉ a ∧ ')' ∉ b) ∨
        (∃ a b c, h.data = a ++ '(' :: (b ++ ')' :: c) ∧ '(' ∉ a ∧ ')' ∉ b ∧
          ∃ ch ∈ c, isSpace ch = false))) ∧
    ((¬ ∃ e, NewMethod e1 e2 h N = Except.error e) → ∃ m, NewMethod e1 e2 h N = Except.ok m) ∧
    (∃ e, NewMethod e1 e2 "f(a, b" N = Except.error e) := by
  refine ⟨?_, ?_, ?_⟩
  · by_cases hmain : h = "main"
    · simp [NewMethod, hmain]
    · by_cases hopen : '(' ∈ h.data
      · obtain ⟨hd, ha⟩ := splitAtFirst_of_mem '(' h.data hopen
        have hc1 : ContainsRune h '(' = true := by simp [ContainsRune, hopen]
        by_cases hclose : ')' ∈ (splitAtFirst '(' h.data).2
        · obtain ⟨hd2, hb⟩ := splitAtFirst_of_mem ')' _ hclose
          have hd3 : h.data = (splitAtFirst '(' h.data).1 ++ '(' ::
              ((splitAtFirst ')' (splitAtFirst '(' h.data).2).1 ++ ')' ::
                (splitAtFirst ')' (splitAtFirst '(' h.data).2).2) := by
            rw [← hd2, ← hd]
          by_cases hjunk : ∀ ch ∈ (splitAtFirst ')' (splitAtFirst '(' h.data).2).2,
              isSpace ch = true
          · have e := NewMethod_of_header e1 e2 h N _ _ _ hd3 ha hb hjunk
            rw [e]
            simp only [reduceCtorEq, exists_false, ne_eq, hmain, not_false_eq_true, true_and,
              false_iff, not_or, not_exists, not_and]
            refine ⟨fun hn => hn hopen, ?_, ?_⟩
            · intro a b hab hna hnb
              obtain ⟨_, e2⟩ := splitAtFirst_unique '(' h.data a b hab hna
              rw [e2] at hclose
              exact hnb hclose
            · intro a b c habc hna hnb ch hch hsp
              obtain ⟨_, e2⟩ := splitAtFirst_unique '(' h.data a _ habc hna
              obtain ⟨_, e3⟩ := splitAtFirst_unique ')' _ b c e2 hnb
              rw [e3] at hjunk
              rw [hjunk ch hch] at hsp
              cases hsp
          · have hc2 : ContainsRune (splitLink h '(').2 ')' = true := by
              simp [ContainsRune, splitLink, hclose]
            have hj2 : ¬ TrimSpace (splitLink (splitLink h '(').2 ')').2 = "" := by
              rw [TrimSpace_eq_empty_iff]
              exact hjunk
            constructor
            · intro _
              refine ⟨hmain, Or.inr (Or.inr ⟨_, _, _, hd3, ha, hb, ?_⟩)⟩
              simp only [not_forall] at hjunk
              obtain ⟨ch, hch, hsp⟩ := hjunk
              exact ⟨ch, hch, by simpa using hsp⟩
            · intro _
              unfold NewMethod
              simp only [hmain, if_false, hc1, Bool.not_true, Bool.false_eq_true, hc2, ne_eq,
                hj2, not_false_eq_true, if_true]
              exact ⟨_, rfl⟩
        · have hc2 : ContainsRune (splitLink h '(').2 ')' = false := by
            simp [ContainsRune, splitLink, hclose]
          constructor
          · intro _
            exact ⟨hmain, Or.inr (Or.inl ⟨_, _, hd, ha, hclose⟩)⟩
          · intro _
            unfold NewMethod
            simp only [hmain, if_false, hc1, Bool.not_true, Bool.false_eq_true, hc2,
              Bool.not_false, if_true]
            exact ⟨_, rfl⟩
      · have hc1 : ContainsRune h '(' = false := by simp [ContainsRune, hopen]
        constructor
        · intro _
          exact ⟨hmain, Or.inl hopen⟩
        · intro _
          unfold NewMethod
          simp only [hmain, if_false, hc1, Bool.not_false, if_true]
          exact ⟨_, rfl⟩
  · intro hn
    cases hr : NewMethod e1 e2 h N with
    | error e => exact absurd ⟨e, hr⟩ hn
    | ok m => exact ⟨m, rfl⟩
  · have h1 : ¬ ("f(a, b" : String) = "main" := by decide
    have h2 : ContainsRune "f(a, b" '(' = true := by decide
    have h3 : ContainsRune (splitLink "f(a, b" '(').2 ')' = false := by decide
    unfold NewMethod
    simp only [h1, if_false, h2, Bool.not_true, Bool.false_eq_true, h3, Bool.not_false, if_true]
    exact ⟨_, rfl⟩

/-- C10, counterexample. The header `"main()"` is accepted and gives a method
named `"main"` whose variable table starts with `"LINK PTR"` and whose start
byte is 4. -/
theorem NewMethod_main_parens_has_link :
    NewMethod ".end-method" ".end-main" "main()" 1 =
        Except.ok ⟨"main", ["LINK PTR"], [], [], ".end-method", 4, 1, 1, 4, false⟩ ∧
      ¬ (∀ (h : String) (m : Method),
        NewMethod ".end-method" ".end-main" h 1 = Except.ok m →
          (m.name = "main" ↔ (m.vars[0]? ≠ some "LINK PTR" ∧ m.B = 0))) := by
  refine ⟨by decide, ?_⟩
  intro hall
  have h := hall "main()" ⟨"main", ["LINK PTR"], [], [], ".end-method", 4, 1, 1, 4, false⟩
    (by decide)
  exact absurd (h.mp rfl).2 (by decide)

/-- C10, amended. For every header that `NewMethod` accepts, the resulting
method has no return-link slot (its variable table is empty, so it does not
start with `"LINK PTR"`) and start byte 0 if and only if the header is exactly
`"main"`, and then it is named `"main"`; every other accepted header, whatever
name it gives, yields `"LINK PTR"` at index 0 and start byte 4. -/
theorem NewMethod_link_slot (e1 e2 h : String) (N : Nat) (m : Method)
    (hok : NewMethod e1 e2 h N = Except.ok m) :
    (h = "main" ↔ (m.vars[0]? ≠ some "LINK PTR" ∧ m.B = 0)) ∧
    (h = "main" → m.name = "main" ∧ m.vars = [] ∧ m.bytes = 0) ∧
    (h ≠ "main" → m.vars[0]? = some "LINK PTR" ∧ m.B = 4 ∧ m.bytes = 4) := by
  by_cases hmain : h = "main"
  · have e : m = ⟨"main", [], [], [], e2, 0, 0, N, 0, false⟩ := by
      unfold NewMethod at hok
      simp only [hmain, if_true, Except.ok.injEq] at hok
      exact hok.symm
    subst e
    simp [hmain]
  · have hv : m.vars[0]? = some "LINK PTR" ∧ m.B = 4 ∧ m.bytes = 4 := by
      unfold NewMethod at hok
      simp only [hmain, if_false] at hok
      split at hok
      · cases hok
      · split at hok
        · cases hok
        · split at hok
          · cases hok
          · simp only [Except.ok.injEq] at hok
            subst hok
            simp
    refine ⟨?_, fun e => absurd e hmain, fun _ => hv⟩
    constructor
    · intro e
      exact absurd e hmain
    · intro e
      exact absurd hv.1 e.1

/-- The header `"main()"` is accepted and falls under the second case. -/
theorem NewMethod_link_slot_witness :
    NewMethod ".end-method" ".end-main" "main()" 1 = Except.ok exMainParens ∧
    ((("main()" : String) = "main" ↔
      (exMainParens.vars[0]? ≠ some "LINK PTR" ∧ exMainParens.B = 0)) ∧
    (("main()" : String) = "main" →
      exMainParens.name = "main" ∧ exMainParens.vars = [] ∧ exMainParens.bytes = 0) ∧
    (("main()" : String) ≠ "main" →
      exMainParens.vars[0]? = some "LINK PTR" ∧ exMainParens.B = 4 ∧
        exMainParens.bytes = 4)) :=
  ⟨by decide, NewMethod_link_slot ".end-method" ".end-main" "main()" 1 exMainParens
    (by decide)⟩

/-! ## Claims about AppendInst and VarIndex -/

/-- C11, counterexample. Appending the two-byte instruction `exPush` to
`exLoop` leaves the running byte counter at 8; it does not become 10. -/
theorem AppendInst_counter_not_advanced :
    instWidth exPush = 2 ∧ exLoop.bytes = 8 ∧ (exLoop.AppendInst exPush).bytes = 8 ∧
      (exLoop.AppendInst exPush).bytes ≠ exLoop.bytes + instWidth exPush := by
  decide

/-- C11, amended. `AppendInst` appends the instruction to the instruction list
and leaves the byte counters `bytes` and `B`, like every other field of the
method, as they were. -/
theorem AppendInst_keeps_counter (m : Method) (inst : Instruction) :
    (m.AppendInst inst).bytes = m.bytes ∧ (m.AppendInst inst).B = m.B ∧
      (m.AppendInst inst).instructions = m.instructions ++ [inst] ∧
      m.AppendInst inst = { m with instructions := m.instructions ++ [inst] } :=
  ⟨rfl, rfl, rfl, rfl⟩

theorem varIndexFrom_spec (vs : List String) (str : String) (i : Nat) :
    (str ∈ vs → ∃ k : Nat, varIndexFrom vs str i = (Int.ofNat (i + k), true) ∧
      vs[k]? = some str ∧ ∀ j : Nat, j < k → vs[j]? ≠ some str) ∧
    (str ∉ vs → varIndexFrom vs str i = (-1, false)) := by
  induction vs generalizing i with
  | nil => simp [varIndexFrom]
  | cons p ps ih =>
    by_cases hp : p = str
    · refine ⟨fun _ => ⟨0, by simp [varIndexFrom, hp], by simp [hp], by simp⟩, ?_⟩
      intro hn
      exact absurd (by simp [hp]) hn
    · obtain ⟨ih1, ih2⟩ := ih (i + 1)
      constructor
      · intro hmem
        have hmem2 : str ∈ ps := by
          rcases List.mem_cons.mp hmem with e | e
          · exact absurd e.symm hp
          · exact e
        obtain ⟨k, h1, h2, h3⟩ := ih1 hmem2
        refine ⟨k + 1, ?_, by simpa using h2, ?_⟩
        · simp only [varIndexFrom, hp, if_false, h1]
          have : i + 1 + k = i + (k + 1) := by omega
          rw [this]
        · intro j hj
          cases j with
          | zero => simpa using hp
          | succ j => simpa using h3 j (by omega)
      · intro hn
        have hn2 : str ∉ ps := fun e => hn (List.mem_cons_of_mem _ e)
        simp only [varIndexFrom, hp, if_false, ih2 hn2]

/-- C12. For every method and name, `VarIndex` returns `(i, true)` with `i` the
smallest index at which the name occurs in the variable table when it occurs
there, and `(-1, false)` when it does not; the boolean is `true` if and only
if the name is in the table. In `exVars` the name `x` occurs at the indices 1
and 3 and the first occurrence wins. -/
theorem VarIndex_first_match (m : Method) (str : String) :
    (str ∈ m.vars → ∃ i : Nat, m.VarIndex str = (Int.ofNat i, true) ∧
      m.vars[i]? = some str ∧ ∀ j : Nat, j < i → m.vars[j]? ≠ some str) ∧
    (str ∉ m.vars → m.VarIndex str = (-1, false)) ∧
    ((m.VarIndex str).2 = true ↔ str ∈ m.vars) ∧
    exVars.VarIndex "x" = (1, true) ∧ exVars.VarIndex "z" = (-1, false) := by
  obtain ⟨h1, h2⟩ := varIndexFrom_spec m.vars str 0
  refine ⟨?_, h2, ?_, by decide, by decide⟩
  · intro hmem
    obtain ⟨k, e, hk, hf⟩ := h1 hmem
    exact ⟨k, by simpa [Method.VarIndex] using e, hk, hf⟩
  · by_cases hmem : str ∈ m.vars
    · obtain ⟨k, e, _, _⟩ := h1 hmem
      simp [Method.VarIndex, e, hmem]
    · simp [Method.VarIndex, h2 hmem, hmem]

/-! ## When Generate panics -/

/-- With an operand value for every declared kind, the inner loop of `Generate`
panics with `Unimplemented` as soon as the operand kinds hold one outside the
five kinds. -/
theorem generateArgs_unknown (bo : ByteOrder) (inst : Instruction) (args : List ArgType)
    (i : Nat) (out : List Nat) (hu : ∃ a ∈ args, a.known = false)
    (hlen : i + args.length ≤ inst.params.length) :
    ∃ o, generateArgs bo inst args i out = Run.panic o PanicKind.unimplemented := by
  induction args generalizing i out with
  | nil => simp at hu
  | cons a rest ih =>
    simp only [List.length_cons] at hlen
    have hi : i < inst.params.length := by omega
    have hget : inst.params[i]? = some inst.params[i] := List.getElem?_eq_getElem hi
    have hrest : a.known = true → ∃ b ∈ rest, b.known = false := by
      intro ha
      obtain ⟨b, hb, hbk⟩ := hu
      rcases List.mem_cons.mp hb with e | e
      · subst e
        rw [ha] at hbk
        cases hbk
      · exact ⟨b, e, hbk⟩
    have ih2 := fun out (ha : a.known = true) => ih (i + 1) out (hrest ha) (by omega)
    cases a with
    | ArgOther n => exact ⟨out, by simp [generateArgs]⟩
    | ArgByte => simpa [generateArgs, hget] using ih2 _ rfl
    | ArgVar =>
      cases hw : inst.wide
      · simpa [generateArgs, hget, hw] using ih2 _ rfl
      · simpa [generateArgs, hget, hw] using ih2 _ rfl
    | ArgLabel => simpa [generateArgs, hget] using ih2 _ rfl
    | ArgConst => simpa [generateArgs, hget] using ih2 _ rfl
    | ArgMethod => simpa [generateArgs, hget] using ih2 _ rfl

theorem generateFrom_unknown (bo : ByteOrder) (insts : List Instruction) (out : List Nat)
    (hlen : ∀ inst ∈ insts, inst.op.Args.length ≤ inst.params.length)
    (hu : ∃ inst ∈ insts, ∃ a ∈ inst.op.Args, a.known = false) :
    ∃ o, generateFrom bo insts out = Run.panic o PanicKind.unimplemented := by
  induction insts generalizing out with
  | nil => simp at hu
  | cons p rest ih =>
    have hl := hlen p (List.mem_cons_self _ _)
    by_cases hp : ∀ a ∈ p.op.Args, a.known = true
    · have e := generateArgs_eq bo p p.op.Args 0 (mustWrite8 out p.op.Opcode) hp (by omega)
      have hu2 : ∃ inst ∈ rest, ∃ a ∈ inst.op.Args, a.known = false := by
        obtain ⟨q, hq, a, ha, hk⟩ := hu
        rcases List.mem_cons.mp hq with e2 | e2
        · subst e2
          rw [hp a ha] at hk
          cases hk
        · exact ⟨q, e2, a, ha, hk⟩
      obtain ⟨o, ho⟩ := ih _ (fun q hq => hlen q (List.mem_cons_of_mem _ hq)) hu2
      exact ⟨o, by rw [generateFrom, e]; exact ho⟩
    · have hu2 : ∃ a ∈ p.op.Args, a.known = false := by
        simp only [not_forall] at hp
        obtain ⟨a, ha, hk⟩ := hp
        exact ⟨a, ha, by simpa using hk⟩
      obtain ⟨o, ho⟩ := generateArgs_unknown bo p p.op.Args 0 (mustWrite8 out p.op.Opcode) hu2
        (by omega)
      exact ⟨o, by rw [generateFrom, ho]⟩

/-- C13. For a method whose instructions have an operand value for each
declared kind, `Generate` panics if and only if some instruction declares an
operand kind outside the five kinds, and the panic is then the explicit
`Unimplemented` one; when all instructions use only the five kinds `Generate`
returns. -/
theorem Generate_panics_iff_unknown_kind (m : Method) (bo : ByteOrder) (out : List Nat)
    (hlen : ∀ inst ∈ m.instructions, inst.op.Args.length ≤ inst.params.length) :
    ((m.Generate bo out).returned = false ↔
      ∃ inst ∈ m.instructions, ∃ a ∈ inst.op.Args, a.known = false) ∧
    ((∃ inst ∈ m.instructions, ∃ a ∈ inst.op.Args, a.known = false) →
      ∃ o, m.Generate bo out = Run.panic o PanicKind.unimplemented) ∧
    ((∀ inst ∈ m.instructions, ∀ a ∈ inst.op.Args, a.known = true) →
      ∃ o, m.Generate bo out = Run.ret o ()) := by
  have hpanic := generateFrom_unknown bo m.instructions out hlen
  have hret : (∀ inst ∈ m.instructions, ∀ a ∈ inst.op.Args, a.known = true) →
      ∃ o, m.Generate bo out = Run.ret o () :=
    fun hk => ⟨_, generateFrom_eq bo m.instructions out hk hlen⟩
  refine ⟨⟨?_, ?_⟩, hpanic, hret⟩
  · intro hr
    by_contra hn
    have hk : ∀ inst ∈ m.instructions, ∀ a ∈ inst.op.Args, a.known = true := by
      intro inst hi a ha
      by_contra hc
      exact hn ⟨inst, hi, a, ha, by simpa using hc⟩
    obtain ⟨o, ho⟩ := hret hk
    rw [ho] at hr
    cases hr
  · intro hu
    obtain ⟨o, ho⟩ := hpanic hu
    unfold Method.Generate
    rw [ho]
    rfl

/-- The method `exUnknown` satisfies the hypothesis of C13 and panics after
the bytes of its first instruction and the opcode of the second. -/
theorem Generate_panics_iff_unknown_kind_witness :
    exUnknown.Generate ByteOrder.bigEndian [] =
        Run.panic [0x10, 1, 0xFF] PanicKind.unimplemented ∧
    (((exUnknown.Generate ByteOrder.bigEndian []).returned = false ↔
      ∃ inst ∈ exUnknown.instructions, ∃ a ∈ inst.op.Args, a.known = false) ∧
    ((∃ inst ∈ exUnknown.instructions, ∃ a ∈ inst.op.Args, a.known = false) →
      ∃ o, exUnknown.Generate ByteOrder.bigEndian [] =
        Run.panic o PanicKind.unimplemented) ∧
    ((∀ inst ∈ exUnknown.instructions, ∀ a ∈ inst.op.Args, a.known = true) →
      ∃ o, exUnknown.Generate ByteOrder.bigEndian [] = Run.ret o ())) :=
  ⟨by decide, Generate_panics_iff_unknown_kind exUnknown ByteOrder.bigEndian [] (by decide)⟩

/-! ## The branch scenario -/

/-- C14, counterexample. In the scenario the byte offsets are 0, 2, 5 and 7,
the label `L` is at 7, and `LinkLabels` sets the operand of `GOTO` to
`L.B - GOTO.B`, which is 5 and not 4. -/
theorem scenario_displacement_not_four :
    exScenario.instructions.map Instruction.B = [0, 2, 5, 7] ∧
      exScenarioLabel.B = 7 ∧
      (exScenario.LinkLabels.state.instructions[1]?).map Instruction.params = some [5] ∧
      (exScenarioLabel.B : Int) - 2 = 5 ∧
      (exScenario.LinkLabels.state.instructions[1]?).map Instruction.params ≠ some [4] := by
  decide

/-- C14, amended. In method `main` (start byte 0) with the instructions
`BIPUSH 5, GOTO L, BIPUSH 9, RETURN` and `L` declared at `RETURN`, the byte
offset of each instruction is the number of bytes `Generate` writes for the
instructions before it (2 for `BIPUSH`, 3 for `GOTO` with its two-byte label,
1 for `RETURN`), `L` is at the offset reached after the second `BIPUSH`, and
`LinkLabels` returns `true` and sets the label operand of `GOTO` to
`L.B - GOTO.B`, which equals 5. -/
theorem scenario_displacement :
    exScenario.instructions.map instWidth = [2, 3, 2, 1] ∧
      (List.range 4).map (fun k =>
          ((exScenarioPrefix k).Generate ByteOrder.bigEndian []).state.length) =
        exScenario.instructions.map Instruction.B ∧
      exScenarioLabel.B =
        ((exScenarioPrefix 3).Generate ByteOrder.bigEndian []).state.length ∧
      exScenario.B = 0 ∧
      (∃ m1, exScenario.LinkLabels = Run.ret m1 true ∧
        ∃ goto1 goto0, m1.instructions[1]? = some goto1 ∧
          exScenario.instructions[1]? = some goto0 ∧
          goto1.params = [(exScenarioLabel.B : Int) - (goto0.B : Int)] ∧
          goto1.params = [5]) := by
  refine ⟨by decide, by decide, by decide, by decide, ?_⟩
  refine ⟨(exScenario.LinkLabels).state, by decide, ?_⟩
  exact ⟨_, _, rfl, rfl, by decide, by decide⟩

/-! ## Duplicate labels -/

theorem findLabelFrom_first (pre rest : List Label) (l : Label) (name : String) (i : Nat)
    (hl : l.Name = name) (hpre : ∀ x ∈ pre, x.Name ≠ name) :
    findLabelFrom (pre ++ l :: rest) name i = (true, Int.ofNat (i + pre.length), some l) := by
  induction pre generalizing i with
  | nil => simp [findLabelFrom, hl]
  | cons x xs ih =>
    have hx : ¬ x.Name = name := hpre x (List.mem_cons_self _ _)
    have := ih (i + 1) (fun y hy => hpre y (List.mem_cons_of_mem _ hy))
    have e : i + 1 + xs.length = i + (xs.length + 1) := by omega
    rw [e] at this
    rw [List.cons_append, findLabelFrom]
    simp only [hx, if_false, List.length_cons]
    exact this

/-- Labels that repeat the name of an earlier label do not change what the
first-match search finds. -/
theorem find?_later_duplicates (pre mid post dups : List Label) (l1 : Label) (name : String)
    (hfirst : ∀ l ∈ pre, l.Name ≠ l1.Name) (hdups : ∀ l ∈ dups, l.Name = l1.Name) :
    (pre ++ l1 :: (mid ++ dups ++ post)).find? (fun x => decide (x.Name = name)) =
      (pre ++ l1 :: (mid ++ post)).find? (fun x => decide (x.Name = name)) := by
  by_cases hn : l1.Name = name
  · have hpre : pre.find? (fun x => decide (x.Name = name)) = none := by
      rw [List.find?_eq_none]
      intro x hx
      simpa [← hn] using hfirst x hx
    simp [List.find?_append, hpre, hn]
  · have hd : dups.find? (fun x => decide (x.Name = name)) = none := by
      rw [List.find?_eq_none]
      intro x hx
      have := hdups x hx
      simpa [this] using hn
    simp [List.find?_append, hd, hn]

/-- C16. In a label table that holds a label `l1` and, later, another label of
the same name, with no label of that name before `l1`: `findLabel` returns
`l1` with its index, the smallest index of that name; `LinkLabels` sets every
label slot of a flagged instruction that names it (and that the pass reaches)
to `l1.B - instruction.B`; and the outcome of `LinkLabels` is the same
whichever labels of that name stand in place of the later duplicate, or none
at all. -/
theorem duplicate_label_first_wins (m : Method) (pre mid post : List Label) (l1 l2 : Label)
    (hlabels : m.labels = pre ++ l1 :: (mid ++ [l2] ++ post))
    (hdup : l2.Name = l1.Name)
    (hfirst : ∀ l ∈ pre, l.Name ≠ l1.Name) :
    m.findLabel l1.Name = (true, Int.ofNat pre.length, some l1) ∧
    m.labels[pre.length]? = some l1 ∧
    (∀ i : Nat, i < pre.length → ∀ l, m.labels[i]? = some l → l.Name ≠ l1.Name) ∧
    (∀ (k : Nat) (inst : Instruction), m.instructions[k]? = some inst →
      inst.linkLabel = true → inst.label = l1.Name →
      inst.op.Args.length ≤ inst.params.length → inst.B < 2 ^ 32 → l1.B < 2 ^ 32 →
      (∀ p ∈ m.instructions.take k, labelLinkable m p) →
      ∃ inst1, m.LinkLabels.state.instructions[k]? = some inst1 ∧
        ∀ j : Nat, inst.op.Args[j]? = some ArgType.ArgLabel →
          inst1.params[j]? = some ((l1.B : Int) - (inst.B : Int))) ∧
    (∀ (m2 : Method) (dups : List Label), m2.instructions = m.instructions →
      m2.labels = pre ++ l1 :: (mid ++ dups ++ post) → (∀ l ∈ dups, l.Name = l1.Name) →
      m2.LinkLabels.mapState Method.instructions =
        m.LinkLabels.mapState Method.instructions) := by
  have hfind : m.findLabel l1.Name = (true, Int.ofNat pre.length, some l1) := by
    unfold Method.findLabel
    rw [hlabels, findLabelFrom_first pre _ l1 l1.Name 0 rfl hfirst]
    simp
  refine ⟨hfind, ?_, ?_, ?_, ?_⟩
  · rw [hlabels, List.getElem?_append_right (Nat.le_refl _)]
    simp
  · intro i hi l hl
    rw [hlabels, List.getElem?_append_left hi] at hl
    exact hfirst l (List.getElem?_mem hl)
  · intro k inst hk hflag hname hlen hB hLB hpre
    refine ⟨linkLabelInst m inst, LinkLabels_state_get m k inst hk hpre, ?_⟩
    intro j hj
    have hjlt : j < inst.op.Args.length := (List.getElem?_eq_some_iff.mp hj).1
    rw [← hname] at hfind
    have e := linkLabelArgs_found m inst _ l1 hfind inst.op.Args 0 inst.params true (by omega)
    have hd := displacement_exact l1.B inst.B hLB hB
    simp only [linkLabelInst, hflag, if_true, e, Run.state, Instruction.withParams, hd]
    have := setSlots_get_kind ArgType.ArgLabel ((l1.B : Int) - (inst.B : Int)) inst.op.Args 0
      inst.params j hj (by omega)
    simpa using this
  · intro m2 dups hi hl2 hd
    have hcong : ∀ name, (m2.findLabel name).1 = (m.findLabel name).1 ∧
        (m2.findLabel name).2.2 = (m.findLabel name).2.2 := by
      intro name
      have e : (m2.findLabel name).2.2 = (m.findLabel name).2.2 := by
        unfold Method.findLabel
        rw [findLabelFrom_lbl, findLabelFrom_lbl, hl2, hlabels,
          find?_later_duplicates pre mid post dups l1 name hfirst hd,
          find?_later_duplicates pre mid post [l2] l1 name hfirst
            (fun l hl => by rw [List.mem_singleton.mp hl]; exact hdup)]
      refine ⟨?_, e⟩
      unfold Method.findLabel at e ⊢
      rw [findLabelFrom_found, findLabelFrom_found, e]
    unfold Method.LinkLabels
    rw [Run.mapState_mapState, Run.mapState_mapState, hi, linkLabelsFrom_congr m m2 hcong]

/-- The method `exDup` satisfies the hypotheses of C16: both jumps to `L` get
their displacement from the first `L`, at byte 3. -/
theorem duplicate_label_first_wins_witness :
    exDup.LinkLabels.state.instructions.map Instruction.params = [[3], [5], [-3]] ∧
    (exDup.findLabel "L" = (true, Int.ofNat ([] : List Label).length, some ⟨"L", 1, 3⟩) ∧
    exDup.labels[([] : List Label).length]? = some ⟨"L", 1, 3⟩ ∧
    (∀ i : Nat, i < ([] : List Label).length → ∀ l, exDup.labels[i]? = some l →
      l.Name ≠ "L") ∧
    (∀ (k : Nat) (inst : Instruction), exDup.instructions[k]? = some inst →
      inst.linkLabel = true → inst.label = "L" →
      inst.op.Args.length ≤ inst.params.length → inst.B < 2 ^ 32 → 3 < 2 ^ 32 →
      (∀ p ∈ exDup.instructions.take k, labelLinkable exDup p) →
      ∃ inst1, exDup.LinkLabels.state.instructions[k]? = some inst1 ∧
        ∀ j : Nat, inst.op.Args[j]? = some ArgType.ArgLabel →
          inst1.params[j]? = some (((3 : Nat) : Int) - (inst.B : Int))) ∧
    (∀ (m2 : Method) (dups : List Label), m2.instructions = exDup.instructions →
      m2.labels = [] ++ ⟨"L", 1, 3⟩ :: ([⟨"M", 2, 8⟩] ++ dups ++ []) →
      (∀ l ∈ dups, l.Name = "L") →
      m2.LinkLabels.mapState Method.instructions =
        exDup.LinkLabels.mapState Method.instructions)) :=
  ⟨by decide, duplicate_label_first_wins exDup [] [⟨"M", 2, 8⟩] [] ⟨"L", 1, 3⟩ ⟨"L", 4, 20⟩
    (by decide) (by decide) (by decide)⟩

/-! ## What the link passes leave unchanged -/

/-- The inner loop of `LinkLabels` keeps the number of operand values and
changes a value only in a slot of kind label. -/
theorem linkLabelArgs_state_frame (m : Method) (inst : Instruction) (args : List ArgType)
    (j : Nat) (params : List Int) (ok : Bool) :
    (linkLabelArgs m inst args j params ok).state.length = params.length ∧
    ∀ t : Nat, (linkLabelArgs m inst args j params ok).state[t]? ≠ params[t]? →
      j ≤ t ∧ args[t - j]? = some ArgType.ArgLabel := by
  induction args generalizing j params ok with
  | nil => exact ⟨rfl, fun t h => absurd rfl h⟩
  | cons a rest ih =>
    by_cases h : a = ArgType.ArgLabel
    · simp only [linkLabelArgs, h, if_true]
      cases (m.findLabel inst.label).2.2 with
      | none => exact ⟨rfl, fun t h => absurd rfl h⟩
      | some l =>
        by_cases hj : j < params.length
        · simp only [hj, if_true]
          obtain ⟨h1, h2⟩ := ih (j + 1)
            (params.set j (wrapInt (intOfUint32 l.B - intOfUint32 inst.B)))
            (if (!(m.findLabel inst.label).1) = true then false else ok)
          refine ⟨by rw [h1]; simp, ?_⟩
          intro t ht
          by_cases htj : t = j
          · subst htj
            simp
          · have hne : (params.set j (wrapInt (intOfUint32 l.B - intOfUint32 inst.B)))[t]? =
                params[t]? := List.getElem?_set_ne (fun e => htj e.symm)
            rw [← hne] at ht
            obtain ⟨h3, h4⟩ := h2 t ht
            have e : t - j = (t - (j + 1)) + 1 := by omega
            refine ⟨by omega, ?_⟩
            rw [e]
            simpa using h4
        · simp only [hj, if_false]
          exact ⟨rfl, fun t h => absurd rfl h⟩
    · simp only [linkLabelArgs, h, if_false]
      obtain ⟨h1, h2⟩ := ih (j + 1) params ok
      refine ⟨h1, ?_⟩
      intro t ht
      obtain ⟨h3, h4⟩ := h2 t ht
      have e : t - j = (t - (j + 1)) + 1 := by omega
      refine ⟨by omega, ?_⟩
      rw [e]
      simpa using h4

/-- The inner loop of `LinkMethods` keeps the number of operand values and
changes a value only in a slot of kind method index. -/
theorem linkMethodArgs_state_frame (asm : Assembler) (inst : Instruction)
    (args : List ArgType) (j : Nat) (params : List Int) (ok : Bool) :
    (linkMethodArgs asm inst args j params ok).state.length = params.length ∧
    ∀ t : Nat, (linkMethodArgs asm inst args j params ok).state[t]? ≠ params[t]? →
      j ≤ t ∧ args[t - j]? = some ArgType.ArgMethod := by
  induction args generalizing j params ok with
  | nil => exact ⟨rfl, fun t h => absurd rfl h⟩
  | cons a rest ih =>
    by_cases h : a = ArgType.ArgMethod
    · simp only [linkMethodArgs, h, if_true]
      by_cases hj : j < params.length
      · simp only [hj, if_true]
        have hset : ∀ t : Nat, (params.set j (asm.findConstant inst.label).2.1)[t]? ≠
            params[t]? → t = j := by
          intro t ht
          by_contra htj
          exact ht (List.getElem?_set_ne (fun e => htj e.symm))
        cases (asm.findConstant inst.label).2.2 with
        | none =>
          refine ⟨by simp [Run.state], ?_⟩
          intro t ht
          have := hset t ht
          subst this
          simp
        | some c =>
          obtain ⟨h1, h2⟩ := ih (j + 1) (params.set j (asm.findConstant inst.label).2.1)
            (if (!(asm.findConstant inst.label).1) = true then false else ok)
          refine ⟨by simp only; rw [h1]; simp, ?_⟩
          intro t ht
          by_cases htj : t = j
          · subst htj
            simp
          · have hne : (params.set j (asm.findConstant inst.label).2.1)[t]? = params[t]? :=
              List.getElem?_set_ne (fun e => htj e.symm)
            simp only at ht
            rw [← hne] at ht
            obtain ⟨h3, h4⟩ := h2 t ht
            have e : t - j = (t - (j + 1)) + 1 := by omega
            refine ⟨by omega, ?_⟩
            rw [e]
            simpa using h4
      · simp only [hj, if_false]
        exact ⟨rfl, fun t h => absurd rfl h⟩
    · simp only [linkMethodArgs, h, if_false]
      obtain ⟨h1, h2⟩ := ih (j + 1) params ok
      refine ⟨h1, ?_⟩
      intro t ht
      obtain ⟨h3, h4⟩ := h2 t ht
      have e : t - j = (t - (j + 1)) + 1 := by omega
      refine ⟨by omega, ?_⟩
      rw [e]
      simpa using h4

theorem framed_refl (kind : ArgType) (flag : Instruction → Bool) (inst : Instruction) :
    framed kind flag inst inst :=
  ⟨⟨rfl, rfl, rfl, rfl, rfl, rfl, rfl, rfl⟩, fun _ h => absurd rfl h, fun _ => rfl⟩

theorem linkLabelInst_framed (m : Method) (inst : Instruction) :
    framed ArgType.ArgLabel Instruction.linkLabel inst (linkLabelInst m inst) := by
  by_cases hflag : inst.linkLabel = true
  · obtain ⟨h1, h2⟩ := linkLabelArgs_state_frame m inst inst.op.Args 0 inst.params true
    simp only [linkLabelInst, hflag, if_true]
    refine ⟨⟨rfl, rfl, rfl, rfl, rfl, rfl, rfl, h1⟩, ?_, ?_⟩
    · intro j hj
      have := (h2 j hj).2
      exact ⟨hflag, by simpa using this⟩
    · intro hf
      rw [hflag] at hf
      cases hf
  · have e : linkLabelInst m inst = inst := by simp [linkLabelInst, hflag]
    rw [e]
    exact framed_refl _ _ _

theorem linkMethodInst_framed (asm : Assembler) (inst : Instruction) :
    framed ArgType.ArgMethod Instruction.linkMethod inst (linkMethodInst asm inst) := by
  by_cases hflag : inst.linkMethod = true
  · obtain ⟨h1, h2⟩ := linkMethodArgs_state_frame asm inst inst.op.Args 0 inst.params true
    simp only [linkMethodInst, hflag, if_true]
    refine ⟨⟨rfl, rfl, rfl, rfl, rfl, rfl, rfl, h1⟩, ?_, ?_⟩
    · intro j hj
      have := (h2 j hj).2
      exact ⟨hflag, by simpa using this⟩
    · intro hf
      rw [hflag] at hf
      cases hf
  · have e : linkMethodInst asm inst = inst := by simp [linkMethodInst, hflag]
    rw [e]
    exact framed_refl _ _ _

theorem linkLabelsFrom_state_length (m : Method) (insts : List Instruction) (ok : Bool) :
    (linkLabelsFrom m insts ok).state.length = insts.length := by
  induction insts generalizing ok with
  | nil => rfl
  | cons p rest ih =>
    rw [linkLabelsFrom]
    by_cases hflag : p.linkLabel = true
    · simp only [hflag, Bool.not_true, Bool.false_eq_true, if_false]
      rcases linkLabelArgs m p p.op.Args 0 p.params ok with ⟨ps, ok1⟩ | ⟨ps, kd⟩
      · simp [Run.state_mapState, ih]
      · simp [Run.state]
    · have hflag2 : p.linkLabel = false := by simpa using hflag
      simp [hflag2, Run.state_mapState, ih]

theorem linkMethodsFrom_state_length (asm : Assembler) (insts : List Instruction) (ok : Bool) :
    (linkMethodsFrom asm insts ok).state.length = insts.length := by
  induction insts generalizing ok with
  | nil => rfl
  | cons p rest ih =>
    rw [linkMethodsFrom]
    by_cases hflag : p.linkMethod = true
    · simp only [hflag, Bool.not_true, Bool.false_eq_true, if_false]
      rcases linkMethodArgs asm p p.op.Args 0 p.params ok with ⟨ps, ok1⟩ | ⟨ps, kd⟩
      · simp [Run.state_mapState, ih]
      · simp [Run.state]
    · have hflag2 : p.linkMethod = false := by simpa using hflag
      simp [hflag2, Run.state_mapState, ih]

/-- At every position the state `LinkMethods` reaches holds either the
instruction untouched (the pass panicked earlier) or the instruction as the
loop body leaves it. -/
theorem linkMethodsFrom_state_get (asm : Assembler) (insts : List Instruction) (ok : Bool)
    (k : Nat) (inst : Instruction) (hk : insts[k]? = some inst) :
    (linkMethodsFrom asm insts ok).state[k]? = some inst ∨
      (linkMethodsFrom asm insts ok).state[k]? = some (linkMethodInst asm inst) := by
  induction insts generalizing ok k with
  | nil => simp at hk
  | cons p rest ih =>
    cases k with
    | zero =>
      have e : p = inst := by simpa using hk
      subst e
      exact Or.inr (linkMethodsFrom_head asm p rest ok)
    | succ k =>
      have hk2 : rest[k]? = some inst := by simpa using hk
      rw [linkMethodsFrom]
      by_cases hflag : p.linkMethod = true
      · simp only [hflag, Bool.not_true, Bool.false_eq_true, if_false]
        rcases linkMethodArgs asm p p.op.Args 0 p.params ok with ⟨ps, ok1⟩ | ⟨ps, kd⟩
        · simp only [Run.state_mapState, List.getElem?_cons_succ]
          exact ih ok1 k hk2
        · left
          simp only [Run.state, List.getElem?_cons_succ, hk2]
      · have hflag2 : p.linkMethod = false := by simpa using hflag
        simp only [hflag2, Bool.not_false, if_true, Run.state_mapState,
          List.getElem?_cons_succ]
        exact ih ok k hk2

/-- C17. In the state that `LinkLabels` (respectively `LinkMethods`) reaches,
which is the method it returns when it completes, the instruction list has the
same length and order: at every position stands the instruction that stood
there, with the same opcode descriptor, byte offset, line number, wide flag,
symbolic name and link flags and as many operand values; the name, variable
table, label table, end marker, byte counters, line number and wide flag of
the method are unchanged; an operand value differs only in a slot of kind
label (respectively method index) of an instruction whose `linkLabel`
(respectively `linkMethod`) flag is set; and an instruction without the flag
is untouched. -/
theorem link_passes_frame (m : Method) (asm : Assembler) :
    (m.LinkLabels.state.sameButInstructions m ∧
      ∀ (k : Nat) (inst : Instruction), m.instructions[k]? = some inst →
        ∃ inst1, m.LinkLabels.state.instructions[k]? = some inst1 ∧
          framed ArgType.ArgLabel Instruction.linkLabel inst inst1) ∧
    ((m.LinkMethods asm).state.sameButInstructions m ∧
      ∀ (k : Nat) (inst : Instruction), m.instructions[k]? = some inst →
        ∃ inst1, (m.LinkMethods asm).state.instructions[k]? = some inst1 ∧
          framed ArgType.ArgMethod Instruction.linkMethod inst inst1) ∧
    (∀ m1 ok, m.LinkLabels = Run.ret m1 ok → m.LinkLabels.state = m1) ∧
    (∀ m1 ok, m.LinkMethods asm = Run.ret m1 ok → (m.LinkMethods asm).state = m1) := by
  refine ⟨⟨?_, ?_⟩, ⟨?_, ?_⟩, ?_, ?_⟩
  · unfold Method.LinkLabels
    rw [Run.state_mapState]
    exact ⟨rfl, rfl, rfl, rfl, rfl, rfl, rfl, rfl, rfl,
      linkLabelsFrom_state_length m m.instructions true⟩
  · intro k inst hk
    unfold Method.LinkLabels
    rw [Run.state_mapState]
    rcases linkLabelsFrom_state_get m m.instructions true k inst hk with h | h
    · exact ⟨inst, h, framed_refl _ _ _⟩
    · exact ⟨_, h, linkLabelInst_framed m inst⟩
  · unfold Method.LinkMethods
    rw [Run.state_mapState]
    exact ⟨rfl, rfl, rfl, rfl, rfl, rfl, rfl, rfl, rfl,
      linkMethodsFrom_state_length asm m.instructions true⟩
  · intro k inst hk
    unfold Method.LinkMethods
    rw [Run.state_mapState]
    rcases linkMethodsFrom_state_get asm m.instructions true k inst hk with h | h
    · exact ⟨inst, h, framed_refl _ _ _⟩
    · exact ⟨_, h, linkMethodInst_framed asm inst⟩
  · intro m1 ok h
    rw [h]
    rfl
  · intro m1 ok h
    rw [h]
    rfl

/-! ## Narrowing of operands -/

theorem bytes16_read16 (bo : ByteOrder) (v : Nat) (hv : v < 65536) :
    ∃ b0 b1, bytes16 bo v = [b0, b1] ∧ b0 < 256 ∧ b1 < 256 ∧ read16 bo b0 b1 = v := by
  cases bo
  · exact ⟨v / 256 % 256, v % 256, rfl, by omega, by omega, by simp only [read16]; omega⟩
  · exact ⟨v % 256, v / 256 % 256, rfl, by omega, by omega, by simp only [read16]; omega⟩

/-- When the loop of `LinkLabels` returns, every instruction is as the loop
body leaves it. -/
theorem linkLabelsFrom_ret_eq_map (m : Method) (insts : List Instruction) (ok : Bool)
    (s : List Instruction) (r : Bool) (h : linkLabelsFrom m insts ok = Run.ret s r) :
    s = insts.map (linkLabelInst m) := by
  induction insts generalizing ok s r with
  | nil =>
    simp only [linkLabelsFrom, Run.ret.injEq] at h
    rw [← h.1]
    rfl
  | cons p rest ih =>
    rw [linkLabelsFrom] at h
    by_cases hflag : p.linkLabel = true
    · simp only [hflag, Bool.not_true, Bool.false_eq_true, if_false] at h
      have hst := linkLabelArgs_state_ok m p p.op.Args 0 p.params ok true
      rcases hr : linkLabelArgs m p p.op.Args 0 p.params ok with ⟨ps, ok1⟩ | ⟨ps, kd⟩
      · rw [hr] at h hst
        dsimp only at h
        rcases hr2 : linkLabelsFrom m rest ok1 with ⟨s2, r2⟩ | ⟨s2, kd⟩
        · rw [hr2] at h
          simp only [Run.mapState, Run.ret.injEq] at h
          rw [← h.1, ih ok1 s2 r2 hr2, List.map_cons]
          congr 1
          simp only [linkLabelInst, hflag, if_true]
          rw [← hst]
          rfl
        · rw [hr2] at h
          cases h
      · rw [hr] at h
        cases h
    · have hflag2 : p.linkLabel = false := by simpa using hflag
      simp only [hflag2, Bool.not_false, if_true] at h
      rcases hr2 : linkLabelsFrom m rest ok with ⟨s2, r2⟩ | ⟨s2, kd⟩
      · rw [hr2] at h
        simp only [Run.mapState, Run.ret.injEq] at h
        rw [← h.1, ih ok s2 r2 hr2, List.map_cons]
        congr 1
        simp [linkLabelInst, hflag2]
      · rw [hr2] at h
        cases h

theorem encodeOperands_split (bo : ByteOrder) (wide : Bool) (args : List ArgType)
    (vs : List Int) (j : Nat) (kind : ArgType) (v : Int)
    (hk : args[j]? = some kind) (hv : vs[j]? = some v) :
    encodeOperands bo wide args vs =
      encodeOperands bo wide (args.take j) vs ++ (encodeOperand bo wide kind v ++
        encodeOperands bo wide (args.drop (j + 1)) (vs.drop (j + 1))) := by
  induction args generalizing vs j with
  | nil => simp at hk
  | cons a rest ih =>
    cases vs with
    | nil => simp at hv
    | cons w ws =>
      cases j with
      | zero =>
        have e1 : a = kind := by simpa using hk
        have e2 : w = v := by simpa using hv
        subst e1 e2
        simp [encodeOperands]
      | succ j =>
        have hk2 : rest[j]? = some kind := by simpa using hk
        have hv2 : ws[j]? = some v := by simpa using hv
        simp only [List.take_succ_cons, List.drop_succ_cons, encodeOperands, List.append_assoc]
        rw [ih ws j hk2 hv2]

theorem flatten_map_split {α : Type} (f : α → List Nat) (l : List α) (k : Nat) (x : α)
    (hk : l[k]? = some x) :
    (l.map f).flatten =
      ((l.take k).map f).flatten ++ (f x ++ ((l.drop (k + 1)).map f).flatten) := by
  have hlt : k < l.length := (List.getElem?_eq_some_iff.mp hk).1
  have hget : l[k] = x := (List.getElem?_eq_some_iff.mp hk).2
  have hsplit : l = l.take k ++ x :: l.drop (k + 1) := by
    rw [← hget, List.getElem_cons_drop _ _ hlt, List.take_append_drop]
  conv => lhs; rw [hsplit]
  simp

theorem encodeInsts_length (bo : ByteOrder) (insts : List Instruction)
    (hlen : ∀ p ∈ insts, p.op.Args.length ≤ p.params.length) :
    ((insts.map (encodeInst bo)).flatten).length = (insts.map instWidth).sum := by
  rw [List.length_flatten, List.map_map]
  congr 1
  apply List.map_congr_left
  intro p hp
  exact encodeInst_length bo p (hlen p hp)

/-- Where `Generate` writes an operand: for a method on which it returns, the
output is the bytes before the operand, the encoding of the operand, and the
bytes after it; the bytes before it are those of the earlier instructions, the
opcode byte and the earlier operands. -/
theorem Generate_operand_field (m : Method) (bo : ByteOrder) (out : List Nat) (k j : Nat)
    (inst : Instruction) (kind : ArgType) (v : Int)
    (hK : ∀ p ∈ m.instructions, ∀ a ∈ p.op.Args, a.known = true)
    (hlen : ∀ p ∈ m.instructions, p.op.Args.length ≤ p.params.length)
    (hk : m.instructions[k]? = some inst) (hslot : inst.op.Args[j]? = some kind)
    (hv : inst.params[j]? = some v) :
    ∃ pre post, m.Generate bo out =
        Run.ret (out ++ pre ++ encodeOperand bo inst.wide kind v ++ post) () ∧
      pre.length = ((m.instructions.take k).map instWidth).sum + 1 +
        ((inst.op.Args.take j).map (operandWidth inst.wide)).sum := by
  have hgen := generateFrom_eq bo m.instructions out hK hlen
  have h1 := flatten_map_split (encodeInst bo) m.instructions k inst hk
  have h2 := encodeOperands_split bo inst.wide inst.op.Args inst.params j kind v hslot hv
  have hjlt : j < inst.params.length := (List.getElem?_eq_some_iff.mp hv).1
  have hl1 := encodeInsts_length bo (m.instructions.take k)
    (fun p hp => hlen p (List.mem_of_mem_take hp))
  have hl2 := encodeOperands_length bo inst.wide (inst.op.Args.take j) inst.params
    (by rw [List.length_take]; omega)
  refine ⟨((m.instructions.take k).map (encodeInst bo)).flatten ++
      ((inst.op.Opcode % 256) :: encodeOperands bo inst.wide (inst.op.Args.take j) inst.params),
    encodeOperands bo inst.wide (inst.op.Args.drop (j + 1)) (inst.params.drop (j + 1)) ++
      ((m.instructions.drop (k + 1)).map (encodeInst bo)).flatten, ?_, ?_⟩
  · unfold Method.Generate
    rw [hgen, h1]
    simp only [encodeInst]
    rw [h2]
    simp [List.append_assoc]
  · rw [List.length_append, List.length_cons, hl1, hl2]
    omega

/-- C15. Let `LinkLabels` return the method `m1`, and let a flagged instruction
name a declared label, so that its operand in a slot of kind label is the
displacement `d = label.B - instruction.B`. When the instructions use only the
five operand kinds and have their operand values, `Generate` on `m1` returns
and its output holds, right after the bytes of the earlier instructions, the
opcode and the earlier operands, the two bytes of `d mod 2^16`; read as a
signed 16-bit integer these two bytes give `d` back exactly when
`-32768 <= d <= 32767`. Likewise, on every such method, the output of
`Generate` holds at the place of a byte immediate `w` the single byte
`w mod 256`. -/
theorem Generate_narrows_operands (m m1 : Method) (ok : Bool) (bo : ByteOrder)
    (out : List Nat) (k j : Nat) (inst : Instruction) (lbl : Label)
    (hlink : m.LinkLabels = Run.ret m1 ok)
    (hk : m.instructions[k]? = some inst)
    (hflag : inst.linkLabel = true)
    (hfind : (m.findLabel inst.label).2.2 = some lbl)
    (hslot : inst.op.Args[j]? = some ArgType.ArgLabel)
    (hB : inst.B < 2 ^ 32) (hLB : lbl.B < 2 ^ 32)
    (hK : ∀ p ∈ m.instructions, ∀ a ∈ p.op.Args, a.known = true)
    (hlen : ∀ p ∈ m.instructions, p.op.Args.length ≤ p.params.length) :
    (∃ inst1, m1.instructions[k]? = some inst1 ∧
      inst1.params[j]? = some ((lbl.B : Int) - (inst.B : Int))) ∧
    (∃ pre post, m1.Generate bo out =
        Run.ret (out ++ pre ++
          bytes16 bo ((((lbl.B : Int) - (inst.B : Int)) % 65536).toNat) ++ post) () ∧
      pre.length = ((m1.instructions.take k).map instWidth).sum + 1 +
        ((inst.op.Args.take j).map (operandWidth inst.wide)).sum) ∧
    (∃ b0 b1, bytes16 bo ((((lbl.B : Int) - (inst.B : Int)) % 65536).toNat) = [b0, b1] ∧
      b0 < 256 ∧ b1 < 256 ∧
      (read16 bo b0 b1 : Int) = ((lbl.B : Int) - (inst.B : Int)) % 65536 ∧
      (signed16 (read16 bo b0 b1) = (lbl.B : Int) - (inst.B : Int) ↔
        -32768 ≤ (lbl.B : Int) - (inst.B : Int) ∧ (lbl.B : Int) - (inst.B : Int) ≤ 32767)) ∧
    (∀ (m2 : Method) (k2 j2 : Nat) (inst2 : Instruction) (w : Int),
      (∀ p ∈ m2.instructions, ∀ a ∈ p.op.Args, a.known = true) →
      (∀ p ∈ m2.instructions, p.op.Args.length ≤ p.params.length) →
      m2.instructions[k2]? = some inst2 → inst2.op.Args[j2]? = some ArgType.ArgByte →
      inst2.params[j2]? = some w →
      ∃ pre post, m2.Generate bo out =
          Run.ret (out ++ pre ++ [(w % 256).toNat] ++ post) () ∧
        pre.length = ((m2.instructions.take k2).map instWidth).sum + 1 +
          ((inst2.op.Args.take j2).map (operandWidth inst2.wide)).sum ∧
        (w % 256).toNat < 256 ∧ ((w % 256).toNat : Int) = w % 256) := by
  -- the method that `LinkLabels` returns
  have hm1 : m1.instructions = m.instructions.map (linkLabelInst m) := by
    unfold Method.LinkLabels at hlink
    rcases hr : linkLabelsFrom m m.instructions true with ⟨s, r⟩ | ⟨s, kd⟩
    · rw [hr] at hlink
      simp only [Run.mapState, Run.ret.injEq] at hlink
      rw [← hlink.1]
      exact linkLabelsFrom_ret_eq_map m m.instructions true s r hr
    · rw [hr] at hlink
      cases hlink
  have hinst : inst ∈ m.instructions := List.getElem?_mem hk
  have hjlt : j < inst.op.Args.length := (List.getElem?_eq_some_iff.mp hslot).1
  have hl := hlen inst hinst
  obtain ⟨i0, hfind2⟩ := findLabel_eq_of_lbl m inst.label lbl hfind
  have e := linkLabelArgs_found m inst i0 lbl hfind2 inst.op.Args 0 inst.params true (by omega)
  have hd := displacement_exact lbl.B inst.B hLB hB
  have hpar : (linkLabelInst m inst).params[j]? = some ((lbl.B : Int) - (inst.B : Int)) := by
    simp only [linkLabelInst, hflag, if_true, e, Run.state, Instruction.withParams, hd]
    have := setSlots_get_kind ArgType.ArgLabel ((lbl.B : Int) - (inst.B : Int)) inst.op.Args 0
      inst.params j hslot (by omega)
    simpa using this
  have hk1 : m1.instructions[k]? = some (linkLabelInst m inst) := by
    rw [hm1, List.getElem?_map, hk]
    rfl
  have hsame := (linkLabelInst_framed m inst).1
  have hK1 : ∀ p ∈ m1.instructions, ∀ a ∈ p.op.Args, a.known = true := by
    intro p hp
    rw [hm1] at hp
    obtain ⟨q, hq, rfl⟩ := List.mem_map.mp hp
    rw [(linkLabelInst_framed m q).1.1]
    exact hK q hq
  have hlen1 : ∀ p ∈ m1.instructions, p.op.Args.length ≤ p.params.length := by
    intro p hp
    rw [hm1] at hp
    obtain ⟨q, hq, rfl⟩ := List.mem_map.mp hp
    rw [(linkLabelInst_framed m q).1.1, (linkLabelInst_framed m q).1.2.2.2.2.2.2.2]
    exact hlen q hq
  refine ⟨⟨_, hk1, hpar⟩, ?_, ?_, ?_⟩
  · obtain ⟨pre, post, h1, h2⟩ := Generate_operand_field m1 bo out k j (linkLabelInst m inst)
      ArgType.ArgLabel _ hK1 hlen1 hk1 (by rw [hsame.1]; exact hslot) hpar
    refine ⟨pre, post, ?_, ?_⟩
    · rw [h1]
      simp only [encodeOperand, uint16]
    · rw [h2, hsame.1, hsame.2.2.2.2.2.2.1]
  · obtain ⟨b0, b1, h1, h2, h3, h4⟩ :=
      bytes16_read16 bo ((((lbl.B : Int) - (inst.B : Int)) % 65536).toNat) (by omega)
    refine ⟨b0, b1, h1, h2, h3, ?_, ?_⟩
    · rw [h4]; omega
    · rw [h4]
      unfold signed16
      split <;> simp only [Int.ofNat_eq_coe] <;> omega
  · intro m2 k2 j2 inst2 w hK2 hlen2 hk2 hslot2 hw
    obtain ⟨pre, post, h1, h2⟩ := Generate_operand_field m2 bo out k2 j2 inst2
      ArgType.ArgByte w hK2 hlen2 hk2 hslot2 hw
    refine ⟨pre, post, ?_, h2, by omega, by omega⟩
    rw [h1]
    simp only [encodeOperand, uint8]

/-- The backward jump of `exLoop` satisfies the hypotheses of C15: its
displacement -2 is written as the bytes 0xFF 0xFE after the six bytes before
it, and the byte immediate 7 as the byte 7. -/
theorem Generate_narrows_operands_witness :
    exLoop.LinkLabels = Run.ret exLoopLinked true ∧
    exLoopLinked.Generate ByteOrder.bigEndian [] =
      Run.ret ([] ++ [0xA7, 0, 8, 0x10, 7, 0xA7] ++ [0xFF, 0xFE] ++ []) () ∧
    ((∃ inst1, exLoopLinked.instructions[2]? = some inst1 ∧
      inst1.params[0]? = some (((3 : Nat) : Int) - ((5 : Nat) : Int))) ∧
    (∃ pre post, exLoopLinked.Generate ByteOrder.bigEndian [] =
        Run.ret ([] ++ pre ++ bytes16 ByteOrder.bigEndian
          ((((3 : Nat) : Int) - ((5 : Nat) : Int)) % 65536).toNat ++ post) () ∧
      pre.length = ((exLoopLinked.instructions.take 2).map instWidth).sum + 1 +
        ((exBack.op.Args.take 0).map (operandWidth exBack.wide)).sum) ∧
    (∃ b0 b1, bytes16 ByteOrder.bigEndian
        ((((3 : Nat) : Int) - ((5 : Nat) : Int)) % 65536).toNat = [b0, b1] ∧
      b0 < 256 ∧ b1 < 256 ∧
      (read16 ByteOrder.bigEndian b0 b1 : Int) =
        (((3 : Nat) : Int) - ((5 : Nat) : Int)) % 65536 ∧
      (signed16 (read16 ByteOrder.bigEndian b0 b1) = ((3 : Nat) : Int) - ((5 : Nat) : Int) ↔
        -32768 ≤ ((3 : Nat) : Int) - ((5 : Nat) : Int) ∧
          ((3 : Nat) : Int) - ((5 : Nat) : Int) ≤ 32767)) ∧
    (∀ (m2 : Method) (k2 j2 : Nat) (inst2 : Instruction) (w : Int),
      (∀ p ∈ m2.instructions, ∀ a ∈ p.op.Args, a.known = true) →
      (∀ p ∈ m2.instructions, p.op.Args.length ≤ p.params.length) →
      m2.instructions[k2]? = some inst2 → inst2.op.Args[j2]? = some ArgType.ArgByte →
      inst2.params[j2]? = some w →
      ∃ pre post, m2.Generate ByteOrder.bigEndian [] =
          Run.ret ([] ++ pre ++ [(w % 256).toNat] ++ post) () ∧
        pre.length = ((m2.instructions.take k2).map instWidth).sum + 1 +
          ((inst2.op.Args.take j2).map (operandWidth inst2.wide)).sum ∧
        (w % 256).toNat < 256 ∧ ((w % 256).toNat : Int) = w % 256)) :=
  ⟨by decide, by decide,
    Generate_narrows_operands exLoop exLoopLinked true ByteOrder.bigEndian [] 2 0 exBack
      ⟨"L1", 2, 3⟩ (by decide) (by decide) (by decide) (by decide) (by decide) (by decide)
      (by decide) (by decide) (by decide)⟩

/-! ## Insertion order -/

/-- The loop of `Generate` over a concatenation runs over the first part and,
if that returns, goes on with the second part on the output so far. -/
theorem generateFrom_append (bo : ByteOrder) (a b : List Instruction) (out : List Nat) :
    generateFrom bo (a ++ b) out =
      match generateFrom bo a out with
      | Run.ret o _ => generateFrom bo b o
      | Run.panic o k => Run.panic o k := by
  induction a generalizing out with
  | nil => rfl
  | cons p rest ih =>
    rw [List.cons_append, generateFrom, generateFrom]
    rcases generateArgs bo p p.op.Args 0 (mustWrite8 out p.op.Opcode) with ⟨o, u⟩ | ⟨o, kd⟩
    · exact ih o
    · rfl

theorem foldl_AppendInst_instructions (is : List Instruction) (m : Method) :
    (is.foldl Method.AppendInst m).instructions = m.instructions ++ is := by
  induction is generalizing m with
  | nil => simp
  | cons p rest ih =>
    rw [List.foldl_cons, ih]
    simp [Method.AppendInst]

/-- C18. After `AppendInst` the instruction list is the previous list followed
by the new instruction as its last element: the length grows by one and every
earlier instruction keeps its position; a sequence of `AppendInst` calls
leaves the instructions in the order of the calls. `Generate` emits in this
order: on the extended method it does what it does on the previous one and, if
that returns, goes on with the new instruction on the output so far; when the
instructions use only the five operand kinds and have their operand values,
the bytes written are those of the previous method followed by the encoding of
the new instruction. -/
theorem AppendInst_appends_in_order (m : Method) (inst : Instruction) :
    (m.AppendInst inst).instructions = m.instructions ++ [inst] ∧
    (m.AppendInst inst).instructions.length = m.instructions.length + 1 ∧
    (∀ k : Nat, k < m.instructions.length →
      (m.AppendInst inst).instructions[k]? = m.instructions[k]?) ∧
    (m.AppendInst inst).instructions[m.instructions.length]? = some inst ∧
    (∀ is : List Instruction,
      (is.foldl Method.AppendInst m).instructions = m.instructions ++ is) ∧
    (∀ (bo : ByteOrder) (out : List Nat),
      (m.AppendInst inst).Generate bo out =
        match m.Generate bo out with
        | Run.ret o _ => generateFrom bo [inst] o
        | Run.panic o k => Run.panic o k) ∧
    (∀ (bo : ByteOrder) (out : List Nat),
      (∀ p ∈ m.instructions ++ [inst], ∀ a ∈ p.op.Args, a.known = true) →
      (∀ p ∈ m.instructions ++ [inst], p.op.Args.length ≤ p.params.length) →
      ∃ o, m.Generate bo out = Run.ret o () ∧
        (m.AppendInst inst).Generate bo out = Run.ret (o ++ encodeInst bo inst) () ∧
        o = out ++ (m.instructions.map (encodeInst bo)).flatten) := by
  refine ⟨rfl, by simp [Method.AppendInst], ?_, by simp [Method.AppendInst],
    fun is => foldl_AppendInst_instructions is m, ?_, ?_⟩
  · intro k hk
    simp only [Method.AppendInst]
    exact List.getElem?_append_left hk
  · intro bo out
    exact generateFrom_append bo m.instructions [inst] out
  · intro bo out hk hlen
    have h1 := generateFrom_eq bo m.instructions out
      (fun p hp => hk p (List.mem_append_left _ hp))
      (fun p hp => hlen p (List.mem_append_left _ hp))
    have h2 := generateFrom_eq bo (m.instructions ++ [inst]) out hk hlen
    refine ⟨_, h1, ?_, rfl⟩
    simp only [Method.Generate, Method.AppendInst]
    rw [h2]
    simp

/-! ## The two link passes commute and are idempotent -/

theorem setSlots_getElem? (kind : ArgType) (v : Int) (args : List ArgType) (j : Nat)
    (ps : List Int) (t : Nat) :
    (setSlots kind v args j ps)[t]? =
      if j ≤ t ∧ args[t - j]? = some kind then (ps[t]?).map (fun _ => v) else ps[t]? := by
  by_cases hjt : j ≤ t
  · obtain ⟨u, rfl⟩ : ∃ u, t = j + u := ⟨t - j, by omega⟩
    have e : j + u - j = u := by omega
    rw [e]
    by_cases hk : args[u]? = some kind
    · simp only [hjt, hk, and_self, if_true]
      by_cases hlt : j + u < ps.length
      · rw [setSlots_get_kind kind v args j ps u hk hlt, List.getElem?_eq_getElem hlt]
        rfl
      · have h1 : ps[j + u]? = none := List.getElem?_eq_none (by omega)
        have h2 : (setSlots kind v args j ps)[j + u]? = none :=
          List.getElem?_eq_none (by rw [setSlots_length]; omega)
        rw [h1, h2]
        rfl
    · simp only [hk, and_false, if_false]
      exact setSlots_get_other kind v args j ps u hk
  · have hlt : t < j := by omega
    simp only [hjt, false_and, if_false]
    exact setSlots_get_lt kind v args j ps t hlt

theorem setSlots_comm (k1 k2 : ArgType) (hne : k1 ≠ k2) (v1 v2 : Int) (args : List ArgType)
    (ps : List Int) :
    setSlots k1 v1 args 0 (setSlots k2 v2 args 0 ps) =
      setSlots k2 v2 args 0 (setSlots k1 v1 args 0 ps) := by
  apply List.ext_getElem?
  intro t
  simp only [setSlots_getElem?, Nat.zero_le, true_and, Nat.sub_zero]
  by_cases h1 : args[t]? = some k1
  · have h2 : ¬ args[t]? = some k2 := by
      rw [h1]
      intro e
      exact hne (Option.some.inj e)
    simp [h1, h2, hne]
  · have hne2 : ¬ k2 = k1 := fun e => hne e.symm
    by_cases h2 : args[t]? = some k2 <;> simp [h1, h2, hne2]

theorem setSlots_idem (kind : ArgType) (v : Int) (args : List ArgType) (ps : List Int) :
    setSlots kind v args 0 (setSlots kind v args 0 ps) = setSlots kind v args 0 ps := by
  apply List.ext_getElem?
  intro t
  simp only [setSlots_getElem?, Nat.zero_le, true_and, Nat.sub_zero]
  by_cases h1 : args[t]? = some kind
  · simp only [h1, if_true, Option.map_map]
    cases ps[t]? <;> rfl
  · simp [h1]

theorem setSlots_no_slot (kind : ArgType) (v : Int) (args : List ArgType) (j : Nat)
    (ps : List Int) (h : kind ∉ args) : setSlots kind v args j ps = ps := by
  induction args generalizing j with
  | nil => rfl
  | cons a rest ih =>
    have ha : ¬ a = kind := fun e => h (by simp [e])
    simp only [setSlots, ha, if_false]
    exact ih (j + 1) (fun e => h (List.mem_cons_of_mem _ e))

/-- The loop body of `LinkLabels`, on an instruction on which it does not
panic, sets the label slots to the displacement. -/
theorem linkLabelInst_eq (m : Method) (q : Instruction) (h : labelLinkable m q) :
    linkLabelInst m q =
      if q.linkLabel then
        q.withParams (setSlots ArgType.ArgLabel (labelDisp m q) q.op.Args 0 q.params)
      else q := by
  by_cases hflag : q.linkLabel = true
  · simp only [linkLabelInst, hflag, if_true]
    congr 1
    by_cases hmem : ArgType.ArgLabel ∈ q.op.Args
    · obtain ⟨hf, hlen⟩ := h hflag hmem
      have hl : ((m.findLabel q.label).2.2).isSome = true := by
        have := findLabelFrom_found m.labels q.label 0
        unfold Method.findLabel at hf ⊢
        rw [← this, hf]
      obtain ⟨l, hl2⟩ := Option.isSome_iff_exists.mp hl
      obtain ⟨i, hfind⟩ := findLabel_eq_of_lbl m q.label l hl2
      rw [linkLabelArgs_found m q i l hfind q.op.Args 0 q.params true (by omega)]
      simp only [Run.state, labelDisp, hl2]
    · rw [linkLabelArgs_no_slot m q q.op.Args hmem, setSlots_no_slot _ _ _ _ _ hmem]
      rfl
  · have hflag2 : q.linkLabel = false := by simpa using hflag
    simp [linkLabelInst, hflag2]

/-- The loop body of `LinkMethods`, on an instruction on which it does not
panic, sets the method-index slots to the index of the lookup. -/
theorem linkMethodInst_eq (asm : Assembler) (q : Instruction) (h : methodLinkable asm q) :
    linkMethodInst asm q =
      if q.linkMethod then
        q.withParams
          (setSlots ArgType.ArgMethod (asm.findConstant q.label).2.1 q.op.Args 0 q.params)
      else q := by
  by_cases hflag : q.linkMethod = true
  · simp only [linkMethodInst, hflag, if_true]
    congr 1
    by_cases hmem : ArgType.ArgMethod ∈ q.op.Args
    · obtain ⟨hd, hlen⟩ := h hflag hmem
      rcases hm : asm.findConstant q.label with ⟨f, idx, mtd⟩
      rw [hm] at hd
      obtain ⟨c, rfl⟩ := Option.ne_none_iff_exists'.mp hd
      rw [linkMethodArgs_descriptor asm q f idx c hm q.op.Args 0 q.params true (by omega)]
      rfl
    · rw [linkMethodArgs_no_slot asm q q.op.Args hmem, setSlots_no_slot _ _ _ _ _ hmem]
      rfl
  · have hflag2 : q.linkMethod = false := by simpa using hflag
    simp [linkMethodInst, hflag2]

theorem labelLinkable_of_same (m m2 : Method) (q q2 : Instruction)
    (hl : m2.labels = m.labels) (hs : q2.sameButParams q) (h : labelLinkable m q) :
    labelLinkable m2 q2 := by
  obtain ⟨h1, h2, h3, _, _, _, _, h8⟩ := hs
  intro hflag hmem
  rw [h3] at hflag
  rw [h1] at hmem
  obtain ⟨hf, hlen⟩ := h hflag hmem
  unfold Method.findLabel at hf ⊢
  rw [hl, h2, h1, h8]
  exact ⟨hf, hlen⟩

theorem methodLinkable_of_same (asm : Assembler) (q q2 : Instruction)
    (hs : q2.sameButParams q) (h : methodLinkable asm q) : methodLinkable asm q2 := by
  obtain ⟨h1, h2, _, h4, _, _, _, h8⟩ := hs
  intro hflag hmem
  rw [h4] at hflag
  rw [h1] at hmem
  obtain ⟨hf, hlen⟩ := h hflag hmem
  rw [h2, h1, h8]
  exact ⟨hf, hlen⟩

theorem methodResolved_of_same (asm : Assembler) (q q2 : Instruction)
    (hs : q2.sameButParams q) : methodResolved asm q2 = methodResolved asm q := by
  obtain ⟨h1, h2, _, h4, _, _, _, _⟩ := hs
  unfold methodResolved
  rw [h1, h2, h4]

theorem linkLabelInst_same_labels (m m2 : Method) (hl : m2.labels = m.labels)
    (q : Instruction) : linkLabelInst m2 q = linkLabelInst m q := by
  unfold linkLabelInst
  rw [linkLabelArgs_congr m m2 q (fun name => by unfold Method.findLabel; rw [hl]; exact ⟨rfl, rfl⟩)]

/-- On an instruction on which neither loop body panics, the two loop bodies
commute. -/
theorem linkInst_comm (m : Method) (asm : Assembler) (q : Instruction)
    (hL : labelLinkable m q) (hM : methodLinkable asm q) :
    linkMethodInst asm (linkLabelInst m q) = linkLabelInst m (linkMethodInst asm q) := by
  have hL2 : labelLinkable m (linkMethodInst asm q) :=
    labelLinkable_of_same m m q _ rfl (linkMethodInst_framed asm q).1 hL
  have hM2 : methodLinkable asm (linkLabelInst m q) :=
    methodLinkable_of_same asm q _ (linkLabelInst_framed m q).1 hM
  rw [linkMethodInst_eq asm _ hM2, linkLabelInst_eq m _ hL2, linkLabelInst_eq m q hL,
    linkMethodInst_eq asm q hM]
  cases h1 : q.linkLabel <;> cases h2 : q.linkMethod
  · simp [h1, h2]
  · simp [h1, h2, Instruction.withParams]
  · simp [h1, h2, Instruction.withParams]
  · simp only [if_true, Instruction.withParams, h1, h2, labelDisp]
    rw [setSlots_comm ArgType.ArgMethod ArgType.ArgLabel (by decide)]

theorem linkLabelInst_idem (m : Method) (q : Instruction) (hL : labelLinkable m q) :
    linkLabelInst m (linkLabelInst m q) = linkLabelInst m q := by
  have hL2 : labelLinkable m (linkLabelInst m q) :=
    labelLinkable_of_same m m q _ rfl (linkLabelInst_framed m q).1 hL
  rw [linkLabelInst_eq m _ hL2, linkLabelInst_eq m q hL]
  cases h1 : q.linkLabel
  · simp [h1]
  · simp only [if_true, Instruction.withParams, h1, labelDisp]
    rw [setSlots_idem]

theorem linkMethodInst_idem (asm : Assembler) (q : Instruction) (hM : methodLinkable asm q) :
    linkMethodInst asm (linkMethodInst asm q) = linkMethodInst asm q := by
  have hM2 : methodLinkable asm (linkMethodInst asm q) :=
    methodLinkable_of_same asm q _ (linkMethodInst_framed asm q).1 hM
  rw [linkMethodInst_eq asm _ hM2, linkMethodInst_eq asm q hM]
  cases h1 : q.linkMethod
  · simp [h1]
  · simp only [if_true, Instruction.withParams, h1]
    rw [setSlots_idem]

/-- C19. For every method in which every referenced label and method resolves
(neither loop body panics on any instruction and every lookup of a method
reports found): `LinkLabels` followed by `LinkMethods` and `LinkMethods`
followed by `LinkLabels` both return `true` twice and end in the same method,
and running `LinkLabels` again after `LinkLabels`, or `LinkMethods` again
after `LinkMethods`, returns `true` and changes nothing. -/
theorem link_passes_commute (m : Method) (asm : Assembler)
    (hL : ∀ p ∈ m.instructions, labelLinkable m p)
    (hM : ∀ p ∈ m.instructions, methodLinkable asm p)
    (hR : ∀ p ∈ m.instructions, methodResolved asm p = true) :
    ∃ m1 m2 mf, m.LinkLabels = Run.ret m1 true ∧ m1.LinkMethods asm = Run.ret mf true ∧
      m.LinkMethods asm = Run.ret m2 true ∧ m2.LinkLabels = Run.ret mf true ∧
      m1.LinkLabels = Run.ret m1 true ∧ m2.LinkMethods asm = Run.ret m2 true := by
  have hall : m.instructions.all (methodResolved asm) = true := by
    rw [List.all_eq_true]
    exact hR
  have e1 := LinkLabels_linkable m hL
  have e2 := LinkMethods_linkable m asm hM
  rw [hall] at e2
  -- the pass over the labels, then over the methods
  have hM1 : ∀ p ∈ m.instructions.map (linkLabelInst m), methodLinkable asm p := by
    intro p hp
    obtain ⟨q, hq, rfl⟩ := List.mem_map.mp hp
    exact methodLinkable_of_same asm q _ (linkLabelInst_framed m q).1 (hM q hq)
  have hall1 : (m.instructions.map (linkLabelInst m)).all (methodResolved asm) = true := by
    rw [List.all_eq_true]
    intro p hp
    obtain ⟨q, hq, rfl⟩ := List.mem_map.mp hp
    rw [methodResolved_of_same asm q _ (linkLabelInst_framed m q).1]
    exact hR q hq
  have e3 := LinkMethods_linkable
    { m with instructions := m.instructions.map (linkLabelInst m) } asm hM1
  simp only [hall1] at e3
  -- the pass over the methods, then over the labels
  have hL2 : ∀ p ∈ m.instructions.map (linkMethodInst asm),
      labelLinkable { m with instructions := m.instructions.map (linkMethodInst asm) } p := by
    intro p hp
    obtain ⟨q, hq, rfl⟩ := List.mem_map.mp hp
    exact labelLinkable_of_same m _ q _ rfl (linkMethodInst_framed asm q).1 (hL q hq)
  have e4 := LinkLabels_linkable
    { m with instructions := m.instructions.map (linkMethodInst asm) } hL2
  -- a second run of the same pass
  have hL1 : ∀ p ∈ m.instructions.map (linkLabelInst m),
      labelLinkable { m with instructions := m.instructions.map (linkLabelInst m) } p := by
    intro p hp
    obtain ⟨q, hq, rfl⟩ := List.mem_map.mp hp
    exact labelLinkable_of_same m _ q _ rfl (linkLabelInst_framed m q).1 (hL q hq)
  have e5 := LinkLabels_linkable
    { m with instructions := m.instructions.map (linkLabelInst m) } hL1
  have hM2 : ∀ p ∈ m.instructions.map (linkMethodInst asm), methodLinkable asm p := by
    intro p hp
    obtain ⟨q, hq, rfl⟩ := List.mem_map.mp hp
    exact methodLinkable_of_same asm q _ (linkMethodInst_framed asm q).1 (hM q hq)
  have hall2 : (m.instructions.map (linkMethodInst asm)).all (methodResolved asm) = true := by
    rw [List.all_eq_true]
    intro p hp
    obtain ⟨q, hq, rfl⟩ := List.mem_map.mp hp
    rw [methodResolved_of_same asm q _ (linkMethodInst_framed asm q).1]
    exact hR q hq
  have e6 := LinkMethods_linkable
    { m with instructions := m.instructions.map (linkMethodInst asm) } asm hM2
  simp only [hall2] at e6
  -- the lists of instructions that result
  have hcomm : (m.instructions.map (linkMethodInst asm)).map
      (linkLabelInst { m with instructions := m.instructions.map (linkMethodInst asm) }) =
      (m.instructions.map (linkLabelInst m)).map (linkMethodInst asm) := by
    rw [List.map_map, List.map_map]
    apply List.map_congr_left
    intro q hq
    simp only [Function.comp]
    rw [linkLabelInst_same_labels m
      { m with instructions := m.instructions.map (linkMethodInst asm) } rfl,
      linkInst_comm m asm q (hL q hq) (hM q hq)]
  have hidemL : (m.instructions.map (linkLabelInst m)).map
      (linkLabelInst { m with instructions := m.instructions.map (linkLabelInst m) }) =
      m.instructions.map (linkLabelInst m) := by
    rw [List.map_map]
    apply List.map_congr_left
    intro q hq
    simp only [Function.comp]
    rw [linkLabelInst_same_labels m
      { m with instructions := m.instructions.map (linkLabelInst m) } rfl,
      linkLabelInst_idem m q (hL q hq)]
  have hidemM : (m.instructions.map (linkMethodInst asm)).map (linkMethodInst asm) =
      m.instructions.map (linkMethodInst asm) := by
    rw [List.map_map]
    apply List.map_congr_left
    intro q hq
    simp only [Function.comp]
    rw [linkMethodInst_idem asm q (hM q hq)]
  refine ⟨{ m with instructions := m.instructions.map (linkLabelInst m) },
    { m with instructions := m.instructions.map (linkMethodInst asm) },
    { m with instructions := (m.instructions.map (linkLabelInst m)).map (linkMethodInst asm) },
    e1, e3, e2, ?_, ?_, ?_⟩
  · rw [e4]
    simp only [hcomm]
  · rw [e5]
    simp only [hidemL]
  · rw [e6]
    simp only [hidemM]

/-- The method `exBoth` satisfies the hypotheses of C19; both orders end with
the operands 1, 6 and 0. -/
theorem link_passes_commute_witness :
    (∃ m1 m2 mf, exBoth.LinkLabels = Run.ret m1 true ∧
      m1.LinkMethods exPool = Run.ret mf true ∧
      exBoth.LinkMethods exPool = Run.ret m2 true ∧ m2.LinkLabels = Run.ret mf true ∧
      m1.LinkLabels = Run.ret m1 true ∧ m2.LinkMethods exPool = Run.ret m2 true) ∧
    (exBoth.LinkLabels.state.LinkMethods exPool).state.instructions.map Instruction.params =
      [[1], [6], [0]] ∧
    ((exBoth.LinkMethods exPool).state.LinkLabels).state.instructions.map Instruction.params =
      [[1], [6], [0]] :=
  ⟨link_passes_commute exBoth exPool (by decide) (by decide) (by decide), by decide,
    by decide⟩

end ijvmasm
